import Mathlib

/-!
The B+ tree of `BTree.h`

A shallow embedding of the templated class `BTree<K,T>` with `K = int`.

* Node pointers (`DataNode_t*`) are indices into an arena `Mem.nodes`;
  `none` is `NULL`, `new DataNode(..)` appends to the arena, nothing is freed
  before the destructor.
* Payload pointers (`T*`) are `Option Nat`: an address or `NULL`.
* `std::vector::at` and the iterator ranges of `split` and
  `vector::insert` return `Fault.out_of_range` when they leave the vector.
* Recursive descents carry a fuel counter; `Fault.no_return` stands for a
  descent that has not ended when the fuel is used up.
* `int` is 32 bits wide and `size_t` 64 bits; `Fault.length_error` is the
  `std::length_error` of `vector::resize`.
-/

namespace BPlusTree

/-- Ways in which a call can fail to return normally. -/
inductive Fault where
  | out_of_range
  | bad_pointer
  | no_return
  | length_error
deriving DecidableEq

/-- The tuple `data_entry`: `get0` left node, `get1` key, `get2` data pointer,
`get3` right node. -/
structure data_entry where
  get0 : Option Nat
  get1 : Int
  get2 : Option Nat
  get3 : Option Nat
deriving DecidableEq

/-- A value-initialised tuple, as produced by `data_entry new_entry;` and by
`vector::resize`. -/
def data_entry.default : data_entry :=
  { get0 := none, get1 := 0, get2 := none, get3 := none }

/-- The call `v.at(i)`. -/
def vec_at (v : List data_entry) (i : Nat) : Except Fault data_entry :=
  match v[i]? with
  | some e => .ok e
  | none => .error .out_of_range

/-- The call `v.resize(n)`. -/
def vec_resize (v : List data_entry) (n : Nat) : List data_entry :=
  v.take n ++ List.replicate (n - v.length) data_entry.default

/-- The call `v.insert(v.begin() + index, entry)`. -/
def vec_insert (v : List data_entry) (index : Nat) (entry : data_entry) :
    Except Fault (List data_entry) :=
  if index ≤ v.length then .ok (v.take index ++ entry :: v.drop index)
  else .error .out_of_range

/-- The constructor `vector<data_entry>(v.begin() + a, v.begin() + b)`. -/
def vec_range (v : List data_entry) (a b : Nat) : Except Fault (List data_entry) :=
  if a ≤ b ∧ b ≤ v.length then .ok ((v.drop a).take (b - a))
  else .error .out_of_range

/-- The struct `DataNode_t`. -/
structure DataNode_t where
  m_entries : List data_entry
  m_num_entries : Nat
  m_right : Option Nat
  m_max_entries : Nat
  m_is_leaf : Bool
deriving DecidableEq

namespace DataNode_t

/-- The constructor `DataNode_t(max_entries, is_leaf)`. -/
def new (max_entries : Nat) (is_leaf : Bool) : DataNode_t :=
  { m_entries := vec_resize [] max_entries
    m_num_entries := 0
    m_right := none
    m_max_entries := max_entries
    m_is_leaf := is_leaf }

/-- The `for` loop of `next` from counter `i` with `r` iterations left, and
the code after the loop. -/
def next_loop (m_entries : List data_entry) (key : Int) :
    Nat → Nat → Except Fault (Option Nat)
  | i, 0 =>
    match vec_at m_entries (i - 1) with
    | .ok e => .ok e.get3
    | .error f => .error f
  | i, r + 1 =>
    match vec_at m_entries i with
    | .error f => .error f
    | .ok e =>
      if e.get1 > key then .ok e.get0
      else if e.get1 = key then .ok e.get3
      else next_loop m_entries key (i + 1) r

/-- The method `next(key)`. -/
def next (n : DataNode_t) (key : Int) : Except Fault (Option Nat) :=
  if n.m_num_entries = 0 then .ok none
  else next_loop n.m_entries key 0 n.m_num_entries

/-- The `for` loop of `retrieve` from counter `i` with `r` iterations left. -/
def retrieve_loop (m_entries : List data_entry) (key : Int) :
    Nat → Nat → Except Fault (Option Nat)
  | _, 0 => .ok none
  | i, r + 1 =>
    match vec_at m_entries i with
    | .error f => .error f
    | .ok e =>
      if key = e.get1 then .ok e.get2
      else retrieve_loop m_entries key (i + 1) r

/-- The method `retrieve(key)`. -/
def retrieve (n : DataNode_t) (key : Int) : Except Fault (Option Nat) :=
  if n.m_num_entries = 0 then .ok none
  else retrieve_loop n.m_entries key 0 n.m_num_entries

/-- The index search loop of `insert` from counter `i` with `r` iterations
left; the result is the value of `i` when the loop is left. -/
def insert_loop (m_entries : List data_entry) (key : Int) :
    Nat → Nat → Except Fault Nat
  | i, 0 => .ok i
  | i, r + 1 =>
    match vec_at m_entries i with
    | .error f => .error f
    | .ok e =>
      if key ≤ e.get1 then .ok i
      else insert_loop m_entries key (i + 1) r

/-- The assignment `get<3>(v.at(i)) = p`. -/
def set_get3 (v : List data_entry) (i : Nat) (p : Option Nat) :
    Except Fault (List data_entry) :=
  match vec_at v i with
  | .error f => .error f
  | .ok e => .ok (v.set i { e with get3 := p })

/-- The assignment `get<0>(v.at(i)) = p`. -/
def set_get0 (v : List data_entry) (i : Nat) (p : Option Nat) :
    Except Fault (List data_entry) :=
  match vec_at v i with
  | .error f => .error f
  | .ok e => .ok (v.set i { e with get0 := p })

/-- The method `insert(entry)`; the Boolean is the returned value. -/
def insert (n : DataNode_t) (entry : data_entry) : Except Fault (Bool × DataNode_t) :=
  let found : Except Fault Nat :=
    if n.m_num_entries = 0 then .ok 0
    else insert_loop n.m_entries entry.get1 0 n.m_num_entries
  match found with
  | .error f => .error f
  | .ok index =>
    let num := n.m_num_entries + 1
    match vec_insert n.m_entries index entry with
    | .error f => .error f
    | .ok v1 =>
      let left : Except Fault (List data_entry) :=
        if index ≠ 0 then set_get3 v1 (index - 1) entry.get0 else .ok v1
      match left with
      | .error f => .error f
      | .ok v2 =>
        let right : Except Fault (List data_entry) :=
          if index ≠ num - 1 then set_get0 v2 (index + 1) entry.get3 else .ok v2
        match right with
        | .error f => .error f
        | .ok v3 => .ok (true, { n with m_entries := v3, m_num_entries := num })

/-- The method `is_full()`. -/
def is_full (n : DataNode_t) : Bool :=
  decide (n.m_num_entries ≥ n.m_max_entries)

end DataNode_t

/-- The arena of allocated nodes.  `full_inserts` is a ghost counter of the
calls of `DataNode_t::insert` whose receiver was full at the time of the
call; no operation reads it. -/
structure Mem where
  nodes : List DataNode_t
  full_inserts : Nat
deriving DecidableEq

namespace Mem

/-- Dereference of a node pointer. -/
def deref (m : Mem) (p : Nat) : Except Fault DataNode_t :=
  match m.nodes[p]? with
  | some n => .ok n
  | none => .error .bad_pointer

/-- Write through a node pointer. -/
def store (m : Mem) (p : Nat) (n : DataNode_t) : Mem :=
  { m with nodes := m.nodes.set p n }

/-- The expression `new DataNode(..)`: the arena after the allocation and the
new pointer. -/
def alloc (m : Mem) (n : DataNode_t) : Mem × Nat :=
  ({ m with nodes := m.nodes ++ [n] }, m.nodes.length)

/-- The call `p->insert(entry)` on the node at `p`. -/
def call_insert (m : Mem) (p : Nat) (entry : data_entry) : Except Fault Mem :=
  match m.deref p with
  | .error f => .error f
  | .ok n =>
    match n.insert entry with
    | .error f => .error f
    | .ok (_, n1) =>
      .ok { nodes := m.nodes.set p n1
            full_inserts := if n.is_full then m.full_inserts + 1 else m.full_inserts }

end Mem

/-- The method `BTree::split(to_split, is_leaf, new_entry)`; `new_entry` is
passed by reference, its final value is returned. -/
def split (m_max_entries : Nat) (m : Mem) (to_split : Nat) (is_leaf : Bool)
    (new_entry : data_entry) : Except Fault (Mem × data_entry) :=
  let half_size := m_max_entries / 2
  let (m1, right_node) := m.alloc (DataNode_t.new m_max_entries is_leaf)
  match m1.deref to_split with
  | .error f => .error f
  | .ok ts =>
    match vec_at ts.m_entries half_size with
    | .error f => .error f
    | .ok mid =>
      let mid_key := mid.get1
      match vec_range ts.m_entries (half_size + (if is_leaf then 0 else 1)) m_max_entries with
      | .error f => .error f
      | .ok rs =>
        let rn : DataNode_t :=
          { m_entries := vec_resize rs m_max_entries
            m_num_entries := rs.length
            m_right := ts.m_right
            m_max_entries := m_max_entries
            m_is_leaf := is_leaf }
        match vec_range ts.m_entries 0 half_size with
        | .error f => .error f
        | .ok ls =>
          let tn : DataNode_t :=
            { ts with
              m_entries := vec_resize ls m_max_entries
              m_num_entries := ls.length
              m_right := some right_node }
          let m2 := (m1.store right_node rn).store to_split tn
          let placed : Except Fault Mem :=
            if mid_key < new_entry.get1 then m2.call_insert right_node new_entry
            else m2.call_insert to_split new_entry
          match placed with
          | .error f => .error f
          | .ok m3 =>
            .ok (m3, { new_entry with
                        get0 := some to_split
                        get1 := mid_key
                        get3 := some right_node })

/-- The method `BTree::insert_recursive(curr, key, data, entry)`; `entry` is
passed by reference, its final value is returned with the Boolean. -/
def insert_recursive (m_max_entries : Nat) :
    Nat → Mem → Nat → Int → Option Nat → data_entry →
      Except Fault (Bool × Mem × data_entry)
  | 0, _, _, _, _, _ => .error .no_return
  | fuel + 1, m, curr, key, data, entry =>
    match m.deref curr with
    | .error f => .error f
    | .ok c =>
      match c.next key with
      | .error f => .error f
      | .ok (some child) =>
        match insert_recursive m_max_entries fuel m child key data entry with
        | .error f => .error f
        | .ok (true, m1, entry1) =>
          match m1.deref curr with
          | .error f => .error f
          | .ok c1 =>
            if c1.is_full then
              match split m_max_entries m1 curr false entry1 with
              | .error f => .error f
              | .ok (m2, entry2) => .ok (true, m2, entry2)
            else
              match m1.call_insert curr entry1 with
              | .error f => .error f
              | .ok m2 => .ok (false, m2, entry1)
        | .ok (false, m1, entry1) => .ok (false, m1, entry1)
      | .ok none =>
        if c.is_full then
          match split m_max_entries m curr true entry with
          | .error f => .error f
          | .ok (m2, entry2) => .ok (true, m2, entry2)
        else
          match m.call_insert curr entry with
          | .error f => .error f
          | .ok m2 => .ok (false, m2, entry)

/-- The method `BTree::retrieve_recursive(key, curr)`. -/
def retrieve_recursive :
    Nat → Mem → Int → Nat → Except Fault (Option Nat)
  | 0, _, _, _ => .error .no_return
  | fuel + 1, m, key, curr =>
    match m.deref curr with
    | .error f => .error f
    | .ok c =>
      match c.next key with
      | .error f => .error f
      | .ok none => c.retrieve key
      | .ok (some child) => retrieve_recursive fuel m key child

/-- The value of `v.max_size()` for a `vector<data_entry>`: `PTRDIFF_MAX`
divided by the size of an entry, with a 64-bit `ptrdiff_t`. -/
def vec_max_size (sizeof_entry : Nat) : Nat :=
  (2 ^ 63 - 1) / sizeof_entry

/-- The conversion of an `int` to the 64-bit unsigned `size_t`. -/
def to_size_t (i : Int) : Nat :=
  (i % 2 ^ 64).toNat

/-- The conversion of a `size_t` to the 32-bit `int`. -/
def to_int (n : Nat) : Int :=
  ((n : Int) + 2 ^ 31) % 2 ^ 32 - 2 ^ 31

/-- The class `BTree<int,T>`: its members and the arena its nodes live in. -/
structure BTree where
  mem : Mem
  m_root : Nat
  m_block_size : Int
  m_max_entries : Nat
  m_depth : Nat
deriving DecidableEq

namespace BTree

/-- The constant `BLOCK_SIZE`. -/
def BLOCK_SIZE : Nat := 4096

/-- The constructor `BTree(int block_size)` for a block size that is not
negative; `sizeof_entry` is `sizeof(data_entry)`. -/
def new (sizeof_entry block_size : Nat) : BTree :=
  let max_entries := block_size / sizeof_entry
  { mem := { nodes := [DataNode_t.new max_entries true], full_inserts := 0 }
    m_root := 0
    m_block_size := block_size
    m_max_entries := max_entries
    m_depth := 0 }

/-- The constructor `BTree(int block_size)` for any `int`.  The quotient
`block_size / sizeof(data_entry)` is computed in `size_t` and stored in the
`int` member `m_max_entries`; `DataNode_t(m_max_entries, true)` passes it to
`m_entries.resize`, which converts it to `size_t` again and throws
`std::length_error` when it exceeds `max_size()`. -/
def construct (sizeof_entry : Nat) (block_size : Int) : Except Fault BTree :=
  let m_max_entries : Int := to_int (to_size_t block_size / sizeof_entry)
  let wanted : Nat := to_size_t m_max_entries
  if wanted > vec_max_size sizeof_entry then .error .length_error
  else
    .ok { mem := { nodes := [DataNode_t.new wanted true], full_inserts := 0 }
          m_root := 0
          m_block_size := block_size
          m_max_entries := wanted
          m_depth := 0 }

/-- The default constructor `BTree()`. -/
def new_default (sizeof_entry : Nat) : BTree :=
  new sizeof_entry BLOCK_SIZE

/-- Fuel given to a descent: a descent that visits more nodes than the arena
holds has visited one of them twice. -/
def fuel (t : BTree) : Nat :=
  t.mem.nodes.length + 1

/-- The method `BTree::insert(key, data)`; the Boolean is the returned
value. -/
def insert (t : BTree) (key : Int) (data : Option Nat) : Except Fault (Bool × BTree) :=
  let new_entry : data_entry := { data_entry.default with get1 := key, get2 := data }
  match insert_recursive t.m_max_entries t.fuel t.mem t.m_root key data new_entry with
  | .error f => .error f
  | .ok (true, m1, entry1) =>
    let (m2, root) := m1.alloc (DataNode_t.new t.m_max_entries false)
    match m2.call_insert root entry1 with
    | .error f => .error f
    | .ok m3 => .ok (true, { t with mem := m3, m_root := root, m_depth := t.m_depth + 1 })
  | .ok (false, m1, _) => .ok (true, { t with mem := m1 })

/-- The method `BTree::retrieve(key)`. -/
def retrieve (t : BTree) (key : Int) : Except Fault (Option Nat) :=
  retrieve_recursive t.fuel t.mem key t.m_root

/-- The method `BTree::depth()`. -/
def depth (t : BTree) : Nat :=
  t.m_depth

/-- A sequence of calls `insert(key, data)`, in list order. -/
def insert_all : BTree → List (Int × Option Nat) → Except Fault BTree
  | t, [] => .ok t
  | t, (key, data) :: rest =>
    match t.insert key data with
    | .error f => .error f
    | .ok (_, t1) => insert_all t1 rest

end BTree

/-! ## Walking the leaf level -/

/-- The descent from `curr` to the leftmost leaf: as long as the node is not a
leaf, go to `get<0>(m_entries.at(0))`, the way the destructor descends. -/
def leftmost_leaf : Nat → Mem → Nat → Except Fault Nat
  | 0, _, _ => .error .no_return
  | fuel + 1, m, curr =>
    match m.deref curr with
    | .error f => .error f
    | .ok c =>
      if c.m_is_leaf then .ok curr
      else
        match vec_at c.m_entries 0 with
        | .error f => .error f
        | .ok e =>
          match e.get0 with
          | none => .error .bad_pointer
          | some child => leftmost_leaf fuel m child

/-- The nodes met from `curr` on by following `m_right` until it is `NULL`. -/
def sibling_chain : Nat → Mem → Nat → Except Fault (List Nat)
  | 0, _, _ => .error .no_return
  | fuel + 1, m, curr =>
    match m.deref curr with
    | .error f => .error f
    | .ok c =>
      match c.m_right with
      | none => .ok [curr]
      | some r =>
        match sibling_chain fuel m r with
        | .error f => .error f
        | .ok rest => .ok (curr :: rest)

/-- The keys of the valid entries of one node, in index order. -/
def node_keys (m : Mem) (a : Nat) : List Int :=
  match m.nodes[a]? with
  | some n => (n.m_entries.take n.m_num_entries).map (fun e => e.get1)
  | none => []

/-- The keys of the valid entries of the listed nodes, node after node. -/
def chain_keys (m : Mem) : List Nat → List Int
  | [] => []
  | a :: rest => node_keys m a ++ chain_keys m rest

/-- The leaves of a tree in sibling order, from the leftmost one. -/
def BTree.leaves (t : BTree) : Except Fault (List Nat) :=
  match leftmost_leaf t.fuel t.mem t.m_root with
  | .error f => .error f
  | .ok l => sibling_chain t.fuel t.mem l

/-- The keys met by the walk along the leaves. -/
def BTree.leaf_keys (t : BTree) : Except Fault (List Int) :=
  match t.leaves with
  | .error f => .error f
  | .ok ns => .ok (chain_keys t.mem ns)

/-- The value returned by `retrieve(key)` on the tree made by
`BTree(block_size)` followed by the inserts `ops`. -/
def BTree.retrieve_after (sizeof_entry block_size : Nat) (ops : List (Int × Option Nat))
    (key : Int) : Except Fault (Option Nat) :=
  match BTree.insert_all (BTree.new sizeof_entry block_size) ops with
  | .error f => .error f
  | .ok t => t.retrieve key

/-- The value returned by `depth()` on the tree made by `BTree(block_size)`
followed by the inserts `ops`. -/
def BTree.depth_after (sizeof_entry block_size : Nat) (ops : List (Int × Option Nat)) :
    Except Fault Nat :=
  match BTree.insert_all (BTree.new sizeof_entry block_size) ops with
  | .error f => .error f
  | .ok t => .ok t.depth

/-- The keys met by the walk along the leaves of the tree made by
`BTree(block_size)` followed by the inserts `ops`. -/
def BTree.leaf_keys_after (sizeof_entry block_size : Nat) (ops : List (Int × Option Nat)) :
    Except Fault (List Int) :=
  match BTree.insert_all (BTree.new sizeof_entry block_size) ops with
  | .error f => .error f
  | .ok t => t.leaf_keys

/-! ## Functional reading of the node methods -/

/-- The valid entries of a node: the first `m_num_entries` of `m_entries`. -/
def DataNode_t.valid (n : DataNode_t) : List data_entry :=
  n.m_entries.take n.m_num_entries

/-- The child that `next` selects among the entries `V`; `d` is the answer
when `V` is exhausted. -/
def route (key : Int) : List data_entry → Option Nat → Option Nat
  | [], d => d
  | e :: es, _ =>
    if e.get1 > key then e.get0
    else if e.get1 = key then e.get3
    else route key es e.get3

/-- The data pointer of the first entry of `V` with the given key. -/
def lookup (key : Int) : List data_entry → Option Nat
  | [] => none
  | e :: es => if key = e.get1 then e.get2 else lookup key es

/-- The number of leading entries of `V` whose key is smaller than `key`. -/
def pos (key : Int) : List data_entry → Nat
  | [] => 0
  | e :: es => if key ≤ e.get1 then 0 else pos key es + 1

/-- The valid entries after `insert(e)`, with the two link repairs. -/
def ins_spec (e : data_entry) : List data_entry → List data_entry
  | [] => [e]
  | x :: xs =>
    if e.get1 ≤ x.get1 then e :: { x with get0 := e.get3 } :: xs
    else (if pos e.get1 xs = 0 then { x with get3 := e.get0 } else x) :: ins_spec e xs

/-- Pure form of `set_get3`. -/
def rep3 (v : List data_entry) (i : Nat) (p : Option Nat) : List data_entry :=
  match v[i]? with
  | some x => v.set i { x with get3 := p }
  | none => v

/-- Pure form of `set_get0`. -/
def rep0 (v : List data_entry) (i : Nat) (p : Option Nat) : List data_entry :=
  match v[i]? with
  | some x => v.set i { x with get0 := p }
  | none => v

/-- Pure form of the vector update made by `DataNode_t::insert` at position
`idx` of a node with `num` valid entries. -/
def ins_raw (e : data_entry) (idx num : Nat) (es : List data_entry) : List data_entry :=
  let v1 := es.take idx ++ e :: es.drop idx
  let v2 := if idx ≠ 0 then rep3 v1 (idx - 1) e.get0 else v1
  if idx ≠ num then rep0 v2 (idx + 1) e.get3 else v2

/-- The node after `insert(e)`. -/
def DataNode_t.inserted (n : DataNode_t) (e : data_entry) : DataNode_t :=
  { n with
    m_entries := ins_spec e (n.m_entries.take n.m_num_entries)
      ++ n.m_entries.drop n.m_num_entries
    m_num_entries := n.m_num_entries + 1 }

/-- The first index that `split` copies into the new node. -/
def split_from (cap : Nat) (is_leaf : Bool) : Nat :=
  cap / 2 + (if is_leaf then 0 else 1)

/-- The node that `split` leaves at `to_split` before the pending entry is
placed; `right_node` is the new node. -/
def split_left (cap right_node : Nat) (n : DataNode_t) : DataNode_t :=
  { n with
    m_entries := vec_resize (n.m_entries.take (cap / 2)) cap
    m_num_entries := (n.m_entries.take (cap / 2)).length
    m_right := some right_node }

/-- The new node of `split` before the pending entry is placed. -/
def split_right (cap : Nat) (is_leaf : Bool) (n : DataNode_t) : DataNode_t :=
  { m_entries :=
      vec_resize ((n.m_entries.drop (split_from cap is_leaf)).take
        (cap - split_from cap is_leaf)) cap
    m_num_entries :=
      ((n.m_entries.drop (split_from cap is_leaf)).take (cap - split_from cap is_leaf)).length
    m_right := n.m_right
    m_max_entries := cap
    m_is_leaf := is_leaf }

/-- A child pointer kept in a node of level `h` is `NULL` or an allocated
node one level below. -/
def PtrOK (lvl : Nat → Nat) (len h : Nat) (p : Option Nat) : Prop :=
  ∀ c, p = some c → c < len ∧ lvl c + 1 = h

/-- An entry of a node of level `h`: both child pointers are fine and the key
is one of the keys `S`. -/
def EntryOK (lvl : Nat → Nat) (len h : Nat) (S : Int → Prop) (e : data_entry) : Prop :=
  PtrOK lvl len h e.get0 ∧ PtrOK lvl len h e.get3 ∧ S e.get1

/-- The bounds of node `i` and the state of its valid entries. -/
def NodeOK (cap : Nat) (lvl : Nat → Nat) (len : Nat) (S : Int → Prop) (i : Nat)
    (n : DataNode_t) : Prop :=
  n.m_max_entries = cap ∧ n.m_num_entries ≤ cap ∧ cap ≤ n.m_entries.length ∧
    ∀ e ∈ n.valid, EntryOK lvl len (lvl i) S e

/-- The invariant of the arena that every capacity of at least 2 keeps, for
any keys: `lvl` gives every node its height above the leaves. -/
def WInv (cap : Nat) (lvl : Nat → Nat) (S : Int → Prop) (m : Mem) : Prop :=
  m.full_inserts = 0 ∧ ∀ i n, m.nodes[i]? = some n → NodeOK cap lvl m.nodes.length S i n

/-- The weak invariant of a tree: the arena invariant for some height
function that gives the root the height `m_depth`. -/
def WTree (S : Int → Prop) (t : BTree) : Prop :=
  ∃ lvl : Nat → Nat, WInv t.m_max_entries lvl S t.mem ∧ t.m_root < t.mem.nodes.length ∧
    lvl t.m_root = t.m_depth ∧ t.m_depth < t.mem.nodes.length

/-- Ghost data of the arena: for every node its height above the leaves and
the key interval `[lo, hi)` it is responsible for (`none` is unbounded). -/
structure Ghost where
  lvl : Nat → Nat
  lo : Nat → Option Int
  hi : Nat → Option Int

/-- A lower bound lies strictly below an upper bound. -/
def Blt : Option Int → Option Int → Prop
  | some a, some b => a < b
  | _, _ => True

/-- Key `k` lies in the interval `[l, u)`. -/
def InB (l u : Option Int) (k : Int) : Prop :=
  (∀ a, l = some a → a ≤ k) ∧ (∀ b, u = some b → k < b)

/-- Pointer `p` is an allocated node of height `h` responsible for the
non-empty interval `[l, u)`. -/
def Child (g : Ghost) (len h : Nat) (p : Option Nat) (l u : Option Int) : Prop :=
  ∃ c, p = some c ∧ c < len ∧ g.lvl c = h ∧ g.lo c = l ∧ g.hi c = u ∧ Blt l u

/-- The valid entries of an internal node responsible for `[l, u)`: the
children cut the interval at the keys, and neighbours share their child. -/
def Wf (g : Ghost) (len h : Nat) : Option Int → List data_entry → Option Int → Prop
  | _, [], _ => False
  | l, [e], u => Child g len h e.get0 l (some e.get1) ∧ Child g len h e.get3 (some e.get1) u
  | l, e :: e2 :: rest, u =>
    Child g len h e.get0 l (some e.get1) ∧ e.get3 = e2.get0 ∧
      Wf g len h (some e.get1) (e2 :: rest) u

/-- The valid entries of a leaf responsible for `[l, u)` whose content is
drawn from `D`. -/
def LeafOK (D : Int → Option Nat → Prop) (l u : Option Int) (V : List data_entry) : Prop :=
  (∀ e ∈ V, e.get0 = none ∧ e.get3 = none ∧ InB l u e.get1 ∧ D e.get1 e.get2) ∧
    V.Pairwise (fun a b => a.get1 < b.get1)

/-- The invariant of one node. -/
def NodeInv (cap : Nat) (g : Ghost) (len : Nat) (D : Int → Option Nat → Prop) (i : Nat)
    (n : DataNode_t) : Prop :=
  n.m_max_entries = cap ∧ n.m_num_entries ≤ cap ∧ cap ≤ n.m_entries.length ∧
    Blt (g.lo i) (g.hi i) ∧
    (g.lvl i = 0 → n.m_is_leaf = true ∧ LeafOK D (g.lo i) (g.hi i) n.valid) ∧
    (∀ h, g.lvl i = h + 1 → n.m_is_leaf = false ∧ Wf g len h (g.lo i) n.valid (g.hi i))

/-- Two nodes of the same height with a common key are the same node. -/
def Apart (g : Ghost) (len : Nat) : Prop :=
  ∀ i j, i < len → j < len → g.lvl i = g.lvl j →
    ∀ k, InB (g.lo i) (g.hi i) k → InB (g.lo j) (g.hi j) k → i = j

/-- Every pair of `D` is held by a leaf. -/
def Stored (g : Ghost) (m : Mem) (D : Int → Option Nat → Prop) : Prop :=
  ∀ k p, D k p → ∃ i n, m.nodes[i]? = some n ∧ g.lvl i = 0 ∧
    ∃ e ∈ n.valid, e.get1 = k ∧ e.get2 = p

/-- The nodes of `L` are linked by `m_right` in this order, the interval of
each ends at the key where the next one starts, and the last one has no right
sibling. -/
def Linked (g : Ghost) (m : Mem) : List Nat → Prop
  | [] => False
  | [a] => (∃ n, m.nodes[a]? = some n ∧ n.m_right = none) ∧ g.hi a = none
  | a :: b :: rest =>
    (∃ n, m.nodes[a]? = some n ∧ n.m_right = some b) ∧
      (∃ v, g.hi a = some v ∧ g.lo b = some v) ∧ Linked g m (b :: rest)

/-- The list `L` is the chain of all leaves, from the leftmost one. -/
def LeafChain (g : Ghost) (m : Mem) (L : List Nat) : Prop :=
  Linked g m L ∧ L.Nodup ∧ (∀ i, i ∈ L ↔ (i < m.nodes.length ∧ g.lvl i = 0)) ∧
    (∀ a, L.head? = some a → g.lo a = none)

/-- The invariant of the arena for capacities of at least 3 and pairwise
distinct keys. -/
structure SInv (cap : Nat) (g : Ghost) (D : Int → Option Nat → Prop) (m : Mem)
    (L : List Nat) : Prop where
  nodes : ∀ i n, m.nodes[i]? = some n → NodeInv cap g m.nodes.length D i n
  apart : Apart g m.nodes.length
  stored : Stored g m D
  chain : LeafChain g m L

/-- Ghost data of node `i` is the same in `g` and `g1`. -/
def Ghost.same (g g1 : Ghost) (i : Nat) : Prop :=
  g1.lvl i = g.lvl i ∧ g1.lo i = g.lo i ∧ g1.hi i = g.hi i

/-- Pointer `c` is one of the children named by the entries `V`. -/
def IsChild (V : List data_entry) (c : Nat) : Prop :=
  ∃ y ∈ V, y.get0 = some c ∨ y.get3 = some c

/-- The ghost data after node `P` has been split at key `k` into `P` and the
new node `R`. -/
def Ghost.split (g : Ghost) (P R : Nat) (k : Int) : Ghost :=
  { lvl := fun i => if i = R then g.lvl P else g.lvl i
    lo := fun i => if i = R then some k else g.lo i
    hi := fun i => if i = R then g.hi P else if i = P then some k else g.hi i }

/-- The chain `L` with the new node `R` put right after `P`. -/
def ins_after (P R : Nat) : List Nat → List Nat
  | [] => []
  | a :: rest => if a = P then a :: R :: rest else a :: ins_after P R rest

/-- The content `D` with the pair `(key, data)` added. -/
def Added (D : Int → Option Nat → Prop) (key : Int) (data : Option Nat) :
    Int → Option Nat → Prop :=
  fun k p => D k p ∨ (k = key ∧ p = data)

/-- What a call `insert_recursive(curr, ..)` that started in arena `m` with
ghost `g` and content `D` guarantees on return: it came back with `b`, arena
`m1`, pending entry `e1`, ghost `g1`, content `D1` and leaf chain `L1`. -/
structure Post (cap : Nat) (g : Ghost) (D1 : Int → Option Nat → Prop) (m : Mem)
    (curr : Nat) (data : Option Nat) (b : Bool) (m1 : Mem) (e1 : data_entry) (g1 : Ghost)
    (L1 : List Nat) : Prop where
  len_le : m.nodes.length ≤ m1.nodes.length
  lvl_old : ∀ i, i < m.nodes.length → g1.lvl i = g.lvl i
  frame : ∀ i, i < m.nodes.length → g.lvl curr ≤ g.lvl i → i ≠ curr →
    m1.nodes[i]? = m.nodes[i]? ∧ g1.lo i = g.lo i ∧ g1.hi i = g.hi i
  lvl_new : ∀ i, m.nodes.length ≤ i → i < m1.nodes.length → g1.lvl i ≤ g.lvl curr
  nodes : ∀ i n, m1.nodes[i]? = some n → g1.lvl i ≤ g.lvl curr →
    NodeInv cap g1 m1.nodes.length D1 i n
  apart : Apart g1 m1.nodes.length
  stored : Stored g1 m1 D1
  chain : LeafChain g1 m1 L1
  keep : b = false → g1.lo curr = g.lo curr ∧ g1.hi curr = g.hi curr
  up : b = true → ∃ k R, e1 = ⟨some curr, k, data, some R⟩ ∧ m.nodes.length ≤ R ∧
    R < m1.nodes.length ∧ g1.lvl R = g.lvl curr ∧ g1.lo curr = g.lo curr ∧
    g1.hi curr = some k ∧ g1.lo R = some k ∧ g1.hi R = g.hi curr ∧
    Blt (g.lo curr) (some k) ∧ Blt (some k) (g.hi curr)

/-- The situation of a node `P` of height `h + 1` whose child `L` has just
been processed by a recursive call. -/
structure Ctx (cap : Nat) (g : Ghost) (D D1 : Int → Option Nat → Prop) (m : Mem)
    (Lc : List Nat) (P L h : Nat) (n : DataNode_t) : Prop where
  inv : SInv cap g D m Lc
  node : m.nodes[P]? = some n
  lvlP : g.lvl P = h + 1
  child : IsChild n.valid L
  mono : ∀ k p, D k p → D1 k p

/-- The ghost data after a new root `Q` of height `d` has been allocated. -/
def Ghost.add_root (g : Ghost) (Q d : Nat) : Ghost :=
  { lvl := fun i => if i = Q then d else g.lvl i
    lo := fun i => if i = Q then none else g.lo i
    hi := fun i => if i = Q then none else g.hi i }

/-- The invariant of a tree for capacities of at least 3 and pairwise distinct
keys: the arena invariant, with the root responsible for all keys and of
height `m_depth`, the greatest height. -/
def STree (D : Int → Option Nat → Prop) (t : BTree) : Prop :=
  ∃ (g : Ghost) (Lc : List Nat), SInv t.m_max_entries g D t.mem Lc ∧
    t.m_root < t.mem.nodes.length ∧ g.lvl t.m_root = t.m_depth ∧
    g.lo t.m_root = none ∧ g.hi t.m_root = none ∧ t.m_depth < t.mem.nodes.length ∧
    ∀ i, i < t.mem.nodes.length → g.lvl i ≤ t.m_depth

/-- The payload passed to the most recent `insert` of `key` in `ops`, `NULL`
when there is none. -/
def last_payload (key : Int) (ops : List (Int × Option Nat)) : Option Nat :=
  ops.foldl (fun acc op => if op.1 = key then op.2 else acc) none

/-- A tree that is still a single leaf. -/
structure OneLeaf (t : BTree) (n : DataNode_t) : Prop where
  nodes : t.mem.nodes = [n]
  root : t.m_root = 0
  max : n.m_max_entries = t.m_max_entries
  bound : n.m_num_entries ≤ n.m_entries.length
  null : ∀ x ∈ n.valid, x.get0 = none ∧ x.get3 = none

/-- The key and payload of an entry. -/
def data_entry.pair (e : data_entry) : Int × Option Nat := (e.get1, e.get2)

/-- A full leaf of capacity 3 with the keys 10, 20, 30. -/
def example_full_leaf : DataNode_t :=
  { m_entries := [⟨none, 10, some 1, none⟩, ⟨none, 20, some 2, none⟩, ⟨none, 30, some 3, none⟩]
    m_num_entries := 3
    m_right := none
    m_max_entries := 3
    m_is_leaf := true }

/-- An arena that holds only `example_full_leaf`. -/
def example_arena : Mem :=
  { nodes := [example_full_leaf], full_inserts := 0 }

/-- A pending entry with key 25. -/
def example_pending : data_entry :=
  ⟨none, 25, some 4, none⟩

/-- The keys `n, n - 1, .., 1`, each with the payload `NULL`, in this order. -/
def descending : Nat → List (Int × Option Nat)
  | 0 => []
  | n + 1 => (((n + 1 : Nat) : Int), none) :: descending n

/-- Boolean form of `InB`. -/
def inb (l u : Option Int) (k : Int) : Bool :=
  (match l with
    | none => true
    | some a => decide (a ≤ k)) &&
  (match u with
    | none => true
    | some b => decide (k < b))

/-- The children named by the entries `V` of an internal node, each once:
the left child of the first entry and the right child of every entry. -/
def kids (V : List data_entry) : List Nat :=
  (match V with
    | [] => []
    | e :: _ => e.get0.toList) ++ V.filterMap (fun e => e.get3)

/-- A leaf of capacity 4 with the keys 10, 20, 30 and one free slot. -/
def example_open_leaf : DataNode_t :=
  { m_entries := [⟨none, 10, some 1, none⟩, ⟨none, 20, some 2, none⟩, ⟨none, 30, some 3, none⟩,
      data_entry.default]
    m_num_entries := 3
    m_right := none
    m_max_entries := 4
    m_is_leaf := true }

/-- An internal node of capacity 4 with the keys 10 and 20 over the children
1, 2 and 3. -/
def example_inner : DataNode_t :=
  { m_entries := [⟨some 1, 10, none, some 2⟩, ⟨some 2, 20, none, some 3⟩,
      data_entry.default, data_entry.default]
    m_num_entries := 2
    m_right := none
    m_max_entries := 4
    m_is_leaf := false }

/-- The entry handed up after child 2 has been split at key 15 into 2 and 4. -/
def example_promoted : data_entry :=
  ⟨some 2, 15, none, some 4⟩


/-- Neighbouring entries name the same node between them: `get<3>` of each
entry is `get<0>` of the next one. -/
def Shared (V : List data_entry) : Prop :=
  ∀ (i : Nat) (a b : data_entry), V[i]? = some a → V[i + 1]? = some b → a.get3 = b.get0

/-- Leaf flag and child references of a node of height `h`: a node of height 0
is flagged as a leaf, a higher node is not, has entries, and none of their
child references is `NULL`. -/
def KindOK (h : Nat) (n : DataNode_t) : Prop :=
  (h = 0 → n.m_is_leaf = true) ∧
    (h ≠ 0 → n.m_is_leaf = false ∧ n.valid ≠ [] ∧
      ∀ e ∈ n.valid, e.get0 ≠ none ∧ e.get3 ≠ none)

/-- The shape of the nodes of an arena: neighbours share their child in every
node, and for capacities of at least 3 every node is of the kind its height
asks for. -/
def Shape (cap : Nat) (lvl : Nat → Nat) (m : Mem) : Prop :=
  ∀ i n, m.nodes[i]? = some n → Shared n.valid ∧ (3 ≤ cap → KindOK (lvl i) n)

/-- The invariant of a tree for capacities of at least 2 and any keys: the
weak invariant together with the shape of the nodes; when the capacity is at
least 3, a node without entries exists only as the root of a tree `fresh` from
the constructor. -/
def MTree (fresh : Prop) (t : BTree) : Prop :=
  ∃ lvl : Nat → Nat, WInv t.m_max_entries lvl (fun _ => True) t.mem ∧
    Shape t.m_max_entries lvl t.mem ∧ t.m_root < t.mem.nodes.length ∧
    lvl t.m_root = t.m_depth ∧ t.m_depth < t.mem.nodes.length ∧
    (3 ≤ t.m_max_entries → ∀ i n, t.mem.nodes[i]? = some n → n.valid = [] →
      fresh ∧ i = t.m_root)

/-- A walk of `k` edges from node `a` down to node `b`, each edge a child
reference (`get<0>` or `get<3>`) of a valid entry of the node it leaves. -/
def Path (m : Mem) : Nat → Nat → Nat → Prop
  | 0, a, b => a = b
  | k + 1, a, b => ∃ n c, m.nodes[a]? = some n ∧ IsChild n.valid c ∧ Path m k c b

/-- The keys `n, n - 1, .., 1` in this order. -/
def desc_keys : Nat → List Int
  | 0 => []
  | n + 1 => ((n + 1 : Nat) : Int) :: desc_keys n

/-- The sum `1 + q + .. + q ^ (d - 1)`. -/
def geom (q : Nat) : Nat → Nat
  | 0 => 0
  | d + 1 => q * geom q d + 1

/-- The entry counts of the leftmost node of every level, root first, after an
entry has been handed to the lowest listed level: a node with room takes it, a
full node of capacity `c` keeps `c / 2` entries, takes the entry and hands one
up.  The Boolean tells whether the first listed node has handed one up; below
the last listed level it is the insert itself that hands the entry up. -/
def spine_step (c : Nat) : List Nat → Bool × List Nat
  | [] => (true, [])
  | n :: rest =>
    if (spine_step c rest).1 then
      (if n < c then (false, (n + 1) :: (spine_step c rest).2)
       else (true, (c / 2 + 1) :: (spine_step c rest).2))
    else (false, n :: (spine_step c rest).2)

/-- The entry counts along the left spine after one more insert of a key
below all keys: when the root hands an entry up, a new root with one entry is
put on top. -/
def spine_insert (c : Nat) (ts : List Nat) : List Nat :=
  if (spine_step c ts).1 then 1 :: (spine_step c ts).2 else (spine_step c ts).2

/-- The number of inserts that a list of spine entry counts, root first,
stands for: an entry at height `h` counts `q ^ h`. -/
def spine_value (q : Nat) : List Nat → Nat
  | [] => 0
  | n :: rest => n * q ^ rest.length + spine_value q rest

/-- Bounds on the spine entry counts: none exceeds the capacity, every node
below the root has more than `c / 2` entries, and a root above other levels
has at least one entry. -/
def SpineOK (c : Nat) (ts : List Nat) : Prop :=
  (∀ n ∈ ts, n ≤ c) ∧ ∃ n rest, ts = n :: rest ∧ (∀ x ∈ rest, c / 2 + 1 ≤ x) ∧
    (rest ≠ [] → 1 ≤ n)

/-- The keys of `V` ascend strictly and lie strictly between `lo` and `ub`
(`none` is unbounded). -/
def KeysOK (lo : Int) (ub : Option Int) (V : List data_entry) : Prop :=
  V.Pairwise (fun a b => a.get1 < b.get1) ∧
    ∀ e ∈ V, lo < e.get1 ∧ ∀ b, ub = some b → e.get1 < b

/-- The left spine of a subtree: the nodes `ps`, root of the subtree first,
each the `get<0>` child of the first entry of the one before, the last one a
node whose entries have no children; `ts` lists their entry counts.  All keys
of the spine nodes are greater than `lo`, those of the first node are smaller
than `ub`, and the keys of each further node are smaller than the first key of
the node above it. -/
def Spine (m : Mem) (lo : Int) : Option Int → List Nat → List Nat → Prop
  | _, [], _ => False
  | ub, [p], ts =>
    ∃ node, m.nodes[p]? = some node ∧ ts = [node.m_num_entries] ∧ KeysOK lo ub node.valid ∧
      ∀ e ∈ node.valid, e.get0 = none ∧ e.get3 = none
  | ub, p :: c :: ps, ts =>
    ∃ node e tail rest, m.nodes[p]? = some node ∧ ts = node.m_num_entries :: rest ∧
      KeysOK lo ub node.valid ∧ node.valid = e :: tail ∧ e.get0 = some c ∧
      Spine m lo (some e.get1) (c :: ps) rest

/-- A tree reached by inserts whose left spine has the entry counts `ts`, root
first, with all keys of the spine greater than `lo`. -/
def DTree (lo : Int) (ts : List Nat) (t : BTree) : Prop :=
  (∃ P : Prop, MTree P t) ∧
    ∃ ps, Spine t.mem lo none (t.m_root :: ps) ts ∧ ts.length = t.m_depth + 1

/-! ## The node methods compute their functional reading -/

theorem vec_at_append_length (pre : List data_entry) (e : data_entry) (post : List data_entry) :
    vec_at (pre ++ e :: post) pre.length = .ok e := by
  have : (pre ++ e :: post)[pre.length]? = some e := by
    rw [List.getElem?_append_right (le_refl _)]; simp
  simp [vec_at, this]

theorem node_decompose (n : DataNode_t) (h : n.m_num_entries ≤ n.m_entries.length) :
    ∃ V T, n.m_entries = V ++ T ∧ n.m_num_entries = V.length ∧ n.valid = V := by
  refine ⟨n.m_entries.take n.m_num_entries, n.m_entries.drop n.m_num_entries, ?_, ?_, rfl⟩
  · simp
  · simp [h]

theorem next_loop_eq (key : Int) (T : List data_entry) :
    ∀ (V pre : List data_entry) (p : data_entry),
      DataNode_t.next_loop (pre ++ p :: (V ++ T)) key (pre.length + 1) V.length
        = .ok (route key V p.get3) := by
  intro V
  induction V with
  | nil =>
    intro pre p
    have h1 := vec_at_append_length pre p T
    simp [DataNode_t.next_loop, route, h1]
  | cons e V ih =>
    intro pre p
    have h1 : vec_at (pre ++ p :: e :: (V ++ T)) (pre.length + 1) = .ok e := by
      have := vec_at_append_length (pre ++ [p]) e (V ++ T)
      simpa using this
    have h2 := ih (pre ++ [p]) e
    simp only [List.append_assoc, List.singleton_append, List.length_append,
      List.length_singleton] at h2
    simp only [List.length_cons, DataNode_t.next_loop, h1, route, List.cons_append, h2]
    split_ifs <;> rfl

theorem next_eq (n : DataNode_t) (key : Int) (h : n.m_num_entries ≤ n.m_entries.length) :
    n.next key = .ok (route key n.valid none) := by
  obtain ⟨V, T, hs, hl, hv⟩ := node_decompose n h
  rw [hv]
  unfold DataNode_t.next
  rw [hs, hl]
  cases V with
  | nil => simp [route]
  | cons e V =>
    have h0 : vec_at (e :: (V ++ T)) 0 = .ok e := by
      simp [vec_at]
    have h2 := next_loop_eq key T V [] e
    simp only [List.nil_append, List.length_nil, Nat.zero_add] at h2
    simp only [List.length_cons, DataNode_t.next_loop, h0, route, List.cons_append, h2]
    simp
    split_ifs <;> rfl

theorem retrieve_loop_eq (key : Int) (T : List data_entry) :
    ∀ (V pre : List data_entry),
      DataNode_t.retrieve_loop (pre ++ (V ++ T)) key pre.length V.length
        = .ok (lookup key V) := by
  intro V
  induction V with
  | nil => intro pre; simp [DataNode_t.retrieve_loop, lookup]
  | cons e V ih =>
    intro pre
    have h1 : vec_at (pre ++ e :: (V ++ T)) pre.length = .ok e :=
      vec_at_append_length pre e (V ++ T)
    have h2 := ih (pre ++ [e])
    simp only [List.append_assoc, List.singleton_append, List.length_append,
      List.length_singleton] at h2
    simp only [List.length_cons, DataNode_t.retrieve_loop, h1, lookup, List.cons_append, h2]
    split_ifs <;> rfl

theorem retrieve_eq (n : DataNode_t) (key : Int) (h : n.m_num_entries ≤ n.m_entries.length) :
    n.retrieve key = .ok (lookup key n.valid) := by
  obtain ⟨V, T, hs, hl, hv⟩ := node_decompose n h
  rw [hv]
  unfold DataNode_t.retrieve
  rw [hs, hl]
  by_cases h0 : V.length = 0
  · rw [if_pos h0]
    have : V = [] := List.eq_nil_of_length_eq_zero h0
    simp [this, lookup]
  · rw [if_neg h0]
    simpa using retrieve_loop_eq key T V []

theorem insert_loop_eq (key : Int) (T : List data_entry) :
    ∀ (V pre : List data_entry),
      DataNode_t.insert_loop (pre ++ (V ++ T)) key pre.length V.length
        = .ok (pre.length + pos key V) := by
  intro V
  induction V with
  | nil => intro pre; simp [DataNode_t.insert_loop, pos]
  | cons e V ih =>
    intro pre
    have h1 : vec_at (pre ++ e :: (V ++ T)) pre.length = .ok e :=
      vec_at_append_length pre e (V ++ T)
    have h2 := ih (pre ++ [e])
    simp only [List.append_assoc, List.singleton_append, List.length_append,
      List.length_singleton] at h2
    simp only [List.length_cons, DataNode_t.insert_loop, h1, pos, List.cons_append, h2]
    by_cases hk : key ≤ e.get1
    · simp [hk]
    · simp [hk]; omega

theorem pos_le (key : Int) : ∀ V : List data_entry, pos key V ≤ V.length
  | [] => by simp [pos]
  | e :: V => by
    have := pos_le key V
    simp only [pos, List.length_cons]
    split_ifs <;> omega

theorem set_get3_eq (v : List data_entry) (i : Nat) (p : Option Nat) (h : i < v.length) :
    DataNode_t.set_get3 v i p = .ok (rep3 v i p) := by
  have : v[i]? = some v[i] := List.getElem?_eq_getElem h
  simp [DataNode_t.set_get3, rep3, vec_at, this]

theorem set_get0_eq (v : List data_entry) (i : Nat) (p : Option Nat) (h : i < v.length) :
    DataNode_t.set_get0 v i p = .ok (rep0 v i p) := by
  have : v[i]? = some v[i] := List.getElem?_eq_getElem h
  simp [DataNode_t.set_get0, rep0, vec_at, this]

theorem rep3_cons_succ (x : data_entry) (v : List data_entry) (i : Nat) (p : Option Nat) :
    rep3 (x :: v) (i + 1) p = x :: rep3 v i p := by
  simp only [rep3, List.getElem?_cons_succ]
  cases v[i]? <;> simp

theorem rep0_cons_succ (x : data_entry) (v : List data_entry) (i : Nat) (p : Option Nat) :
    rep0 (x :: v) (i + 1) p = x :: rep0 v i p := by
  simp only [rep0, List.getElem?_cons_succ]
  cases v[i]? <;> simp

theorem ins_raw_eq (e : data_entry) (T : List data_entry) :
    ∀ V : List data_entry,
      ins_raw e (pos e.get1 V) V.length (V ++ T) = ins_spec e V ++ T := by
  intro V
  induction V with
  | nil => simp [ins_raw, pos, ins_spec]
  | cons x xs ih =>
    by_cases hk : e.get1 ≤ x.get1
    · simp [ins_raw, pos, ins_spec, hk, rep0]
    · have hj := pos_le e.get1 xs
      simp only [pos, hk, if_false, ins_spec, List.cons_append, ← ih]
      simp only [ins_raw, List.length_cons, List.take_succ_cons, List.drop_succ_cons,
        List.cons_append, Nat.add_sub_cancel, ne_eq, Nat.add_right_cancel_iff,
        Nat.succ_ne_zero, not_false_eq_true, if_true]
      by_cases hj0 : pos e.get1 xs = 0
      · simp only [hj0, if_true, not_true_eq_false, if_false, List.take_zero, List.drop_zero,
          List.nil_append, Nat.zero_add]
        have : rep3 (x :: e :: (xs ++ T)) 0 e.get0
            = { x with get3 := e.get0 } :: e :: (xs ++ T) := by simp [rep3]
        rw [this]
        split_ifs <;> first | rfl | rw [rep0_cons_succ]
      · simp only [hj0, if_false, not_false_eq_true, if_true]
        obtain ⟨j, hj1⟩ : ∃ j, pos e.get1 xs = j + 1 := ⟨pos e.get1 xs - 1, by omega⟩
        simp only [hj1, Nat.add_sub_cancel, rep3_cons_succ]
        split_ifs <;> first | rfl | rw [rep0_cons_succ]

theorem ins_spec_length (e : data_entry) : ∀ V : List data_entry,
    (ins_spec e V).length = V.length + 1
  | [] => by simp [ins_spec]
  | x :: xs => by
    have := ins_spec_length e xs
    simp only [ins_spec]
    split_ifs <;> simp [this]

theorem insert_eq (n : DataNode_t) (e : data_entry)
    (h : n.m_num_entries ≤ n.m_entries.length) :
    n.insert e = .ok (true,
      { n with
        m_entries := ins_spec e (n.m_entries.take n.m_num_entries)
          ++ n.m_entries.drop n.m_num_entries
        m_num_entries := n.m_num_entries + 1 }) := by
  obtain ⟨V, T, hs, hl⟩ : ∃ V T, n.m_entries = V ++ T ∧ n.m_num_entries = V.length :=
    ⟨n.m_entries.take n.m_num_entries, n.m_entries.drop n.m_num_entries, by simp, by simp [h]⟩
  have hp := pos_le e.get1 V
  have hfound : (if n.m_num_entries = 0 then (Except.ok 0 : Except Fault Nat)
      else DataNode_t.insert_loop n.m_entries e.get1 0 n.m_num_entries)
        = .ok (pos e.get1 V) := by
    by_cases h0 : V.length = 0
    · have : V = [] := List.eq_nil_of_length_eq_zero h0
      simp [hl, this, pos]
    · rw [hl, if_neg h0, hs]
      simpa using insert_loop_eq e.get1 T V []
  have hraw := ins_raw_eq e T V
  unfold DataNode_t.insert
  simp only [hfound]
  have hvi : vec_insert n.m_entries (pos e.get1 V) e
      = .ok (n.m_entries.take (pos e.get1 V) ++ e :: n.m_entries.drop (pos e.get1 V)) := by
    have : pos e.get1 V ≤ n.m_entries.length := by simp [hs]; omega
    simp [vec_insert, this]
  simp only [hvi]
  have hlen1 : (n.m_entries.take (pos e.get1 V) ++ e :: n.m_entries.drop (pos e.get1 V)).length
      = V.length + T.length + 1 := by
    simp [hs]; omega
  have htd : ins_spec e (n.m_entries.take n.m_num_entries) ++ n.m_entries.drop n.m_num_entries
      = ins_raw e (pos e.get1 V) V.length (V ++ T) := by
    rw [hraw, hs, hl]; simp
  rw [htd]
  unfold ins_raw
  rw [← hs]
  by_cases hi0 : pos e.get1 V = 0
  · simp only [hi0, ne_eq, not_true_eq_false, if_false]
    by_cases hin : 0 = V.length
    · simp [hl, ← hin]
    · have hin2 : ¬ (0 = n.m_num_entries + 1 - 1) := by simpa [hl] using hin
      simp only [hin, hin2, not_false_eq_true, if_true]
      rw [set_get0_eq _ _ _ (by simp [hs]; omega)]
  · simp only [hi0, ne_eq, not_false_eq_true, if_true]
    rw [set_get3_eq _ _ _ (by rw [hlen1]; omega)]
    simp only
    have hl3 : (rep3 (n.m_entries.take (pos e.get1 V) ++ e :: n.m_entries.drop (pos e.get1 V))
        (pos e.get1 V - 1) e.get0).length = V.length + T.length + 1 := by
      unfold rep3
      split <;> simp [hlen1]
    by_cases hin : pos e.get1 V = V.length
    · simp [hl, hin]
    · have hin2 : ¬ (pos e.get1 V = n.m_num_entries + 1 - 1) := by simpa [hl] using hin
      simp only [hin, hin2, not_false_eq_true, if_true]
      rw [set_get0_eq _ _ _ (by rw [hl3]; omega)]

theorem vec_resize_length (v : List data_entry) (n : Nat) : (vec_resize v n).length = n := by
  simp [vec_resize]; omega

theorem insert_eq2 (n : DataNode_t) (e : data_entry)
    (h : n.m_num_entries ≤ n.m_entries.length) :
    n.insert e = .ok (true, n.inserted e) :=
  insert_eq n e h

theorem inserted_valid (n : DataNode_t) (e : data_entry)
    (h : n.m_num_entries ≤ n.m_entries.length) :
    (n.inserted e).valid = ins_spec e n.valid := by
  have hl : (ins_spec e (List.take n.m_num_entries n.m_entries)).length
      = n.m_num_entries + 1 := by
    rw [ins_spec_length]; simp [h]
  simp only [DataNode_t.valid, DataNode_t.inserted]
  rw [← hl, List.take_left]

theorem inserted_length (n : DataNode_t) (e : data_entry)
    (h : n.m_num_entries ≤ n.m_entries.length) :
    (n.inserted e).m_entries.length = n.m_entries.length + 1 := by
  simp only [DataNode_t.inserted, List.length_append, ins_spec_length, List.length_take,
    List.length_drop]
  omega

theorem deref_eq (m : Mem) (p : Nat) (n : DataNode_t) (h : m.nodes[p]? = some n) :
    m.deref p = .ok n := by
  simp [Mem.deref, h]

theorem call_insert_eq (m : Mem) (p : Nat) (n : DataNode_t) (e : data_entry)
    (hp : m.nodes[p]? = some n) (h : n.m_num_entries ≤ n.m_entries.length) :
    m.call_insert p e = .ok
      { nodes := m.nodes.set p (n.inserted e)
        full_inserts := if n.is_full then m.full_inserts + 1 else m.full_inserts } := by
  simp [Mem.call_insert, deref_eq m p n hp, insert_eq2 n e h]

theorem vec_resize_take (v : List data_entry) (n : Nat) (h : v.length ≤ n) :
    List.take v.length (vec_resize v n) = v := by
  simp [vec_resize, List.take_of_length_le h]

theorem split_left_valid (cap r : Nat) (n : DataNode_t) :
    (split_left cap r n).valid = n.m_entries.take (cap / 2) := by
  have : cap / 2 ≤ cap := Nat.div_le_self _ _
  simp only [DataNode_t.valid, split_left]
  apply vec_resize_take
  simp only [List.length_take]
  omega

theorem split_right_valid (cap : Nat) (lf : Bool) (n : DataNode_t) :
    (split_right cap lf n).valid
      = (n.m_entries.drop (split_from cap lf)).take (cap - split_from cap lf) := by
  simp only [DataNode_t.valid, split_right]
  apply vec_resize_take
  simp only [List.length_take]
  omega

theorem split_eq (cap : Nat) (m : Mem) (ts : Nat) (lf : Bool) (e : data_entry)
    (n : DataNode_t) (hn : m.nodes[ts]? = some n) (hcap : 1 ≤ cap)
    (hlen : cap ≤ n.m_entries.length) :
    ∃ mid, n.m_entries[cap / 2]? = some mid ∧
      split cap m ts lf e = .ok
        ({ nodes :=
            if mid.get1 < e.get1 then
              m.nodes.set ts (split_left cap m.nodes.length n)
                ++ [(split_right cap lf n).inserted e]
            else
              m.nodes.set ts ((split_left cap m.nodes.length n).inserted e)
                ++ [split_right cap lf n]
           full_inserts :=
            if mid.get1 < e.get1 then
              (if (split_right cap lf n).is_full then m.full_inserts + 1 else m.full_inserts)
            else
              (if (split_left cap m.nodes.length n).is_full then m.full_inserts + 1
               else m.full_inserts) },
         { e with get0 := some ts, get1 := mid.get1, get3 := some m.nodes.length }) := by
  have hts : ts < m.nodes.length := by
    by_contra hc
    rw [List.getElem?_eq_none (by omega)] at hn
    cases hn
  have hhalf : cap / 2 < n.m_entries.length := by
    have : cap / 2 < cap := Nat.div_lt_self (by omega) (by omega)
    omega
  refine ⟨n.m_entries[cap / 2], List.getElem?_eq_getElem hhalf, ?_⟩
  have hfrom : split_from cap lf ≤ cap := by
    have : cap / 2 < cap := Nat.div_lt_self (by omega) (by omega)
    unfold split_from; split <;> omega
  have h1 : ({ nodes := m.nodes ++ [DataNode_t.new cap lf],
               full_inserts := m.full_inserts } : Mem).deref ts = .ok n := by
    apply deref_eq
    simp only
    rw [List.getElem?_append_left hts]; exact hn
  have h2 : vec_at n.m_entries (cap / 2) = .ok n.m_entries[cap / 2] := by
    simp [vec_at, List.getElem?_eq_getElem hhalf]
  have h3 : vec_range n.m_entries (cap / 2 + if lf = true then 0 else 1) cap
      = .ok ((n.m_entries.drop (split_from cap lf)).take (cap - split_from cap lf)) := by
    unfold split_from at hfrom
    simp [vec_range, split_from, hfrom, hlen]
  have h4 : vec_range n.m_entries 0 (cap / 2) = .ok (n.m_entries.take (cap / 2)) := by
    simp [vec_range]; omega
  have hset : ((m.nodes ++ [DataNode_t.new cap lf]).set m.nodes.length
      (split_right cap lf n)).set ts (split_left cap m.nodes.length n)
        = m.nodes.set ts (split_left cap m.nodes.length n) ++ [split_right cap lf n] := by
    rw [List.set_append_right _ _ (le_refl _)]
    simp only [Nat.sub_self, List.set_cons_zero]
    rw [List.set_append_left _ _ hts]
  unfold split
  simp only [Mem.alloc, h1, h2, h3, h4, Mem.store]
  have hsr : split_right cap lf n =
      { m_entries := vec_resize ((n.m_entries.drop (split_from cap lf)).take
          (cap - split_from cap lf)) cap
        m_num_entries :=
          ((n.m_entries.drop (split_from cap lf)).take (cap - split_from cap lf)).length
        m_right := n.m_right
        m_max_entries := cap
        m_is_leaf := lf } := rfl
  have hsl : split_left cap m.nodes.length n =
      { m_entries := vec_resize (n.m_entries.take (cap / 2)) cap
        m_num_entries := (n.m_entries.take (cap / 2)).length
        m_right := some m.nodes.length
        m_max_entries := n.m_max_entries
        m_is_leaf := n.m_is_leaf } := rfl
  rw [← hsr, ← hsl, hset]
  by_cases hk : n.m_entries[cap / 2].get1 < e.get1
  · simp only [hk, if_true]
    have hr : (m.nodes.set ts (split_left cap m.nodes.length n)
        ++ [split_right cap lf n])[m.nodes.length]? = some (split_right cap lf n) := by
      rw [List.getElem?_append_right (by simp)]; simp
    have hb : (split_right cap lf n).m_num_entries ≤ (split_right cap lf n).m_entries.length := by
      simp only [split_right, vec_resize_length]
      simp
    rw [call_insert_eq _ _ _ e hr hb]
    simp only
    rw [List.set_append_right _ _ (by simp)]
    simp
  · simp only [hk, if_false]
    have hr : (m.nodes.set ts (split_left cap m.nodes.length n)
        ++ [split_right cap lf n])[ts]? = some (split_left cap m.nodes.length n) := by
      rw [List.getElem?_append_left (by simpa using hts)]
      simp [List.getElem?_set_self hts]
    have hb : (split_left cap m.nodes.length n).m_num_entries
        ≤ (split_left cap m.nodes.length n).m_entries.length := by
      simp only [split_left, vec_resize_length]
      simp; omega
    rw [call_insert_eq _ _ _ e hr hb]
    simp only
    rw [List.set_append_left _ _ (by simpa using hts)]
    simp

theorem mem_ins_spec (e : data_entry) : ∀ (V : List data_entry) (y : data_entry),
    y ∈ ins_spec e V → y = e ∨ ∃ x ∈ V, y.get1 = x.get1 ∧ y.get2 = x.get2 ∧
      (y.get0 = x.get0 ∨ y.get0 = e.get3) ∧ (y.get3 = x.get3 ∨ y.get3 = e.get0)
  | [], y, h => by simp [ins_spec] at h; exact Or.inl h
  | x :: xs, y, h => by
    simp only [ins_spec] at h
    by_cases hk : e.get1 ≤ x.get1
    · simp only [hk, if_true, List.mem_cons] at h
      rcases h with h | h | h
      · exact Or.inl h
      · exact Or.inr ⟨x, by simp, by simp [h]⟩
      · exact Or.inr ⟨y, by simp [h], by simp⟩
    · simp only [hk, if_false, List.mem_cons] at h
      rcases h with h | h
      · refine Or.inr ⟨x, by simp, ?_⟩
        subst h
        split_ifs <;> simp
      · rcases mem_ins_spec e xs y h with h1 | ⟨x1, hx1, h1⟩
        · exact Or.inl h1
        · exact Or.inr ⟨x1, by simp [hx1], h1⟩

theorem route_mem (key : Int) : ∀ (V : List data_entry) (d : Option Nat),
    route key V d = d ∨ ∃ x ∈ V, route key V d = x.get0 ∨ route key V d = x.get3
  | [], d => by simp [route]
  | x :: xs, d => by
    simp only [route]
    split_ifs
    · exact Or.inr ⟨x, by simp, Or.inl rfl⟩
    · exact Or.inr ⟨x, by simp, Or.inr rfl⟩
    · rcases route_mem key xs x.get3 with h | ⟨y, hy, h⟩
      · exact Or.inr ⟨x, by simp, Or.inr h⟩
      · exact Or.inr ⟨y, by simp [hy], h⟩

theorem PtrOK.ptr_mono {lvl lvl1 : Nat → Nat} {len len1 h : Nat} {p : Option Nat}
    (hp : PtrOK lvl len h p) (hlen : len ≤ len1) (hl : ∀ i, i < len → lvl1 i = lvl i) :
    PtrOK lvl1 len1 h p := by
  intro c hc
  obtain ⟨h1, h2⟩ := hp c hc
  exact ⟨by omega, by rw [hl c h1]; exact h2⟩

theorem EntryOK.entry_mono {lvl lvl1 : Nat → Nat} {len len1 h : Nat} {S : Int → Prop}
    {e : data_entry} (he : EntryOK lvl len h S e) (hlen : len ≤ len1)
    (hl : ∀ i, i < len → lvl1 i = lvl i) : EntryOK lvl1 len1 h S e :=
  ⟨he.1.ptr_mono hlen hl, he.2.1.ptr_mono hlen hl, he.2.2⟩

theorem NodeOK.node_mono {cap : Nat} {lvl lvl1 : Nat → Nat} {len len1 : Nat} {S : Int → Prop}
    {i : Nat} {n : DataNode_t} (hn : NodeOK cap lvl len S i n) (hlen : len ≤ len1)
    (hl : ∀ i, i < len → lvl1 i = lvl i) (hi : lvl1 i = lvl i) :
    NodeOK cap lvl1 len1 S i n := by
  refine ⟨hn.1, hn.2.1, hn.2.2.1, fun e he => ?_⟩
  rw [hi]
  exact (hn.2.2.2 e he).entry_mono hlen hl

theorem EntryOK.of_ins_spec {lvl : Nat → Nat} {len h : Nat} {S : Int → Prop}
    {e : data_entry} {V : List data_entry} (he : EntryOK lvl len h S e)
    (hV : ∀ x ∈ V, EntryOK lvl len h S x) :
    ∀ y ∈ ins_spec e V, EntryOK lvl len h S y := by
  intro y hy
  rcases mem_ins_spec e V y hy with rfl | ⟨x, hx, h1, _, h0, h3⟩
  · exact he
  · have hx1 := hV x hx
    refine ⟨?_, ?_, by rw [h1]; exact hx1.2.2⟩
    · rcases h0 with h0 | h0 <;> rw [h0]
      · exact hx1.1
      · exact he.2.1
    · rcases h3 with h3 | h3 <;> rw [h3]
      · exact hx1.2.1
      · exact he.1

theorem NodeOK.inserted {cap : Nat} {lvl : Nat → Nat} {len : Nat} {S : Int → Prop}
    {i : Nat} {n : DataNode_t} {e : data_entry} (hn : NodeOK cap lvl len S i n)
    (hfull : n.m_num_entries < cap) (he : EntryOK lvl len (lvl i) S e) :
    NodeOK cap lvl len S i (n.inserted e) := by
  have hb : n.m_num_entries ≤ n.m_entries.length := by
    have := hn.2.2.1; omega
  refine ⟨hn.1, ?_, ?_, ?_⟩
  · simp only [DataNode_t.inserted]; omega
  · rw [inserted_length n e hb]; have := hn.2.2.1; omega
  · rw [inserted_valid n e hb]
    exact he.of_ins_spec hn.2.2.2

theorem mem_take_of_le {α : Type} {l : List α} {a b : Nat} {x : α} (hab : a ≤ b)
    (h : x ∈ l.take a) : x ∈ l.take b := by
  have : l.take a = (l.take b).take a := by
    rw [List.take_take, Nat.min_eq_left hab]
  rw [this] at h
  exact List.mem_of_mem_take h

theorem mem_take_of_drop_take {α : Type} {l : List α} {a b : Nat} {x : α}
    (h : x ∈ (l.drop a).take (b - a)) : x ∈ l.take b := by
  rw [← List.drop_take] at h
  exact List.mem_of_mem_drop h

theorem getElem?_lt {α : Type} {l : List α} {i : Nat} {x : α} (h : l[i]? = some x) :
    i < l.length := by
  by_contra hc
  rw [List.getElem?_eq_none (by omega)] at h
  cases h

theorem is_full_false {n : DataNode_t} (h : n.is_full = false) :
    n.m_num_entries < n.m_max_entries := by
  simpa [DataNode_t.is_full] using h

theorem is_full_true {n : DataNode_t} (h : n.is_full = true) :
    n.m_max_entries ≤ n.m_num_entries := by
  simpa [DataNode_t.is_full] using h

theorem WInv.call_insert {cap : Nat} {lvl : Nat → Nat} {S : Int → Prop} {m : Mem}
    {p : Nat} {n : DataNode_t} {e : data_entry} (hw : WInv cap lvl S m)
    (hp : m.nodes[p]? = some n) (hnf : n.is_full = false)
    (he : EntryOK lvl m.nodes.length (lvl p) S e) :
    ∃ m1, m.call_insert p e = .ok m1 ∧ WInv cap lvl S m1 ∧
      m1.nodes.length = m.nodes.length := by
  have hn := hw.2 p n hp
  have hlt := is_full_false hnf
  rw [hn.1] at hlt
  have hb : n.m_num_entries ≤ n.m_entries.length := by have := hn.2.2.1; omega
  refine ⟨_, call_insert_eq m p n e hp hb, ⟨?_, ?_⟩, by simp⟩
  · simp [hnf, hw.1]
  · intro i n1 hi
    simp only [List.length_set]
    simp only [List.getElem?_set] at hi
    split_ifs at hi with h1
    · cases hi; subst h1
      exact hn.inserted hlt he
    · exact hw.2 i n1 hi

theorem WInv.split {cap : Nat} {lvl : Nat → Nat} {S : Int → Prop} {m : Mem}
    {p : Nat} {n : DataNode_t} {e : data_entry} (lf : Bool) (hw : WInv cap lvl S m)
    (hp : m.nodes[p]? = some n) (hf : n.is_full = true)
    (he : EntryOK lvl m.nodes.length (lvl p) S e) (hcap : 2 ≤ cap) :
    ∃ m1 e1, split cap m p lf e = .ok (m1, e1) ∧
      WInv cap (Function.update lvl m.nodes.length (lvl p)) S m1 ∧
      m1.nodes.length = m.nodes.length + 1 ∧
      e1.get0 = some p ∧ e1.get3 = some m.nodes.length ∧ S e1.get1 ∧ e1.get2 = e.get2 := by
  have hn := hw.2 p n hp
  have hplt := getElem?_lt hp
  have hnum : n.m_num_entries = cap := by
    have := is_full_true hf; rw [hn.1] at this; have := hn.2.1; omega
  have hhalf : 1 ≤ cap / 2 := by omega
  have hhalf2 : cap / 2 < cap := Nat.div_lt_self (by omega) (by omega)
  have hfrom1 : 1 ≤ split_from cap lf := by unfold split_from; split <;> omega
  have hfrom2 : split_from cap lf ≤ cap := by unfold split_from; split <;> omega
  obtain ⟨mid, hmid, hs⟩ := split_eq cap m p lf e n hp (by omega) hn.2.2.1
  have hmidS : S mid.get1 := by
    have : mid ∈ n.valid := by
      have h1 : mid ∈ n.m_entries.take (cap / 2 + 1) := by
        rw [List.mem_take_iff_getElem]
        have hl := getElem?_lt hmid
        refine ⟨cap / 2, by simp; omega, ?_⟩
        rw [List.getElem?_eq_getElem hl] at hmid
        exact Option.some.inj hmid
      exact mem_take_of_le (by omega) h1
    exact (hn.2.2.2 mid this).2.2
  set lvl1 := Function.update lvl m.nodes.length (lvl p) with hlvl1
  have hl1 : ∀ i, i < m.nodes.length → lvl1 i = lvl i := by
    intro i hi
    simp [hlvl1, Function.update, Nat.ne_of_lt hi]
  have hl1n : lvl1 m.nodes.length = lvl p := by simp [hlvl1]
  have he1 : EntryOK lvl1 (m.nodes.length + 1) (lvl p) S e := he.entry_mono (by omega) hl1
  -- the two halves
  have hL : NodeOK cap lvl1 (m.nodes.length + 1) S p (split_left cap m.nodes.length n) := by
    refine ⟨hn.1, ?_, ?_, ?_⟩
    · simp only [split_left, List.length_take]; omega
    · simp only [split_left, vec_resize_length]; omega
    · rw [split_left_valid, hl1 p hplt]
      intro x hx
      exact (hn.2.2.2 x (mem_take_of_le (by omega) hx)).entry_mono (by omega) hl1
  have hR : NodeOK cap lvl1 (m.nodes.length + 1) S m.nodes.length (split_right cap lf n) := by
    refine ⟨rfl, ?_, ?_, ?_⟩
    · simp only [split_right, List.length_take]; omega
    · simp only [split_right, vec_resize_length]; omega
    · rw [split_right_valid, hl1n]
      intro x hx
      have := mem_take_of_drop_take hx
      rw [← hnum] at this
      exact (hn.2.2.2 x this).entry_mono (by omega) hl1
  have hLn : (split_left cap m.nodes.length n).m_num_entries < cap := by
    simp only [split_left, List.length_take]; omega
  have hRn : (split_right cap lf n).m_num_entries < cap := by
    simp only [split_right, List.length_take, List.length_drop]; omega
  have hLf : (split_left cap m.nodes.length n).is_full = false := by
    simp only [DataNode_t.is_full, decide_eq_false_iff_not, not_le]
    show _ < n.m_max_entries
    rw [hn.1]; exact hLn
  have hRf : (split_right cap lf n).is_full = false := by
    simp only [DataNode_t.is_full, decide_eq_false_iff_not, not_le]
    exact hRn
  refine ⟨_, _, hs, ⟨?_, ?_⟩, ?_, rfl, rfl, hmidS, rfl⟩
  · simp [hLf, hRf, hw.1]
  · intro i n1 hi
    have hlen : ∀ (a b : DataNode_t), (m.nodes.set p a ++ [b]).length = m.nodes.length + 1 := by
      intro a b; simp
    have key : ∀ (a b : DataNode_t),
        NodeOK cap lvl1 (m.nodes.length + 1) S p a →
        NodeOK cap lvl1 (m.nodes.length + 1) S m.nodes.length b →
        (m.nodes.set p a ++ [b])[i]? = some n1 →
        NodeOK cap lvl1 (m.nodes.length + 1) S i n1 := by
      intro a b ha hb hi
      by_cases hilt : i < m.nodes.length
      · rw [List.getElem?_append_left (by simpa using hilt), List.getElem?_set] at hi
        split_ifs at hi with h1
        · cases hi; subst h1; exact ha
        · exact (hw.2 i n1 hi).node_mono (by omega) hl1 (hl1 i hilt)
      · rw [List.getElem?_append_right (by simpa using hilt)] at hi
        simp only [List.length_set] at hi
        have : i = m.nodes.length := by
          by_contra hne
          have : i - m.nodes.length = (i - m.nodes.length - 1) + 1 := by omega
          rw [this] at hi
          simp at hi
        subst this
        simp at hi
        subst hi
        exact hb
    simp only at hi ⊢
    split_ifs at hi ⊢ with hk
    · rw [hlen]
      refine key _ _ hL ?_ hi
      have := hR.inserted hRn (by rw [hl1n]; exact he1)
      exact this
    · rw [hlen]
      refine key _ _ ?_ hR hi
      have := hL.inserted hLn (by rw [hl1 p hplt]; exact he1)
      exact this
  · simp only
    split_ifs <;> simp

theorem WInv.insert_recursive_ok {cap : Nat} (hcap : 2 ≤ cap) (key : Int) (data : Option Nat)
    (S : Int → Prop) :
    ∀ (fuel : Nat) (m : Mem) (curr : Nat) (entry : data_entry) (lvl : Nat → Nat),
      WInv cap lvl S m → curr < m.nodes.length → lvl curr < fuel →
      entry.get0 = none → entry.get3 = none → S entry.get1 →
      ∃ b m1 e1 lvl1, insert_recursive cap fuel m curr key data entry = .ok (b, m1, e1) ∧
        WInv cap lvl1 S m1 ∧ m.nodes.length ≤ m1.nodes.length ∧
        (∀ i, i < m.nodes.length → lvl1 i = lvl i) ∧
        (b = true → e1.get0 = some curr ∧ S e1.get1 ∧
          ∃ r, e1.get3 = some r ∧ r < m1.nodes.length ∧ lvl1 r = lvl curr) := by
  intro fuel
  induction fuel with
  | zero => intro m curr entry lvl _ _ h; omega
  | succ fuel ih =>
    intro m curr entry lvl hw hcurr hfuel h0 h3 hS
    obtain ⟨c, hc⟩ : ∃ c, m.nodes[curr]? = some c :=
      ⟨m.nodes[curr], List.getElem?_eq_getElem hcurr⟩
    have hn := hw.2 curr c hc
    have hb : c.m_num_entries ≤ c.m_entries.length := by
      have := hn.2.1; have := hn.2.2.1; omega
    have hnext := next_eq c key hb
    have hentry : ∀ h, EntryOK lvl m.nodes.length h S entry :=
      fun h => ⟨(by intro x hx; rw [h0] at hx; cases hx),
        (by intro x hx; rw [h3] at hx; cases hx), hS⟩
    unfold BPlusTree.insert_recursive
    simp only [deref_eq m curr c hc, hnext]
    cases hr : route key c.valid none with
    | none =>
      simp only
      cases hfull : c.is_full with
      | true =>
        obtain ⟨m1, e1, hs, hw1, hlen, hg0, hg3, hS1, _⟩ :=
          hw.split true hc hfull (hentry _) hcap
        simp only [hs, if_true]
        refine ⟨true, m1, e1, _, rfl, hw1, by omega, ?_, ?_⟩
        · intro i hi; simp [Function.update, Nat.ne_of_lt hi]
        · intro _
          exact ⟨hg0, hS1, m.nodes.length, hg3, by omega, by simp⟩
      | false =>
        obtain ⟨m1, hs, hw1, hlen⟩ := hw.call_insert hc hfull (hentry _)
        simp only [hs]
        exact ⟨false, m1, entry, lvl, by simp, hw1, by omega, fun _ _ => rfl, by simp⟩
    | some child =>
      simp only
      have hchild : child < m.nodes.length ∧ lvl child + 1 = lvl curr := by
        rcases route_mem key c.valid none with h | ⟨x, hx, h | h⟩
        · rw [hr] at h; cases h
        · rw [hr] at h; exact (hn.2.2.2 x hx).1 child h.symm
        · rw [hr] at h; exact (hn.2.2.2 x hx).2.1 child h.symm
      obtain ⟨b, m1, e1, lvl1, hrec, hw1, hlen1, hl1, hb1⟩ :=
        ih m child entry lvl hw hchild.1 (by omega) h0 h3 hS
      rw [hrec]
      cases b with
      | false =>
        exact ⟨false, m1, e1, lvl1, rfl, hw1, hlen1, hl1, by simp⟩
      | true =>
        simp only
        obtain ⟨hg0, hS1, r, hg3, hrlt, hrl⟩ := hb1 rfl
        obtain ⟨c1, hc1⟩ : ∃ c1, m1.nodes[curr]? = some c1 :=
          ⟨m1.nodes[curr], List.getElem?_eq_getElem (by omega)⟩
        have he1 : EntryOK lvl1 m1.nodes.length (lvl1 curr) S e1 := by
          refine ⟨?_, ?_, hS1⟩
          · intro x hx
            rw [hg0] at hx; cases hx
            exact ⟨by omega, by rw [hl1 _ hchild.1, hl1 _ hcurr]; exact hchild.2⟩
          · intro x hx
            rw [hg3] at hx; cases hx
            exact ⟨hrlt, by rw [hrl, hl1 _ hcurr]; exact hchild.2⟩
        simp only [deref_eq m1 curr c1 hc1]
        cases hfull : c1.is_full with
        | true =>
          obtain ⟨m2, e2, hs, hw2, hlen, hg0, hg3, hS2, _⟩ :=
            hw1.split false hc1 hfull he1 hcap
          simp only [hs, if_true]
          refine ⟨true, m2, e2, _, rfl, hw2, by omega, ?_, ?_⟩
          · intro i hi
            have : i ≠ m1.nodes.length := by omega
            simp [Function.update, this, hl1 i hi]
          · intro _
            exact ⟨hg0, hS2, m1.nodes.length, hg3, by omega, by simp [hl1 _ hcurr]⟩
        | false =>
          obtain ⟨m2, hs, hw2, hlen⟩ := hw1.call_insert hc1 hfull he1
          simp only [hs]
          exact ⟨false, m2, e1, lvl1, by simp, hw2, by omega, hl1, by simp⟩

theorem new_node_ok (cap : Nat) (lf : Bool) (lvl : Nat → Nat) (len : Nat) (S : Int → Prop)
    (i : Nat) : NodeOK cap lvl len S i (DataNode_t.new cap lf) := by
  refine ⟨rfl, by simp [DataNode_t.new], by simp [DataNode_t.new, vec_resize_length], ?_⟩
  intro e he
  simp [DataNode_t.valid, DataNode_t.new] at he

theorem WTree.new_weak (sizeof_entry block_size : Nat) (S : Int → Prop) :
    WTree S (BTree.new sizeof_entry block_size) := by
  refine ⟨fun _ => 0, ⟨rfl, ?_⟩, by simp [BTree.new], rfl, by simp [BTree.new]⟩
  intro i n hi
  simp only [BTree.new] at hi
  have : i = 0 := by
    have := getElem?_lt hi
    simpa using this
  subst this
  simp at hi
  subst hi
  exact new_node_ok _ _ _ _ _ _

theorem WInv.alloc {cap : Nat} {lvl : Nat → Nat} {S : Int → Prop} {m : Mem}
    (hw : WInv cap lvl S m) (lf : Bool) (h : Nat) :
    WInv cap (Function.update lvl m.nodes.length h) S
      { nodes := m.nodes ++ [DataNode_t.new cap lf], full_inserts := m.full_inserts } := by
  have hl1 : ∀ i, i < m.nodes.length →
      Function.update lvl m.nodes.length h i = lvl i := by
    intro i hi
    simp [Function.update, Nat.ne_of_lt hi]
  refine ⟨hw.1, ?_⟩
  intro i n hi
  simp only at hi ⊢
  by_cases hilt : i < m.nodes.length
  · rw [List.getElem?_append_left hilt] at hi
    exact (hw.2 i n hi).node_mono (by simp) hl1 (hl1 i hilt)
  · have hlt := getElem?_lt hi
    have : i = m.nodes.length := by simp at hlt; omega
    subst this
    rw [List.getElem?_append_right (le_refl _)] at hi
    simp at hi
    subst hi
    exact new_node_ok _ _ _ _ _ _

theorem WTree.insert_weak {S : Int → Prop} {t : BTree} (hw : WTree S t)
    (hcap : 2 ≤ t.m_max_entries) (key : Int) (data : Option Nat) (hS : S key) :
    ∃ t1, t.insert key data = .ok (true, t1) ∧ WTree S t1 ∧
      t1.m_max_entries = t.m_max_entries ∧ t.m_depth ≤ t1.m_depth := by
  obtain ⟨lvl, hinv, hroot, hlr, hdep⟩ := hw
  obtain ⟨b, m1, e1, lvl1, hrec, hw1, hlen1, hl1, hb1⟩ :=
    hinv.insert_recursive_ok hcap key data S t.fuel t.mem t.m_root
      { data_entry.default with get1 := key, get2 := data } lvl hroot
      (by simp only [BTree.fuel]; omega) rfl rfl hS
  unfold BTree.insert
  simp only [hrec]
  cases b with
  | false =>
    refine ⟨_, rfl, ⟨lvl1, hw1, by simp only; omega, ?_, by simp only; omega⟩, rfl, le_refl _⟩
    simp only
    rw [hl1 _ hroot]; exact hlr
  | true =>
    obtain ⟨hg0, hS1, r, hg3, hrlt, hrl⟩ := hb1 rfl
    simp only [Mem.alloc]
    have hw2 := hw1.alloc false (t.m_depth + 1)
    set lvl2 := Function.update lvl1 m1.nodes.length (t.m_depth + 1) with hlvl2
    have hl2 : ∀ i, i < m1.nodes.length → lvl2 i = lvl1 i := by
      intro i hi
      simp [hlvl2, Function.update, Nat.ne_of_lt hi]
    have hl2n : lvl2 m1.nodes.length = t.m_depth + 1 := by simp [hlvl2]
    have hnew : ({ nodes := m1.nodes ++ [DataNode_t.new t.m_max_entries false],
                   full_inserts := m1.full_inserts } : Mem).nodes[m1.nodes.length]?
        = some (DataNode_t.new t.m_max_entries false) := by
      simp only
      rw [List.getElem?_append_right (le_refl _)]
      simp
    have hnf : (DataNode_t.new t.m_max_entries false).is_full = false := by
      simp [DataNode_t.is_full, DataNode_t.new]; omega
    have he1 : EntryOK lvl2 (m1.nodes.length + 1) (lvl2 m1.nodes.length) S e1 := by
      refine ⟨?_, ?_, hS1⟩
      · intro x hx
        rw [hg0] at hx; cases hx
        exact ⟨by omega, by rw [hl2n, hl2 _ (by omega), hl1 _ hroot, hlr]⟩
      · intro x hx
        rw [hg3] at hx; cases hx
        exact ⟨by omega, by rw [hl2n, hl2 _ hrlt, hrl, hlr]⟩
    obtain ⟨m3, hs, hw3, hlen3⟩ := hw2.call_insert hnew hnf (by simpa using he1)
    simp only [hs]
    refine ⟨_, rfl, ⟨lvl2, hw3, ?_, ?_, ?_⟩, rfl, by simp⟩
    · simp only [hlen3, List.length_append, List.length_singleton]; omega
    · exact hl2n
    · simp only [hlen3, List.length_append, List.length_singleton]; omega

theorem WTree.insert_all_weak {S : Int → Prop} :
    ∀ (ops : List (Int × Option Nat)) (t : BTree), WTree S t → 2 ≤ t.m_max_entries →
      (∀ op ∈ ops, S op.1) →
      ∃ t1, BTree.insert_all t ops = .ok t1 ∧ WTree S t1 ∧
        t1.m_max_entries = t.m_max_entries
  | [], t, hw, _, _ => ⟨t, rfl, hw, rfl⟩
  | (key, data) :: rest, t, hw, hcap, hS => by
    obtain ⟨t1, h1, hw1, hc1, _⟩ := hw.insert_weak hcap key data (hS (key, data) (by simp))
    obtain ⟨t2, h2, hw2, hc2⟩ := WTree.insert_all_weak rest t1 hw1 (by omega)
      (fun op hop => hS op (by simp [hop]))
    exact ⟨t2, by simp [BTree.insert_all, h1, h2], hw2, by omega⟩

theorem lookup_none (key : Int) : ∀ V : List data_entry,
    (∀ x ∈ V, x.get1 ≠ key) → lookup key V = none
  | [], _ => rfl
  | x :: xs, h => by
    have h1 : ¬ key = x.get1 := fun hk => h x (by simp) hk.symm
    simp only [lookup, h1, if_false]
    exact lookup_none key xs (fun y hy => h y (by simp [hy]))

theorem WInv.retrieve_rec_none {cap : Nat} {S : Int → Prop} {m : Mem} {lvl : Nat → Nat}
    (hw : WInv cap lvl S m) (key : Int) (hk : ¬ S key) :
    ∀ (fuel curr : Nat), curr < m.nodes.length → lvl curr < fuel →
      retrieve_recursive fuel m key curr = .ok none := by
  intro fuel
  induction fuel with
  | zero => intro curr _ h; omega
  | succ fuel ih =>
    intro curr hcurr hfuel
    obtain ⟨c, hc⟩ : ∃ c, m.nodes[curr]? = some c :=
      ⟨m.nodes[curr], List.getElem?_eq_getElem hcurr⟩
    have hn := hw.2 curr c hc
    have hb : c.m_num_entries ≤ c.m_entries.length := by
      have := hn.2.1; have := hn.2.2.1; omega
    unfold retrieve_recursive
    simp only [deref_eq m curr c hc, next_eq c key hb]
    cases hr : route key c.valid none with
    | none =>
      simp only [retrieve_eq c key hb]
      rw [lookup_none]
      intro x hx hxk
      exact hk (hxk ▸ (hn.2.2.2 x hx).2.2)
    | some child =>
      simp only
      have hchild : child < m.nodes.length ∧ lvl child + 1 = lvl curr := by
        rcases route_mem key c.valid none with h | ⟨x, hx, h | h⟩
        · rw [hr] at h; cases h
        · rw [hr] at h; exact (hn.2.2.2 x hx).1 child h.symm
        · rw [hr] at h; exact (hn.2.2.2 x hx).2.1 child h.symm
      exact ih child hchild.1 (by omega)

theorem WTree.retrieve_none {S : Int → Prop} {t : BTree} (hw : WTree S t) (key : Int)
    (hk : ¬ S key) : t.retrieve key = .ok none := by
  obtain ⟨lvl, hinv, hroot, hlr, hdep⟩ := hw
  exact hinv.retrieve_rec_none key hk t.fuel t.m_root hroot (by simp only [BTree.fuel]; omega)

theorem Blt_inhabited {l u : Option Int} (h : Blt l u) : ∃ k, InB l u k := by
  cases l with
  | none =>
    cases u with
    | none => exact ⟨0, by simp [InB]⟩
    | some b => exact ⟨b - 1, by simp [InB]⟩
  | some a =>
    cases u with
    | none => exact ⟨a, by simp [InB]⟩
    | some b => exact ⟨a, by simp [InB]; exact h⟩

theorem InB_strict {l u : Option Int} {k : Int} (h1 : Blt l (some k)) (h2 : Blt (some k) u) :
    InB l u k := by
  constructor
  · intro a ha; subst ha; simp [Blt] at h1; omega
  · intro b hb; subst hb; simpa [Blt] using h2

theorem Blt_some_some {a b : Int} : Blt (some a) (some b) ↔ a < b := Iff.rfl

theorem Blt_none_left (u : Option Int) : Blt none u := by
  cases u <;> trivial

theorem Blt_none_right (l : Option Int) : Blt l none := by
  cases l <;> trivial

theorem Blt_trans_some {l u : Option Int} {k : Int} (h1 : Blt l (some k))
    (h2 : Blt (some k) u) : Blt l u := by
  cases l <;> cases u <;> simp [Blt] at * ; omega

theorem Child_congr {g g1 : Ghost} {len len1 h : Nat} {p : Option Nat} {l u : Option Int}
    (hc : Child g len h p l u) (hlen : len ≤ len1)
    (hs : ∀ c, p = some c → g.same g1 c) : Child g1 len1 h p l u := by
  obtain ⟨c, hp, hlt, hl, hlo, hhi, hb⟩ := hc
  obtain ⟨s1, s2, s3⟩ := hs c hp
  exact ⟨c, hp, by omega, by rw [s1]; exact hl, by rw [s2]; exact hlo,
    by rw [s3]; exact hhi, hb⟩

theorem Wf_congr {g g1 : Ghost} {len len1 h : Nat} (hlen : len ≤ len1) :
    ∀ (V : List data_entry) (l u : Option Int), Wf g len h l V u →
      (∀ c, IsChild V c → g.same g1 c) → Wf g1 len1 h l V u
  | [], _, _, hw, _ => by simp [Wf] at hw
  | [e], l, u, hw, hs => by
    simp only [Wf] at hw ⊢
    exact ⟨Child_congr hw.1 hlen (fun c hc => hs c ⟨e, by simp, Or.inl hc⟩),
      Child_congr hw.2 hlen (fun c hc => hs c ⟨e, by simp, Or.inr hc⟩)⟩
  | e :: e2 :: rest, l, u, hw, hs => by
    simp only [Wf] at hw ⊢
    refine ⟨Child_congr hw.1 hlen (fun c hc => hs c ⟨e, by simp, Or.inl hc⟩), hw.2.1, ?_⟩
    apply Wf_congr hlen (e2 :: rest) _ _ hw.2.2
    rintro c ⟨y, hy, hyc⟩
    exact hs c ⟨y, by simp [List.mem_cons] at hy ⊢; tauto, hyc⟩

theorem InB_widen_left {l u : Option Int} {k z : Int} (h : Blt l (some k))
    (hz : InB (some k) u z) : InB l u z := by
  refine ⟨?_, hz.2⟩
  intro a ha; subst ha
  have := hz.1 k rfl
  simp [Blt] at h; omega

theorem InB_widen_right {l u : Option Int} {k z : Int} (h : Blt (some k) u)
    (hz : InB l (some k) z) : InB l u z := by
  refine ⟨hz.1, ?_⟩
  intro b hb; subst hb
  have := hz.2 k rfl
  simp [Blt] at h; omega

theorem Wf_head {g : Ghost} {len h : Nat} {e : data_entry} {rest : List data_entry}
    {l u : Option Int} (hw : Wf g len h l (e :: rest) u) :
    Child g len h e.get0 l (some e.get1) := by
  cases rest with
  | nil => exact hw.1
  | cons e2 rest => exact hw.1

theorem Child_Blt {g : Ghost} {len h : Nat} {p : Option Nat} {l u : Option Int}
    (hc : Child g len h p l u) : Blt l u := by
  obtain ⟨c, _, _, _, _, _, hb⟩ := hc
  exact hb

theorem Wf_Blt {g : Ghost} {len h : Nat} :
    ∀ (V : List data_entry) (l u : Option Int), Wf g len h l V u → Blt l u
  | [], _, _, hw => by simp [Wf] at hw
  | [_], _, _, hw => Blt_trans_some (Child_Blt hw.1) (Child_Blt hw.2)
  | _ :: e2 :: rest, _, _, hw =>
    Blt_trans_some (Child_Blt hw.1) (Wf_Blt (e2 :: rest) _ _ hw.2.2)

theorem Wf_child {g : Ghost} {len h : Nat} :
    ∀ (V : List data_entry) (l u : Option Int), Wf g len h l V u →
      ∀ c, IsChild V c → c < len ∧ g.lvl c = h ∧ Blt (g.lo c) (g.hi c) ∧
        ∀ z, InB (g.lo c) (g.hi c) z → InB l u z
  | [], _, _, hw => by simp [Wf] at hw
  | [e], l, u, hw => by
    rintro c ⟨y, hy, hyc⟩
    simp only [List.mem_singleton] at hy
    subst hy
    obtain ⟨⟨c0, h0, h0lt, h0l, h0lo, h0hi, h0b⟩, ⟨c3, h3, h3lt, h3l, h3lo, h3hi, h3b⟩⟩ := hw
    rcases hyc with hyc | hyc
    · rw [h0] at hyc; cases hyc
      refine ⟨h0lt, h0l, by rw [h0lo, h0hi]; exact h0b, ?_⟩
      intro z hz; rw [h0lo, h0hi] at hz
      exact InB_widen_right h3b hz
    · rw [h3] at hyc; cases hyc
      refine ⟨h3lt, h3l, by rw [h3lo, h3hi]; exact h3b, ?_⟩
      intro z hz; rw [h3lo, h3hi] at hz
      exact InB_widen_left h0b hz
  | e :: e2 :: rest, l, u, hw => by
    obtain ⟨⟨c0, h0, h0lt, h0l, h0lo, h0hi, h0b⟩, hadj, hrest⟩ := hw
    have ih := Wf_child (e2 :: rest) _ _ hrest
    have hbu := Wf_Blt _ _ _ hrest
    have hin : ∀ c, IsChild (e2 :: rest) c → c < len ∧ g.lvl c = h ∧
        Blt (g.lo c) (g.hi c) ∧ ∀ z, InB (g.lo c) (g.hi c) z → InB l u z := by
      intro c hc
      obtain ⟨a1, a2, a3, a4⟩ := ih c hc
      exact ⟨a1, a2, a3, fun z hz => InB_widen_left h0b (a4 z hz)⟩
    rintro c ⟨y, hy, hyc⟩
    simp only [List.mem_cons] at hy
    rcases hy with rfl | hy
    · rcases hyc with hyc | hyc
      · rw [h0] at hyc; cases hyc
        refine ⟨h0lt, h0l, by rw [h0lo, h0hi]; exact h0b, ?_⟩
        intro z hz; rw [h0lo, h0hi] at hz
        exact InB_widen_right hbu hz
      · exact hin c ⟨e2, by simp, Or.inl (hadj ▸ hyc)⟩
    · exact hin c ⟨y, by simp only [List.mem_cons]; exact hy, hyc⟩

theorem route_cons (key : Int) (e : data_entry) (es : List data_entry) (d : Option Nat) :
    route key (e :: es) d
      = if e.get1 > key then e.get0 else if e.get1 = key then e.get3
        else route key es e.get3 := rfl

theorem Wf_route {g : Ghost} {len h : Nat} (key : Int) :
    ∀ (V : List data_entry) (l u : Option Int) (d : Option Nat), Wf g len h l V u →
      InB l u key →
      ∃ c, route key V d = some c ∧ IsChild V c ∧ InB (g.lo c) (g.hi c) key
  | [], _, _, _, hw, _ => by simp [Wf] at hw
  | [e], l, u, d, hw, hk => by
    obtain ⟨⟨c0, h0, h0lt, h0l, h0lo, h0hi, h0b⟩, ⟨c3, h3, h3lt, h3l, h3lo, h3hi, h3b⟩⟩ := hw
    simp only [route]
    by_cases h1 : e.get1 > key
    · refine ⟨c0, by simp [h1, h0], ⟨e, by simp, Or.inl h0⟩, ?_⟩
      rw [h0lo, h0hi]
      exact ⟨hk.1, fun b hb => by cases hb; exact h1⟩
    · have : route key [] e.get3 = e.get3 := rfl
      refine ⟨c3, by simp [h1, h3, route], ⟨e, by simp, Or.inr h3⟩, ?_⟩
      rw [h3lo, h3hi]
      exact ⟨fun a ha => by cases ha; omega, hk.2⟩
  | e :: e2 :: rest, l, u, d, hw, hk => by
    obtain ⟨⟨c0, h0, h0lt, h0l, h0lo, h0hi, h0b⟩, hadj, hrest⟩ := hw
    rw [route_cons]
    by_cases h1 : e.get1 > key
    · refine ⟨c0, by rw [if_pos h1, h0], ⟨e, by simp, Or.inl h0⟩, ?_⟩
      rw [h0lo, h0hi]
      exact ⟨hk.1, fun b hb => by cases hb; exact h1⟩
    · rw [if_neg h1]
      by_cases h2 : e.get1 = key
      · obtain ⟨c2, g0, g0lt, g0l, g0lo, g0hi, g0b⟩ := Wf_head hrest
        refine ⟨c2, by rw [if_pos h2, hadj, g0], ⟨e2, by simp, Or.inl g0⟩, ?_⟩
        rw [g0lo, g0hi]
        simp only [Blt] at g0b
        exact ⟨fun a ha => by cases ha; omega, fun b hb => by cases hb; omega⟩
      · rw [if_neg h2]
        have hk2 : InB (some e.get1) u key :=
          ⟨fun a ha => by cases ha; omega, hk.2⟩
        obtain ⟨c, hc1, ⟨y, hy, hyc⟩, hc3⟩ := Wf_route key (e2 :: rest) _ u e.get3 hrest hk2
        exact ⟨c, hc1, ⟨y, by simp only [List.mem_cons] at hy ⊢; tauto, hyc⟩, hc3⟩

theorem Wf_split_at {g : Ghost} {len h : Nat} (mid : data_entry) (b : data_entry)
    (B : List data_entry) (u : Option Int) :
    ∀ (A : List data_entry) (l : Option Int), A ≠ [] →
      Wf g len h l (A ++ mid :: b :: B) u →
      Wf g len h l A (some mid.get1) ∧ Wf g len h (some mid.get1) (b :: B) u
  | [], _, hA, _ => absurd rfl hA
  | [a], l, _, hw => by
    simp only [List.singleton_append, Wf] at hw
    obtain ⟨h1, h2, h3, h4, h5⟩ := hw
    exact ⟨⟨h1, by rw [h2]; exact h3⟩, h5⟩
  | a :: a2 :: A, l, _, hw => by
    simp only [List.cons_append, Wf] at hw
    obtain ⟨h1, h2, h3⟩ := hw
    have := Wf_split_at mid b B u (a2 :: A) (some a.get1) (by simp) (by simpa using h3)
    exact ⟨⟨h1, h2, this.1⟩, this.2⟩

theorem ins_spec_cons (e x : data_entry) (xs : List data_entry) :
    ins_spec e (x :: xs)
      = if e.get1 ≤ x.get1 then e :: { x with get0 := e.get3 } :: xs
        else (if pos e.get1 xs = 0 then { x with get3 := e.get0 } else x) :: ins_spec e xs :=
  rfl

theorem ins_spec_head (e x : data_entry) (xs : List data_entry) :
    ∃ y ys, ins_spec e (x :: xs) = y :: ys ∧
      ((pos e.get1 (x :: xs) = 0 ∧ y = e) ∨
       (pos e.get1 (x :: xs) ≠ 0 ∧ y.get0 = x.get0 ∧ y.get1 = x.get1)) := by
  rw [ins_spec_cons]
  by_cases hk : e.get1 ≤ x.get1
  · exact ⟨_, _, by rw [if_pos hk], Or.inl ⟨by simp [pos, hk], rfl⟩⟩
  · refine ⟨_, _, by rw [if_neg hk], Or.inr ⟨by simp [pos, hk], ?_⟩⟩
    split_ifs <;> simp

theorem Wf_ins {g g1 : Ghost} {len len1 h : Nat} {L R : Nat} {k : Int} (d : Option Nat)
    (hlen : len ≤ len1)
    (hoth : ∀ c, c < len → g.lvl c = h → c ≠ L → g.same g1 c)
    (hLlt : L < len) (hLl : g1.lvl L = h) (hLlo : g1.lo L = g.lo L) (hLhi : g1.hi L = some k)
    (hRlt : R < len1) (hRl : g1.lvl R = h) (hRlo : g1.lo R = some k)
    (hRhi : g1.hi R = g.hi L)
    (hk1 : Blt (g.lo L) (some k)) (hk2 : Blt (some k) (g.hi L)) :
    ∀ (V : List data_entry) (l u : Option Int), Wf g len h l V u → IsChild V L →
      Wf g1 len1 h l (ins_spec ⟨some L, k, d, some R⟩ V) u := by
  have mkL : Child g1 len1 h (some L) (g.lo L) (some k) :=
    ⟨L, rfl, by omega, hLl, hLlo, hLhi, hk1⟩
  have mkR : Child g1 len1 h (some R) (some k) (g.hi L) :=
    ⟨R, rfl, hRlt, hRl, hRlo, hRhi, hk2⟩
  have keep : ∀ {p : Option Nat} {a b : Option Int}, Child g len h p a b → p ≠ some L →
      Child g1 len1 h p a b := by
    intro p a b hc hp
    refine Child_congr hc hlen ?_
    intro c hpc
    obtain ⟨c1, hc1, hc1lt, hc1l, _⟩ := hc
    rw [hpc] at hc1 hp; cases hc1
    exact hoth c hc1lt hc1l (fun hcl => hp (by rw [hcl]))
  have isL : ∀ {a b : Option Int}, Child g len h (some L) a b → a = g.lo L ∧ b = g.hi L := by
    intro a b hc
    obtain ⟨c1, hc1, _, _, hlo, hhi, _⟩ := hc
    cases hc1
    exact ⟨hlo.symm, hhi.symm⟩
  have hkin : InB (g.lo L) (g.hi L) k := InB_strict hk1 hk2
  have hkin1 : InB (g.lo L) (g.hi L) (k - 1) := by
    constructor
    · intro a ha; rw [ha] at hk1; simp only [Blt] at hk1; omega
    · intro b hb; rw [hb] at hk2; simp only [Blt] at hk2; omega
  -- a child of a list that starts at or above `k` is not `L`
  have above : ∀ {V : List data_entry} {x : Int} {u : Option Int},
      Wf g len h (some x) V u → k ≤ x → ∀ c, IsChild V c → c ≠ L := by
    intro V x u hw hx c hc hcl
    subst hcl
    have := ((Wf_child V _ _ hw c hc).2.2.2 (k - 1) hkin1).1 x rfl
    omega
  intro V
  induction V with
  | nil => intro l u hw; simp [Wf] at hw
  | cons x xs ih =>
    intro l u hw hL
    rw [ins_spec_cons]
    cases xs with
    | nil =>
      obtain ⟨C0, C3⟩ := hw
      obtain ⟨y, hy, hyL⟩ := hL
      simp only [List.mem_singleton] at hy
      subst hy
      by_cases hk : k ≤ y.get1
      · rw [if_pos hk]
        have h0 : y.get0 = some L := by
          rcases hyL with h | h
          · exact h
          · rw [h] at C3
            have := (isL C3).1
            rw [← this] at hk1
            simp only [Blt] at hk1
            omega
        rw [h0] at C0
        obtain ⟨e1, e2⟩ := isL C0
        have h3 : y.get3 ≠ some L := by
          intro h3
          rw [h3] at C3
          have := (isL C3).1
          rw [← this] at hk1
          simp only [Blt] at hk1
          omega
        simp only [Wf]
        refine ⟨by rw [e1]; exact mkL, trivial, ?_, keep C3 h3⟩
        rw [e2]; exact mkR
      · rw [if_neg hk]
        have h3 : y.get3 = some L := by
          rcases hyL with h | h
          · rw [h] at C0
            have := (isL C0).2
            rw [← this] at hk2
            simp only [Blt] at hk2
            omega
          · exact h
        rw [h3] at C3
        obtain ⟨e1, e2⟩ := isL C3
        have h0 : y.get0 ≠ some L := by
          intro h0
          rw [h0] at C0
          have := (isL C0).2
          rw [← this] at hk2
          simp only [Blt] at hk2
          omega
        simp only [pos, if_true, ins_spec, Wf]
        refine ⟨keep C0 h0, trivial, ?_, ?_⟩
        · rw [e1]; exact mkL
        · rw [e2]; exact mkR
    | cons x2 rest =>
      obtain ⟨C0, hadj, hrest⟩ := hw
      by_cases hk : k ≤ x.get1
      · rw [if_pos hk]
        have hnot := above hrest hk
        have h0 : x.get0 = some L := by
          obtain ⟨y, hy, hyL⟩ := hL
          simp only [List.mem_cons] at hy
          rcases hy with rfl | hy
          · rcases hyL with h | h
            · exact h
            · exact absurd rfl (hnot L ⟨x2, by simp, Or.inl (hadj ▸ h)⟩)
          · exact absurd rfl (hnot L ⟨y, by simp only [List.mem_cons]; exact hy, hyL⟩)
        rw [h0] at C0
        obtain ⟨e1, e2⟩ := isL C0
        simp only [Wf]
        refine ⟨by rw [e1]; exact mkL, trivial, by rw [e2]; exact mkR, hadj, ?_⟩
        refine Wf_congr hlen _ _ _ hrest ?_
        intro c hc
        exact hoth c (Wf_child _ _ _ hrest c hc).1 (Wf_child _ _ _ hrest c hc).2.1 (hnot c hc)
      · rw [if_neg hk]
        have h0 : x.get0 ≠ some L := by
          intro h0
          rw [h0] at C0
          have := (isL C0).2
          rw [← this] at hk2
          simp only [Blt] at hk2
          omega
        have hL2 : IsChild (x2 :: rest) L := by
          obtain ⟨y, hy, hyL⟩ := hL
          simp only [List.mem_cons] at hy
          rcases hy with rfl | hy
          · rcases hyL with h | h
            · exact absurd h h0
            · exact ⟨x2, by simp, Or.inl (hadj ▸ h)⟩
          · exact ⟨y, by simp only [List.mem_cons]; exact hy, hyL⟩
        have ih2 := ih (some x.get1) u hrest hL2
        obtain ⟨y, ys, hys, hhead⟩ := ins_spec_head ⟨some L, k, d, some R⟩ x2 rest
        rw [hys] at ih2 ⊢
        by_cases hp : pos k (x2 :: rest) = 0
        · rw [if_pos hp]
          rcases hhead with ⟨_, rfl⟩ | ⟨hne, _⟩
          · exact ⟨keep C0 h0, rfl, ih2⟩
          · exact absurd hp hne
        · rw [if_neg hp]
          rcases hhead with ⟨hz, _⟩ | ⟨_, hy0, hy1⟩
          · exact absurd hz hp
          · exact ⟨keep C0 h0, by rw [hadj, hy0], ih2⟩

theorem route_leaf (key : Int) : ∀ (V : List data_entry),
    (∀ e ∈ V, e.get0 = none ∧ e.get3 = none) → route key V none = none
  | [], _ => rfl
  | e :: es, h => by
    have he := h e (by simp)
    rw [route_cons, he.1, he.2]
    have := route_leaf key es (fun x hx => h x (by simp [hx]))
    split_ifs <;> simp [this]

theorem ins_spec_sorted (e : data_entry) : ∀ (V : List data_entry),
    V.Pairwise (fun a b => a.get1 < b.get1) → (∀ x ∈ V, x.get1 ≠ e.get1) →
      (ins_spec e V).Pairwise (fun a b => a.get1 < b.get1)
  | [], _, _ => by simp [ins_spec]
  | x :: xs, hs, hne => by
    rw [List.pairwise_cons] at hs
    have hx := hne x (by simp)
    rw [ins_spec_cons]
    by_cases hk : e.get1 ≤ x.get1
    · rw [if_pos hk]
      have hlt : e.get1 < x.get1 := by omega
      refine List.pairwise_cons.2 ⟨?_, List.pairwise_cons.2 ⟨hs.1, hs.2⟩⟩
      intro y hy
      simp only [List.mem_cons] at hy
      rcases hy with rfl | hy
      · exact hlt
      · have := hs.1 y hy; omega
    · rw [if_neg hk]
      have ih := ins_spec_sorted e xs hs.2 (fun y hy => hne y (by simp [hy]))
      refine List.pairwise_cons.2 ⟨?_, ih⟩
      intro y hy
      have hkey : (if pos e.get1 xs = 0 then { x with get3 := e.get0 } else x).get1 = x.get1 := by
        split_ifs <;> rfl
      rw [hkey]
      rcases mem_ins_spec e xs y hy with rfl | ⟨x1, hx1, h1, _⟩
      · omega
      · rw [h1]; exact hs.1 x1 hx1

theorem ins_spec_self (e : data_entry) : ∀ (V : List data_entry), e ∈ ins_spec e V
  | [] => by simp [ins_spec]
  | x :: xs => by
    rw [ins_spec_cons]
    split_ifs
    · simp
    · simp [ins_spec_self e xs]
    · simp [ins_spec_self e xs]

theorem ins_spec_keeps (e : data_entry) : ∀ (V : List data_entry) (x : data_entry), x ∈ V →
    ∃ y ∈ ins_spec e V, y.get1 = x.get1 ∧ y.get2 = x.get2
  | [], _, h => by simp at h
  | x0 :: xs, x, h => by
    rw [ins_spec_cons]
    simp only [List.mem_cons] at h
    by_cases hk : e.get1 ≤ x0.get1
    · rw [if_pos hk]
      rcases h with rfl | h
      · exact ⟨{ x with get0 := e.get3 }, by simp, rfl, rfl⟩
      · exact ⟨x, by simp [h], rfl, rfl⟩
    · rw [if_neg hk]
      rcases h with rfl | h
      · refine ⟨_, List.mem_cons_self _ _, ?_⟩
        split_ifs <;> exact ⟨rfl, rfl⟩
      · obtain ⟨y, hy, h1⟩ := ins_spec_keeps e xs x h
        exact ⟨y, List.mem_cons_of_mem _ hy, h1⟩

theorem LeafOK_ins {D D1 : Int → Option Nat → Prop} {l u : Option Int}
    {V : List data_entry} {e : data_entry} (hV : LeafOK D l u V)
    (h0 : e.get0 = none) (h3 : e.get3 = none) (hin : InB l u e.get1)
    (hD : D1 e.get1 e.get2) (hmono : ∀ k p, D k p → D1 k p)
    (hnew : ∀ p, ¬ D e.get1 p) : LeafOK D1 l u (ins_spec e V) := by
  have hne : ∀ x ∈ V, x.get1 ≠ e.get1 := by
    intro x hx hxe
    exact hnew x.get2 (hxe ▸ (hV.1 x hx).2.2.2)
  refine ⟨?_, ins_spec_sorted e V hV.2 hne⟩
  intro y hy
  rcases mem_ins_spec e V y hy with rfl | ⟨x, hx, h1, h2, h00, h33⟩
  · exact ⟨h0, h3, hin, hD⟩
  · obtain ⟨a0, a3, ain, aD⟩ := hV.1 x hx
    refine ⟨?_, ?_, by rw [h1]; exact ain, by rw [h1, h2]; exact hmono _ _ aD⟩
    · rcases h00 with h | h <;> rw [h]
      · exact a0
      · exact h3
    · rcases h33 with h | h <;> rw [h]
      · exact a3
      · exact h0

theorem LeafOK_mono {D D1 : Int → Option Nat → Prop} {l u : Option Int}
    {V : List data_entry} (hV : LeafOK D l u V) (hmono : ∀ k p, D k p → D1 k p) :
    LeafOK D1 l u V :=
  ⟨fun e he => ⟨(hV.1 e he).1, (hV.1 e he).2.1, (hV.1 e he).2.2.1,
    hmono _ _ (hV.1 e he).2.2.2⟩, hV.2⟩

theorem LeafOK_split_at {D : Int → Option Nat → Prop} {l u : Option Int}
    {A B : List data_entry} {mid : data_entry} (hV : LeafOK D l u (A ++ mid :: B))
    (hA : A ≠ []) :
    LeafOK D l (some mid.get1) A ∧ LeafOK D (some mid.get1) u (mid :: B) ∧
      Blt l (some mid.get1) ∧ Blt (some mid.get1) u := by
  obtain ⟨hall, hs⟩ := hV
  rw [List.pairwise_append] at hs
  obtain ⟨hsA, hsB, hAB⟩ := hs
  have hsB2 := List.pairwise_cons.1 hsB
  have hmid := hall mid (by simp)
  refine ⟨⟨?_, hsA⟩, ⟨?_, hsB⟩, ?_, ?_⟩
  · intro e he
    obtain ⟨a0, a3, ain, aD⟩ := hall e (by simp [he])
    refine ⟨a0, a3, ⟨ain.1, ?_⟩, aD⟩
    intro b hb; cases hb
    exact hAB e he mid (by simp)
  · intro e he
    obtain ⟨a0, a3, ain, aD⟩ := hall e (by simp only [List.mem_append]; exact Or.inr he)
    refine ⟨a0, a3, ⟨?_, ain.2⟩, aD⟩
    intro a ha; cases ha
    simp only [List.mem_cons] at he
    rcases he with rfl | he
    · exact le_refl _
    · exact le_of_lt (hsB2.1 e he)
  · obtain ⟨a, A1, rfl⟩ := List.exists_cons_of_ne_nil hA
    have h1 := (hall a (by simp)).2.2.1.1
    have h2 := hAB a (by simp) mid (by simp)
    cases l with
    | none => trivial
    | some x => have := h1 x rfl; simp only [Blt]; omega
  · cases u with
    | none => trivial
    | some x => have := hmid.2.2.1.2 x rfl; simpa [Blt] using this

theorem split_same (g : Ghost) (P R : Nat) (k : Int) (c : Nat) (h1 : c ≠ P) (h2 : c ≠ R) :
    g.same (g.split P R k) c := by
  simp [Ghost.same, Ghost.split, h1, h2]

theorem split_at_P (g : Ghost) (P R : Nat) (k : Int) (h : P ≠ R) :
    (g.split P R k).lvl P = g.lvl P ∧ (g.split P R k).lo P = g.lo P ∧
      (g.split P R k).hi P = some k := by
  simp [Ghost.split, h]

theorem split_at_R (g : Ghost) (P R : Nat) (k : Int) :
    (g.split P R k).lvl R = g.lvl P ∧ (g.split P R k).lo R = some k ∧
      (g.split P R k).hi R = g.hi P := by
  simp [Ghost.split]

theorem split_lvl (g : Ghost) (P R : Nat) (k : Int) (c : Nat) (h : c ≠ R) :
    (g.split P R k).lvl c = g.lvl c := by
  simp [Ghost.split, h]

theorem Apart_split {g : Ghost} {len P : Nat} {k : Int} (ha : Apart g len) (hP : P < len)
    (hk1 : Blt (g.lo P) (some k)) (hk2 : Blt (some k) (g.hi P)) :
    Apart (g.split P len k) (len + 1) := by
  have hPne : P ≠ len := by omega
  obtain ⟨p1, p2, p3⟩ := split_at_P g P len k hPne
  obtain ⟨r1, r2, r3⟩ := split_at_R g P len k
  -- every node of the new state lies inside a node of the old state
  have orig : ∀ i, i < len + 1 → ∀ z, InB ((g.split P len k).lo i) ((g.split P len k).hi i) z →
      ∃ o, o < len ∧ g.lvl o = (g.split P len k).lvl i ∧ InB (g.lo o) (g.hi o) z ∧
        (i ≠ len → o = i) ∧ (i = len → o = P ∧ k ≤ z) ∧ (i = P → z < k) := by
    intro i hi z hz
    by_cases h1 : i = len
    · subst h1
      rw [r2, r3] at hz
      exact ⟨P, hP, r1.symm, InB_widen_left hk1 hz, fun h => absurd rfl h,
        fun _ => ⟨rfl, hz.1 k rfl⟩, fun h => absurd h.symm hPne⟩
    · by_cases h2 : i = P
      · subst h2
        rw [p2, p3] at hz
        exact ⟨i, hP, p1.symm, InB_widen_right hk2 hz, fun _ => rfl,
          fun h => absurd h h1, fun _ => hz.2 k rfl⟩
      · obtain ⟨s1, s2, s3⟩ := split_same g P len k i h2 h1
        rw [s2, s3] at hz
        exact ⟨i, by omega, s1.symm, hz, fun _ => rfl, fun h => absurd h h1,
          fun h => absurd h h2⟩
  intro i j hi hj hl z hzi hzj
  obtain ⟨oi, hoi, hli, hini, a1, a2, a3⟩ := orig i hi z hzi
  obtain ⟨oj, hoj, hlj, hinj, b1, b2, b3⟩ := orig j hj z hzj
  have heq : oi = oj := ha oi oj hoi hoj (by rw [hli, hlj, hl]) z hini hinj
  by_cases h1 : i = len
  · by_cases h2 : j = len
    · rw [h1, h2]
    · have := b1 h2
      have hjP : j = P := by rw [← this, ← heq]; exact (a2 h1).1
      have := b3 hjP
      have := (a2 h1).2
      omega
  · by_cases h2 : j = len
    · have := a1 h1
      have hiP : i = P := by rw [← this, heq]; exact (b2 h2).1
      have := a3 hiP
      have := (b2 h2).2
      omega
    · rw [← a1 h1, ← b1 h2, heq]

theorem LeafOK_keys {D : Int → Option Nat → Prop} {l u : Option Int}
    {V : List data_entry} (h : LeafOK D l u V) : ∀ e ∈ V, InB l u e.get1 :=
  fun e he => (h.1 e he).2.2.1

theorem NodeInv_congr {cap : Nat} {g g1 : Ghost} {len len1 : Nat}
    {D D1 : Int → Option Nat → Prop} {i : Nat} {n : DataNode_t}
    (hn : NodeInv cap g len D i n) (hi : g.same g1 i)
    (hc : ∀ c, IsChild n.valid c → c < len → g.lvl c + 1 = g.lvl i → g.same g1 c)
    (hlen : len ≤ len1) (hmono : ∀ k p, D k p → D1 k p) :
    NodeInv cap g1 len1 D1 i n := by
  obtain ⟨a1, a2, a3, a4, a5, a6⟩ := hn
  obtain ⟨s1, s2, s3⟩ := hi
  refine ⟨a1, a2, a3, by rw [s2, s3]; exact a4, ?_, ?_⟩
  · intro h0
    rw [s1] at h0
    rw [s2, s3]
    exact ⟨(a5 h0).1, LeafOK_mono (a5 h0).2 hmono⟩
  · intro h hh
    rw [s1] at hh
    rw [s2, s3]
    refine ⟨(a6 h hh).1, Wf_congr hlen _ _ _ (a6 h hh).2 ?_⟩
    intro c hcc
    have := Wf_child _ _ _ (a6 h hh).2 c hcc
    exact hc c hcc this.1 (by rw [this.2.1, hh])

theorem Stored_frame {g g1 : Ghost} {m m1 : Mem} {D : Int → Option Nat → Prop}
    (hs : Stored g m D)
    (hf : ∀ i n, m.nodes[i]? = some n → g.lvl i = 0 →
      m1.nodes[i]? = some n ∧ g1.lvl i = 0) : Stored g1 m1 D := by
  intro k p hD
  obtain ⟨i, n, hi, hl, he⟩ := hs k p hD
  exact ⟨i, n, (hf i n hi hl).1, (hf i n hi hl).2, he⟩

theorem Linked_frame {g g1 : Ghost} {m m1 : Mem} :
    ∀ (L : List Nat), Linked g m L →
      (∀ a ∈ L, (∀ r, (∃ x, m.nodes[a]? = some x ∧ x.m_right = r) →
          ∃ x, m1.nodes[a]? = some x ∧ x.m_right = r) ∧
        g1.lo a = g.lo a ∧ g1.hi a = g.hi a) →
      Linked g1 m1 L
  | [], h, _ => by simp [Linked] at h
  | [a], h, hf => by
    obtain ⟨f1, _, f3⟩ := hf a (by simp)
    simp only [Linked] at h ⊢
    rw [f3]; exact ⟨f1 _ h.1, h.2⟩
  | a :: b :: rest, h, hf => by
    obtain ⟨f1, _, f3⟩ := hf a (by simp)
    obtain ⟨_, e2, _⟩ := hf b (by simp)
    simp only [Linked] at h ⊢
    rw [f3, e2]
    exact ⟨f1 _ h.1, h.2.1, Linked_frame (b :: rest) h.2.2 (fun c hc => hf c (by simp [hc]))⟩

theorem LeafChain_frame {g g1 : Ghost} {m m1 : Mem} {L : List Nat}
    (hc : LeafChain g m L) (hlen : m.nodes.length ≤ m1.nodes.length)
    (hold : ∀ a, a < m.nodes.length → g1.lvl a = g.lvl a)
    (hleaf : ∀ a, a < m.nodes.length → g.lvl a = 0 →
      m1.nodes[a]? = m.nodes[a]? ∧ g1.lo a = g.lo a ∧ g1.hi a = g.hi a)
    (hnew : ∀ a, m.nodes.length ≤ a → a < m1.nodes.length → g1.lvl a ≠ 0) :
    LeafChain g1 m1 L := by
  obtain ⟨h1, h2, h3, h4⟩ := hc
  refine ⟨Linked_frame L h1 ?_, h2, ?_, ?_⟩
  · intro a ha
    obtain ⟨alt, al⟩ := (h3 a).1 ha
    obtain ⟨e1, e2, e3⟩ := hleaf a alt al
    exact ⟨fun r hr => by rw [e1]; exact hr, e2, e3⟩
  · intro i
    rw [h3 i]
    constructor
    · rintro ⟨a, b⟩
      exact ⟨by omega, by rw [hold i a]; exact b⟩
    · rintro ⟨a, b⟩
      by_cases hi : i < m.nodes.length
      · exact ⟨hi, by rw [← hold i hi]; exact b⟩
      · exact absurd b (hnew i (by omega) a)
  · intro a ha
    have hmem : a ∈ L := by
      cases L with
      | nil => simp at ha
      | cons x xs => simp at ha; simp [ha]
    obtain ⟨alt, al⟩ := (h3 a).1 hmem
    rw [(hleaf a alt al).2.1]
    exact h4 a ha

theorem getElem?_set_ne' {α : Type} (l : List α) (i j : Nat) (a : α) (h : i ≠ j) :
    (l.set i a)[j]? = l[j]? := by
  rw [List.getElem?_set]; simp [h]

theorem getElem?_set_eq' {α : Type} (l : List α) (i : Nat) (a : α) (h : i < l.length) :
    (l.set i a)[i]? = some a := by
  rw [List.getElem?_set]; simp [h]

theorem NodeInv_leaf_inserted {cap : Nat} {g : Ghost} {len : Nat}
    {D : Int → Option Nat → Prop} {i : Nat} {n : DataNode_t} {key : Int}
    {data : Option Nat} (hn : NodeInv cap g len D i n) (hl : g.lvl i = 0)
    (hnum : n.m_num_entries < cap) (hin : InB (g.lo i) (g.hi i) key)
    (hnew : ∀ p, ¬ D key p) :
    NodeInv cap g len (Added D key data) i (n.inserted ⟨none, key, data, none⟩) := by
  obtain ⟨a1, a2, a3, a4, a5, a6⟩ := hn
  have hb : n.m_num_entries ≤ n.m_entries.length := by omega
  refine ⟨a1, ?_, ?_, a4, ?_, ?_⟩
  · simp only [DataNode_t.inserted]; omega
  · rw [inserted_length n _ hb]; omega
  · intro _
    refine ⟨(a5 hl).1, ?_⟩
    rw [inserted_valid n _ hb]
    exact LeafOK_ins (a5 hl).2 rfl rfl hin (Or.inr ⟨rfl, rfl⟩) (fun k p h => Or.inl h) hnew
  · intro h hh
    rw [hl] at hh; cases hh

theorem SInv.leaf_insert {cap : Nat} {g : Ghost} {D : Int → Option Nat → Prop} {m : Mem}
    {Lc : List Nat} {i : Nat} {n : DataNode_t} (hS : SInv cap g D m Lc)
    (hi : m.nodes[i]? = some n) (hl : g.lvl i = 0) (hf : n.is_full = false)
    (key : Int) (data : Option Nat) (hin : InB (g.lo i) (g.hi i) key)
    (hnew : ∀ p, ¬ D key p) :
    ∃ m1, m.call_insert i ⟨none, key, data, none⟩ = .ok m1 ∧
      SInv cap g (Added D key data) m1 Lc ∧ m1.nodes.length = m.nodes.length ∧
      (∀ j, j ≠ i → m1.nodes[j]? = m.nodes[j]?) := by
  have hn := hS.nodes i n hi
  have hilt := getElem?_lt hi
  have hnum : n.m_num_entries < cap := by
    have := is_full_false hf; rw [hn.1] at this; exact this
  have hb : n.m_num_entries ≤ n.m_entries.length := by
    have := hn.2.2.1; omega
  have hframe : ∀ j, j ≠ i →
      (m.nodes.set i (n.inserted ⟨none, key, data, none⟩))[j]? = m.nodes[j]? :=
    fun j hj => getElem?_set_ne' _ _ _ _ (Ne.symm hj)
  refine ⟨_, call_insert_eq m i n _ hi hb, ?_, by simp, hframe⟩
  constructor
  · intro j nj hj
    simp only [List.length_set] at hj ⊢
    by_cases hji : j = i
    · subst hji
      rw [getElem?_set_eq' _ _ _ hilt] at hj
      cases hj
      exact NodeInv_leaf_inserted hn hl hnum hin hnew
    · rw [hframe j hji] at hj
      exact NodeInv_congr (hS.nodes j nj hj) ⟨rfl, rfl, rfl⟩ (fun _ _ _ _ => ⟨rfl, rfl, rfl⟩)
        (le_refl _) (fun k p h => Or.inl h)
  · simpa using hS.apart
  · intro k p hD
    rcases hD with hD | ⟨rfl, rfl⟩
    · obtain ⟨j, nj, hj, hjl, e, he, hek⟩ := hS.stored k p hD
      by_cases hji : j = i
      · subst hji
        rw [hi] at hj; cases hj
        refine ⟨j, _, getElem?_set_eq' _ _ _ hilt, hjl, ?_⟩
        rw [inserted_valid n _ hb]
        obtain ⟨y, hy, h1, h2⟩ := ins_spec_keeps ⟨none, key, data, none⟩ n.valid e he
        exact ⟨y, hy, by rw [h1]; exact hek.1, by rw [h2]; exact hek.2⟩
      · exact ⟨j, nj, by simp only; rw [hframe j hji]; exact hj, hjl, e, he, hek⟩
    · refine ⟨i, _, getElem?_set_eq' _ _ _ hilt, hl, ?_⟩
      rw [inserted_valid n _ hb]
      exact ⟨_, ins_spec_self _ _, rfl, rfl⟩
  · obtain ⟨c1, c2, c3, c4⟩ := hS.chain
    refine ⟨?_, c2, by simpa using c3, c4⟩
    refine Linked_frame Lc c1 ?_
    intro a _
    refine ⟨?_, rfl, rfl⟩
    rintro r ⟨x, hx, hxr⟩
    by_cases hai : a = i
    · subst hai
      rw [hi] at hx; cases hx
      exact ⟨_, getElem?_set_eq' _ _ _ hilt, hxr⟩
    · exact ⟨x, by simp only; rw [hframe a hai]; exact hx, hxr⟩

theorem ins_after_head (P R : Nat) (b : Nat) (rest : List Nat) :
    ∃ tail, ins_after P R (b :: rest) = b :: tail := by
  simp only [ins_after]
  split_ifs
  · exact ⟨_, rfl⟩
  · exact ⟨_, rfl⟩

theorem mem_ins_after (P R : Nat) : ∀ (L : List Nat) (i : Nat),
    i ∈ ins_after P R L ↔ i ∈ L ∨ (i = R ∧ P ∈ L)
  | [], i => by simp [ins_after]
  | a :: rest, i => by
    simp only [ins_after]
    by_cases h : a = P
    · subst h
      simp only [if_true, List.mem_cons]
      constructor
      · rintro (h | h | h)
        · exact Or.inl (Or.inl h)
        · exact Or.inr ⟨h, by simp⟩
        · exact Or.inl (Or.inr h)
      · rintro ((h | h) | ⟨h, _⟩)
        · exact Or.inl h
        · exact Or.inr (Or.inr h)
        · exact Or.inr (Or.inl h)
    · simp only [h, if_false, List.mem_cons, mem_ins_after P R rest i]
      constructor
      · rintro (h1 | h1 | ⟨h1, h2⟩)
        · exact Or.inl (Or.inl h1)
        · exact Or.inl (Or.inr h1)
        · exact Or.inr ⟨h1, Or.inr h2⟩
      · rintro ((h1 | h1) | ⟨h1, h2 | h2⟩)
        · exact Or.inl h1
        · exact Or.inr (Or.inl h1)
        · exact absurd h2.symm h
        · exact Or.inr (Or.inr ⟨h1, h2⟩)

theorem nodup_ins_after (P R : Nat) : ∀ (L : List Nat), L.Nodup → R ∉ L →
    (ins_after P R L).Nodup
  | [], _, _ => by simp [ins_after]
  | a :: rest, hn, hR => by
    rw [List.nodup_cons] at hn
    simp only [List.mem_cons, not_or] at hR
    simp only [ins_after]
    by_cases h : a = P
    · subst h
      simp only [if_true, List.nodup_cons, List.mem_cons, not_or]
      exact ⟨⟨fun h => hR.1 h.symm, hn.1⟩, hR.2, hn.2⟩
    · simp only [h, if_false, List.nodup_cons, mem_ins_after]
      refine ⟨?_, nodup_ins_after P R rest hn.2 hR.2⟩
      rintro (h1 | ⟨h1, _⟩)
      · exact hn.1 h1
      · exact hR.1 h1.symm

theorem Linked_ins_after {g g1 : Ghost} {m m1 : Mem} {P R : Nat}
    (hoth : ∀ a, a ≠ P → a ≠ R →
      (∀ r, (∃ x, m.nodes[a]? = some x ∧ x.m_right = r) →
        ∃ x, m1.nodes[a]? = some x ∧ x.m_right = r) ∧
      g1.lo a = g.lo a ∧ g1.hi a = g.hi a)
    (hP : ∃ x, m1.nodes[P]? = some x ∧ x.m_right = some R)
    (hR : ∀ r, (∃ x, m.nodes[P]? = some x ∧ x.m_right = r) →
      ∃ x, m1.nodes[R]? = some x ∧ x.m_right = r)
    (hg1 : g1.lo P = g.lo P) (hg2 : ∃ v, g1.hi P = some v ∧ g1.lo R = some v)
    (hg3 : g1.hi R = g.hi P) :
    ∀ (L : List Nat), Linked g m L → L.Nodup → R ∉ L → Linked g1 m1 (ins_after P R L) := by
  intro L
  induction L with
  | nil => intro h; simp [Linked] at h
  | cons a rest ih =>
    intro h hn hRn
    rw [List.nodup_cons] at hn
    simp only [List.mem_cons, not_or] at hRn
    cases rest with
    | nil =>
      simp only [Linked] at h
      simp only [ins_after]
      by_cases ha : a = P
      · subst ha
        simp only [if_true, Linked]
        exact ⟨hP, hg2, hR _ h.1, by rw [hg3]; exact h.2⟩
      · simp only [ha, if_false, Linked]
        obtain ⟨f1, _, f3⟩ := hoth a ha (fun h => hRn.1 h.symm)
        exact ⟨f1 _ h.1, by rw [f3]; exact h.2⟩
    | cons b rest =>
      simp only [Linked] at h
      simp only [List.mem_cons, not_or] at hRn
      by_cases ha : a = P
      · subst ha
        have hbP : b ≠ a := fun hb => hn.1 (by simp [hb])
        have hrest : Linked g1 m1 (b :: rest) := by
          refine Linked_frame (b :: rest) h.2.2 ?_
          intro c hc
          refine hoth c (fun hcp => hn.1 (hcp ▸ hc)) ?_
          intro hcr
          simp only [List.mem_cons] at hc
          rcases hc with hc | hc
          · exact hRn.2.1 (by rw [← hcr, hc])
          · exact hRn.2.2 (hcr ▸ hc)
        have hb := hoth b hbP (fun h => hRn.2.1 h.symm)
        simp only [ins_after, if_true, Linked]
        exact ⟨hP, hg2, hR _ h.1, by rw [hg3, hb.2.1]; exact h.2.1, hrest⟩
      · have ih2 := ih h.2.2 hn.2 (by simp only [List.mem_cons, not_or]; exact hRn.2)
        obtain ⟨tail, htail⟩ := ins_after_head P R b rest
        have hstep : ins_after P R (a :: b :: rest) = a :: ins_after P R (b :: rest) := by
          simp only [ins_after, ha, if_false]
        rw [hstep, htail]
        rw [htail] at ih2
        obtain ⟨f1, _, f3⟩ := hoth a ha (fun h => hRn.1 h.symm)
        have hlob : g1.lo b = g.lo b := by
          by_cases hb : b = P
          · rw [hb]; exact hg1
          · exact (hoth b hb (fun h => hRn.2.1 h.symm)).2.1
        simp only [Linked]
        exact ⟨f1 _ h.1, by rw [f3, hlob]; exact h.2.1, ih2⟩

theorem LeafChain_split {g : Ghost} {m m1 : Mem} {L : List Nat} {P : Nat} {k : Int}
    (hc : LeafChain g m L) (hP : P < m.nodes.length) (hPl : g.lvl P = 0)
    (hlen : m1.nodes.length = m.nodes.length + 1)
    (hoth : ∀ a, a < m.nodes.length → a ≠ P → m1.nodes[a]? = m.nodes[a]?)
    (hPr : ∃ x, m1.nodes[P]? = some x ∧ x.m_right = some m.nodes.length)
    (hRr : ∀ r, (∃ x, m.nodes[P]? = some x ∧ x.m_right = r) →
      ∃ x, m1.nodes[m.nodes.length]? = some x ∧ x.m_right = r) :
    LeafChain (g.split P m.nodes.length k) m1 (ins_after P m.nodes.length L) := by
  obtain ⟨h1, h2, h3, h4⟩ := hc
  have hPne : P ≠ m.nodes.length := by omega
  obtain ⟨p1, p2, p3⟩ := split_at_P g P m.nodes.length k hPne
  obtain ⟨r1, r2, r3⟩ := split_at_R g P m.nodes.length k
  have hRn : m.nodes.length ∉ L := fun h => by
    have := ((h3 _).1 h).1; omega
  have hPL : P ∈ L := (h3 P).2 ⟨hP, hPl⟩
  refine ⟨?_, nodup_ins_after _ _ L h2 hRn, ?_, ?_⟩
  · refine Linked_ins_after ?_ hPr hRr p2 ⟨k, p3, r2⟩ r3 L h1 h2 hRn
    intro a ha1 ha2
    obtain ⟨_, s2, s3⟩ := split_same g P m.nodes.length k a ha1 ha2
    refine ⟨?_, s2, s3⟩
    rintro r ⟨x, hx, hxr⟩
    have := getElem?_lt hx
    exact ⟨x, by rw [hoth a this ha1]; exact hx, hxr⟩
  · intro i
    rw [mem_ins_after, h3 i, hlen]
    constructor
    · rintro (⟨a, b⟩ | ⟨a, _⟩)
      · exact ⟨by omega, by rw [split_lvl g P _ k i (by omega)]; exact b⟩
      · subst a
        exact ⟨by omega, by rw [r1]; exact hPl⟩
    · rintro ⟨a, b⟩
      by_cases hi : i = m.nodes.length
      · exact Or.inr ⟨hi, hPL⟩
      · rw [split_lvl g P _ k i hi] at b
        exact Or.inl ⟨by omega, b⟩
  · intro a ha
    cases L with
    | nil => simp at hPL
    | cons x xs =>
      obtain ⟨tail, htail⟩ := ins_after_head P m.nodes.length x xs
      rw [htail] at ha
      simp only [List.head?_cons, Option.some.injEq] at ha
      subst ha
      have hx := h4 x rfl
      have hxlt := ((h3 x).1 (by simp)).1
      by_cases hxP : x = P
      · rw [hxP, p2, ← hxP]; exact hx
      · rw [(split_same g P _ k x hxP (by omega)).2.1]; exact hx

theorem full_decompose {n : DataNode_t} {cap : Nat} {mid : data_entry}
    (hnum : n.m_num_entries = cap) (hlen : cap ≤ n.m_entries.length) (hcap : 2 ≤ cap)
    (hmid : n.m_entries[cap / 2]? = some mid) :
    n.valid = n.m_entries.take (cap / 2)
        ++ mid :: (n.m_entries.drop (cap / 2 + 1)).take (cap - (cap / 2 + 1)) ∧
      (n.m_entries.drop (cap / 2)).take (cap - cap / 2)
        = mid :: (n.m_entries.drop (cap / 2 + 1)).take (cap - (cap / 2 + 1)) ∧
      (n.m_entries.take (cap / 2)).length = cap / 2 ∧
      ((n.m_entries.drop (cap / 2 + 1)).take (cap - (cap / 2 + 1))).length
        = cap - (cap / 2 + 1) := by
  have hh : cap / 2 < cap := Nat.div_lt_self (by omega) (by omega)
  have hlt : cap / 2 < n.m_entries.length := by omega
  have hm : n.m_entries[cap / 2] = mid := by
    rw [List.getElem?_eq_getElem hlt] at hmid
    exact Option.some.inj hmid
  have h2 : (n.m_entries.drop (cap / 2)).take (cap - cap / 2)
      = mid :: (n.m_entries.drop (cap / 2 + 1)).take (cap - (cap / 2 + 1)) := by
    rw [List.drop_eq_getElem_cons hlt, hm]
    have : cap - cap / 2 = (cap - (cap / 2 + 1)) + 1 := by omega
    rw [this, List.take_succ_cons]
  refine ⟨?_, h2, ?_, ?_⟩
  · rw [← h2]
    simp only [DataNode_t.valid, hnum]
    have : cap = cap / 2 + (cap - cap / 2) := by omega
    conv_lhs => rw [this]
    rw [List.take_add]
  · simp only [List.length_take]; omega
  · simp only [List.length_take, List.length_drop]; omega

theorem SInv.leaf_insert_post {cap : Nat} {g : Ghost} {D : Int → Option Nat → Prop}
    {m : Mem} {Lc : List Nat} {i : Nat} {n : DataNode_t} (hS : SInv cap g D m Lc)
    (hi : m.nodes[i]? = some n) (hl : g.lvl i = 0) (hf : n.is_full = false)
    (key : Int) (data : Option Nat) (hin : InB (g.lo i) (g.hi i) key)
    (hnew : ∀ p, ¬ D key p) :
    ∃ m1, m.call_insert i ⟨none, key, data, none⟩ = .ok m1 ∧
      Post cap g (Added D key data) m i data false m1 ⟨none, key, data, none⟩ g Lc := by
  obtain ⟨m1, h1, hS1, hlen, hfr⟩ := hS.leaf_insert hi hl hf key data hin hnew
  refine ⟨m1, h1, ?_⟩
  exact
    { len_le := by omega
      lvl_old := fun _ _ => rfl
      frame := fun j _ _ hj => ⟨hfr j hj, rfl, rfl⟩
      lvl_new := fun j h1 h2 => by omega
      nodes := fun j nj hj _ => hS1.nodes j nj hj
      apart := hS1.apart
      stored := hS1.stored
      chain := hS1.chain
      keep := fun _ => ⟨rfl, rfl⟩
      up := fun h => by cases h }

theorem split_from_leaf (cap : Nat) : split_from cap true = cap / 2 := by
  simp [split_from]

theorem split_from_internal (cap : Nat) : split_from cap false = cap / 2 + 1 := by
  simp [split_from]

theorem NodeInv_leaf_mk {cap : Nat} {g : Ghost} {len : Nat} {D : Int → Option Nat → Prop}
    {i : Nat} {n : DataNode_t} (h1 : n.m_max_entries = cap) (h2 : n.m_num_entries ≤ cap)
    (h3 : cap ≤ n.m_entries.length) (h4 : Blt (g.lo i) (g.hi i)) (h5 : g.lvl i = 0)
    (h6 : n.m_is_leaf = true) (h7 : LeafOK D (g.lo i) (g.hi i) n.valid) :
    NodeInv cap g len D i n :=
  ⟨h1, h2, h3, h4, fun _ => ⟨h6, h7⟩, fun h hh => by rw [h5] at hh; cases hh⟩

theorem NodeInv_mono {cap : Nat} {g : Ghost} {len : Nat} {D D1 : Int → Option Nat → Prop}
    {i : Nat} {n : DataNode_t} (hn : NodeInv cap g len D i n)
    (hmono : ∀ k p, D k p → D1 k p) : NodeInv cap g len D1 i n :=
  NodeInv_congr hn ⟨rfl, rfl, rfl⟩ (fun _ _ _ _ => ⟨rfl, rfl, rfl⟩) (le_refl _) hmono

theorem getElem?_set_append_new {α : Type} (l : List α) (i : Nat) (a b : α) :
    (l.set i a ++ [b])[l.length]? = some b := by
  rw [List.getElem?_append_right (by simp)]
  simp

theorem getElem?_set_append_old {α : Type} (l : List α) (i j : Nat) (a b : α)
    (hj : j < l.length) (hij : j ≠ i) : (l.set i a ++ [b])[j]? = l[j]? := by
  rw [List.getElem?_append_left (by simpa using hj)]
  exact getElem?_set_ne' _ _ _ _ (Ne.symm hij)

theorem getElem?_set_append_at {α : Type} (l : List α) (i : Nat) (a b : α)
    (hi : i < l.length) : (l.set i a ++ [b])[i]? = some a := by
  rw [List.getElem?_append_left (by simpa using hi)]
  exact getElem?_set_eq' _ _ _ hi

theorem getElem?_set_append_cases {α : Type} (l : List α) (i j : Nat) (a b x : α)
    (hi : i < l.length) (h : (l.set i a ++ [b])[j]? = some x) :
    (j = i ∧ x = a) ∨ (j = l.length ∧ x = b) ∨ (j < l.length ∧ j ≠ i ∧ l[j]? = some x) := by
  have hj := getElem?_lt h
  simp only [List.length_append, List.length_set, List.length_singleton] at hj
  by_cases h1 : j = i
  · subst h1
    rw [getElem?_set_append_at l j a b hi] at h
    exact Or.inl ⟨rfl, (Option.some.inj h).symm⟩
  · by_cases h2 : j = l.length
    · subst h2
      rw [getElem?_set_append_new] at h
      exact Or.inr (Or.inl ⟨rfl, (Option.some.inj h).symm⟩)
    · have hjl : j < l.length := by omega
      rw [getElem?_set_append_old l i j a b hjl h1] at h
      exact Or.inr (Or.inr ⟨hjl, h1, h⟩)

theorem SInv.leaf_split_post {cap : Nat} {g : Ghost} {D : Int → Option Nat → Prop}
    {m : Mem} {Lc : List Nat} {i : Nat} {n : DataNode_t} (hS : SInv cap g D m Lc)
    (hi : m.nodes[i]? = some n) (hl : g.lvl i = 0) (hf : n.is_full = true)
    (key : Int) (data : Option Nat) (hin : InB (g.lo i) (g.hi i) key)
    (hnew : ∀ p, ¬ D key p) (hcap : 2 ≤ cap) :
    ∃ m1 e1 g1 L1, split cap m i true ⟨none, key, data, none⟩ = .ok (m1, e1) ∧
      Post cap g (Added D key data) m i data true m1 e1 g1 L1 := by
  have hn := hS.nodes i n hi
  have hilt := getElem?_lt hi
  have hnum : n.m_num_entries = cap := by
    have := is_full_true hf; rw [hn.1] at this; have := hn.2.1; omega
  have hh : cap / 2 < cap := Nat.div_lt_self (by omega) (by omega)
  have hh1 : 1 ≤ cap / 2 := by omega
  obtain ⟨mid, hmid, hs⟩ := split_eq cap m i true ⟨none, key, data, none⟩ n hi (by omega)
    hn.2.2.1
  obtain ⟨hV, hRV, hAl, hBl⟩ := full_decompose hnum hn.2.2.1 hcap hmid
  obtain ⟨hlf, hleaf⟩ := hn.2.2.2.2.1 hl
  rw [hV] at hleaf
  have hA : n.m_entries.take (cap / 2) ≠ [] := by
    intro h; rw [h] at hAl; simp at hAl; omega
  obtain ⟨LA, LB, b1, b2⟩ := LeafOK_split_at hleaf hA
  have hmk : mid.get1 ≠ key := by
    intro h
    exact hnew mid.get2 (h ▸ (hleaf.1 mid (by simp)).2.2.2)
  set len := m.nodes.length with hlen
  set g1 := g.split i len mid.get1 with hg1
  have hine : i ≠ len := by omega
  obtain ⟨p1, p2, p3⟩ := split_at_P g i len mid.get1 hine
  obtain ⟨r1, r2, r3⟩ := split_at_R g i len mid.get1
  have hXv : (split_left cap len n).valid = n.m_entries.take (cap / 2) := split_left_valid _ _ _
  have hYv : (split_right cap true n).valid
      = mid :: (n.m_entries.drop (cap / 2 + 1)).take (cap - (cap / 2 + 1)) := by
    rw [split_right_valid, split_from_leaf, hRV]
  have hX0 : NodeInv cap g1 (len + 1) D i (split_left cap len n) := by
    refine NodeInv_leaf_mk hn.1 ?_ ?_ (by rw [p2, p3]; exact b1) (by rw [p1]; exact hl) hlf ?_
    · simp only [split_left, List.length_take]; omega
    · simp only [split_left, vec_resize_length]; omega
    · rw [hXv, p2, p3]; exact LA
  have hY0 : NodeInv cap g1 (len + 1) D len (split_right cap true n) := by
    refine NodeInv_leaf_mk rfl ?_ ?_ (by rw [r2, r3]; exact b2) (by rw [r1]; exact hl) rfl ?_
    · simp only [split_right, List.length_take]; omega
    · simp only [split_right, vec_resize_length]; omega
    · rw [hYv, r2, r3]; exact LB
  have hXn : (split_left cap len n).m_num_entries < cap := by
    simp only [split_left, List.length_take]; omega
  have hYn : (split_right cap true n).m_num_entries < cap := by
    simp only [split_right, split_from_leaf, List.length_take, List.length_drop]; omega
  have hXb : (split_left cap len n).m_num_entries ≤ (split_left cap len n).m_entries.length := by
    have := hX0.2.2.1; omega
  have hYb : (split_right cap true n).m_num_entries
      ≤ (split_right cap true n).m_entries.length := by
    have := hY0.2.2.1; omega
  have hmono : ∀ k p, D k p → Added D key data k p := fun k p h => Or.inl h
  -- the two nodes after the pending entry has been placed
  obtain ⟨X, Y, fi, hres, hX, hY, hXr, hYr, hkeep, hnewV⟩ : ∃ X Y fi,
      split cap m i true ⟨none, key, data, none⟩
        = .ok ({ nodes := m.nodes.set i X ++ [Y], full_inserts := fi },
            ⟨some i, mid.get1, data, some len⟩) ∧
      NodeInv cap g1 (len + 1) (Added D key data) i X ∧
      NodeInv cap g1 (len + 1) (Added D key data) len Y ∧
      X.m_right = some len ∧ Y.m_right = n.m_right ∧
      (∀ x ∈ n.valid, ∃ y, (y ∈ X.valid ∨ y ∈ Y.valid) ∧ y.get1 = x.get1 ∧ y.get2 = x.get2) ∧
      (∃ y, (y ∈ X.valid ∨ y ∈ Y.valid) ∧ y.get1 = key ∧ y.get2 = data) := by
    by_cases hk : mid.get1 < key
    · refine ⟨split_left cap len n, (split_right cap true n).inserted ⟨none, key, data, none⟩,
        (if (split_right cap true n).is_full then m.full_inserts + 1 else m.full_inserts),
        ?_, NodeInv_mono hX0 hmono, ?_, rfl, rfl, ?_, ?_⟩
      · rw [hs]; simp only [hk, if_true]
      · refine NodeInv_leaf_inserted hY0 (by rw [r1]; exact hl) hYn ?_ hnew
        rw [r2, r3]
        exact ⟨fun a ha => by cases ha; omega, hin.2⟩
      · intro x hx
        rw [hV, List.mem_append] at hx
        rcases hx with hx | hx
        · exact ⟨x, Or.inl (by rw [hXv]; exact hx), rfl, rfl⟩
        · rw [← hYv] at hx
          obtain ⟨y, hy, hy1⟩ := ins_spec_keeps ⟨none, key, data, none⟩ _ x hx
          exact ⟨y, Or.inr (by rw [inserted_valid _ _ hYb]; exact hy), hy1⟩
      · exact ⟨_, Or.inr (by rw [inserted_valid _ _ hYb]; exact ins_spec_self _ _), rfl, rfl⟩
    · refine ⟨(split_left cap len n).inserted ⟨none, key, data, none⟩, split_right cap true n,
        (if (split_left cap len n).is_full then m.full_inserts + 1 else m.full_inserts),
        ?_, ?_, NodeInv_mono hY0 hmono, rfl, rfl, ?_, ?_⟩
      · rw [hs]; simp only [hk, if_false]
      · refine NodeInv_leaf_inserted hX0 (by rw [p1]; exact hl) hXn ?_ hnew
        rw [p2, p3]
        exact ⟨hin.1, fun b hb => by cases hb; omega⟩
      · intro x hx
        rw [hV, List.mem_append] at hx
        rcases hx with hx | hx
        · rw [← hXv] at hx
          obtain ⟨y, hy, hy1⟩ := ins_spec_keeps ⟨none, key, data, none⟩ _ x hx
          exact ⟨y, Or.inl (by rw [inserted_valid _ _ hXb]; exact hy), hy1⟩
        · exact ⟨x, Or.inr (by rw [hYv]; exact hx), rfl, rfl⟩
      · exact ⟨_, Or.inl (by rw [inserted_valid _ _ hXb]; exact ins_spec_self _ _), rfl, rfl⟩
  refine ⟨_, _, g1, ins_after i len Lc, hres, ?_⟩
  have hlen1 : (m.nodes.set i X ++ [Y]).length = len + 1 := by simp [hlen]
  have hold : ∀ j, j < len → j ≠ i → (m.nodes.set i X ++ [Y])[j]? = m.nodes[j]? :=
    fun j hj hji => getElem?_set_append_old _ _ _ _ _ hj hji
  exact
    { len_le := by simp only [hlen1]; omega
      lvl_old := fun j hj => split_lvl g i len _ j (by omega)
      frame := fun j hj _ hji =>
        ⟨hold j hj hji, (split_same g i len _ j hji (by omega)).2.1,
          (split_same g i len _ j hji (by omega)).2.2⟩
      lvl_new := fun j h1 h2 => by
        simp only [hlen1] at h2
        have : j = len := by omega
        rw [this, r1]
      nodes := fun j nj hj hjl => by
        simp only [hlen1]
        rcases getElem?_set_append_cases _ _ _ _ _ _ hilt hj with
          ⟨rfl, rfl⟩ | ⟨rfl, rfl⟩ | ⟨hjlt, hji, hjo⟩
        · exact hX
        · exact hY
        · have hsame := split_same g i len mid.get1 j hji (by omega)
          have hj0 : g.lvl j = 0 := by
            have h1 : g1.lvl j = g.lvl j := hsame.1
            rw [h1, hl] at hjl; omega
          refine NodeInv_congr (hS.nodes j nj hjo) hsame ?_ (by omega) hmono
          intro c _ _ hc
          rw [hj0] at hc; omega
      apart := by
        simp only [hlen1]
        exact Apart_split hS.apart hilt b1 b2
      stored := by
        intro k p hD
        rcases hD with hD | ⟨rfl, rfl⟩
        · obtain ⟨j, nj, hj, hjl, e, he, hek⟩ := hS.stored k p hD
          by_cases hji : j = i
          · subst hji
            rw [hi] at hj; cases hj
            obtain ⟨y, hy, hy1, hy2⟩ := hkeep e he
            rcases hy with hy | hy
            · exact ⟨j, X, getElem?_set_append_at _ _ _ _ hilt, by rw [p1]; exact hl, y, hy,
                by rw [hy1]; exact hek.1, by rw [hy2]; exact hek.2⟩
            · exact ⟨len, Y, getElem?_set_append_new _ _ _ _, by rw [r1]; exact hl, y, hy,
                by rw [hy1]; exact hek.1, by rw [hy2]; exact hek.2⟩
          · have hjlt := getElem?_lt hj
            exact ⟨j, nj, by simp only; rw [hold j hjlt hji]; exact hj,
              by rw [split_lvl g i len _ j (by omega)]; exact hjl, e, he, hek⟩
        · obtain ⟨y, hy, hy1, hy2⟩ := hnewV
          rcases hy with hy | hy
          · exact ⟨i, X, getElem?_set_append_at _ _ _ _ hilt, by rw [p1]; exact hl, y, hy,
              hy1, hy2⟩
          · exact ⟨len, Y, getElem?_set_append_new _ _ _ _, by rw [r1]; exact hl, y, hy,
              hy1, hy2⟩
      chain := by
        refine LeafChain_split hS.chain hilt hl hlen1 (fun a ha hai => hold a ha hai)
          ⟨X, getElem?_set_append_at _ _ _ _ hilt, hXr⟩ ?_
        rintro r ⟨x, hx, hxr⟩
        rw [hi] at hx; cases hx
        exact ⟨Y, getElem?_set_append_new _ _ _ _, by rw [hYr]; exact hxr⟩
      keep := fun h => by cases h
      up := fun _ => ⟨mid.get1, len, rfl, le_refl _, by simp only [hlen1]; omega, r1, p2, p3,
        r2, r3, b1, b2⟩ }

theorem Ctx.wf {cap : Nat} {g : Ghost} {D D1 : Int → Option Nat → Prop} {m : Mem}
    {Lc : List Nat} {P L h : Nat} {n : DataNode_t} (c : Ctx cap g D D1 m Lc P L h n) :
    Wf g m.nodes.length h (g.lo P) n.valid (g.hi P) :=
  ((c.inv.nodes P n c.node).2.2.2.2.2 h c.lvlP).2

theorem Ctx.childL {cap : Nat} {g : Ghost} {D D1 : Int → Option Nat → Prop} {m : Mem}
    {Lc : List Nat} {P L h : Nat} {n : DataNode_t} (c : Ctx cap g D D1 m Lc P L h n) :
    L < m.nodes.length ∧ g.lvl L = h ∧ Blt (g.lo L) (g.hi L) ∧
      ∀ z, InB (g.lo L) (g.hi L) z → InB (g.lo P) (g.hi P) z :=
  Wf_child _ _ _ c.wf L c.child

theorem Ctx.P_ne_L {cap : Nat} {g : Ghost} {D D1 : Int → Option Nat → Prop} {m : Mem}
    {Lc : List Nat} {P L h : Nat} {n : DataNode_t} (c : Ctx cap g D D1 m Lc P L h n) :
    P ≠ L := by
  intro hPL
  have := c.childL.2.1
  rw [← hPL, c.lvlP] at this
  omega

/-- Only `P` names `L` as a child. -/
theorem Ctx.single_parent {cap : Nat} {g : Ghost} {D D1 : Int → Option Nat → Prop}
    {m : Mem} {Lc : List Nat} {P L h : Nat} {n : DataNode_t}
    (c : Ctx cap g D D1 m Lc P L h n) {i : Nat} {ni : DataNode_t}
    (hi : m.nodes[i]? = some ni) (hil : g.lvl i = h + 1) (hc : IsChild ni.valid L) :
    i = P := by
  have hw : Wf g m.nodes.length h (g.lo i) ni.valid (g.hi i) :=
    ((c.inv.nodes i ni hi).2.2.2.2.2 h hil).2
  obtain ⟨_, _, hb, hsub⟩ := Wf_child _ _ _ hw L hc
  obtain ⟨z, hz⟩ := Blt_inhabited hb
  exact c.inv.apart i P (getElem?_lt hi) (getElem?_lt c.node) (by rw [hil, c.lvlP]) z
    (hsub z hz) (c.childL.2.2.2 z hz)

/-- Nodes of the height of `P`, other than `P`, keep their invariant across
the recursive call on `L`. -/
theorem Ctx.sibling {cap : Nat} {g : Ghost} {D D1 : Int → Option Nat → Prop}
    {m : Mem} {Lc : List Nat} {P L h : Nat} {n : DataNode_t}
    (c : Ctx cap g D D1 m Lc P L h n) {data : Option Nat} {b : Bool} {m1 : Mem}
    {e1 : data_entry} {g1 : Ghost} {L1 : List Nat}
    (hp : Post cap g D1 m L data b m1 e1 g1 L1) {i : Nat} {ni : DataNode_t}
    (hi : m.nodes[i]? = some ni) (hil : g.lvl i = h + 1) (hiP : i ≠ P) :
    NodeInv cap g1 m1.nodes.length D1 i ni := by
  have hilt := getElem?_lt hi
  have hLl := c.childL.2.1
  have hiL : i ≠ L := by
    intro h1; rw [h1, hLl] at hil; omega
  obtain ⟨_, f2, f3⟩ := hp.frame i hilt (by rw [hLl, hil]; omega) hiL
  refine NodeInv_congr (c.inv.nodes i ni hi) ⟨hp.lvl_old i hilt, f2, f3⟩ ?_ hp.len_le c.mono
  intro x hx hxlt hxl
  have hxL : x ≠ L := by
    intro h1
    subst h1
    exact hiP (c.single_parent hi hil hx)
  obtain ⟨_, e2, e3⟩ := hp.frame x hxlt (by rw [hLl]; rw [hil] at hxl; omega) hxL
  exact ⟨hp.lvl_old x hxlt, e2, e3⟩

theorem Post.lift_false {cap : Nat} {g : Ghost} {D D1 : Int → Option Nat → Prop} {m : Mem}
    {Lc : List Nat} {P L h : Nat} {n : DataNode_t} (c : Ctx cap g D D1 m Lc P L h n)
    {data : Option Nat} {m1 : Mem} {e1 : data_entry} {g1 : Ghost} {L1 : List Nat}
    (hp : Post cap g D1 m L data false m1 e1 g1 L1) :
    Post cap g D1 m P data false m1 e1 g1 L1 := by
  obtain ⟨hLlt, hLl, _, _⟩ := c.childL
  have hPlt := getElem?_lt c.node
  have hfr : ∀ i, i < m.nodes.length → g.lvl P ≤ g.lvl i →
      m1.nodes[i]? = m.nodes[i]? ∧ g1.lo i = g.lo i ∧ g1.hi i = g.hi i := by
    intro i hi hil
    refine hp.frame i hi (by rw [hLl]; rw [c.lvlP] at hil; omega) ?_
    intro h1; rw [h1, hLl, c.lvlP] at hil; omega
  exact
    { len_le := hp.len_le
      lvl_old := hp.lvl_old
      frame := fun i hi hil _ => hfr i hi hil
      lvl_new := fun i h1 h2 => by
        have := hp.lvl_new i h1 h2
        rw [hLl] at this; rw [c.lvlP]; omega
      nodes := fun i ni hi hil => by
        rw [c.lvlP] at hil
        by_cases hlow : g1.lvl i ≤ h
        · exact hp.nodes i ni hi (by rw [hLl]; exact hlow)
        · have hilt : i < m.nodes.length := by
            by_contra hge
            have := hp.lvl_new i (by omega) (getElem?_lt hi)
            rw [hLl] at this; omega
          have hgl : g.lvl i = h + 1 := by
            rw [← hp.lvl_old i hilt]; omega
          have hmem := (hfr i hilt (by rw [c.lvlP, hgl])).1
          rw [hmem] at hi
          by_cases hiP : i = P
          · subst hiP
            obtain ⟨_, f2, f3⟩ := hfr i hilt (le_refl _)
            refine NodeInv_congr (c.inv.nodes i ni hi) ⟨hp.lvl_old i hilt, f2, f3⟩ ?_
              hp.len_le c.mono
            intro x _ hxlt hxl
            rw [hgl] at hxl
            by_cases hxL : x = L
            · subst hxL
              exact ⟨hp.lvl_old x hxlt, (hp.keep rfl).1, (hp.keep rfl).2⟩
            · obtain ⟨_, e2, e3⟩ := hp.frame x hxlt (by rw [hLl]; omega) hxL
              exact ⟨hp.lvl_old x hxlt, e2, e3⟩
          · exact c.sibling hp hi hgl hiP
      apart := hp.apart
      stored := hp.stored
      chain := hp.chain
      keep := fun _ => ⟨(hfr P hPlt (le_refl _)).2.1, (hfr P hPlt (le_refl _)).2.2⟩
      up := fun h => by cases h }

theorem NodeInv_internal_mk {cap : Nat} {g : Ghost} {len h : Nat}
    {D : Int → Option Nat → Prop} {i : Nat} {n : DataNode_t} (h1 : n.m_max_entries = cap)
    (h2 : n.m_num_entries ≤ cap) (h3 : cap ≤ n.m_entries.length) (h5 : g.lvl i = h + 1)
    (h6 : n.m_is_leaf = false) (h7 : Wf g len h (g.lo i) n.valid (g.hi i)) :
    NodeInv cap g len D i n :=
  ⟨h1, h2, h3, Wf_Blt _ _ _ h7, fun h0 => (by rw [h5] at h0; cases h0),
    fun h' hh => (by
      rw [h5] at hh
      have : h' = h := by omega
      subst this
      exact ⟨h6, h7⟩)⟩

/-- After the recursive call on `L`, every node other than `P` of height at
most that of `P` satisfies its invariant. -/
theorem Ctx.others {cap : Nat} {g : Ghost} {D D1 : Int → Option Nat → Prop}
    {m : Mem} {Lc : List Nat} {P L h : Nat} {n : DataNode_t}
    (c : Ctx cap g D D1 m Lc P L h n) {data : Option Nat} {b : Bool} {m1 : Mem}
    {e1 : data_entry} {g1 : Ghost} {L1 : List Nat}
    (hp : Post cap g D1 m L data b m1 e1 g1 L1) {i : Nat} {ni : DataNode_t}
    (hi : m1.nodes[i]? = some ni) (hil : g1.lvl i ≤ h + 1) (hiP : i ≠ P) :
    NodeInv cap g1 m1.nodes.length D1 i ni := by
  obtain ⟨hLlt, hLl, _, _⟩ := c.childL
  by_cases hlow : g1.lvl i ≤ h
  · exact hp.nodes i ni hi (by rw [hLl]; exact hlow)
  · have hilt : i < m.nodes.length := by
      by_contra hge
      have := hp.lvl_new i (by omega) (getElem?_lt hi)
      rw [hLl] at this; omega
    have hgl : g.lvl i = h + 1 := by
      rw [← hp.lvl_old i hilt]; omega
    have hiL : i ≠ L := by
      intro h1; rw [h1, hLl] at hgl; omega
    have hmem := (hp.frame i hilt (by rw [hLl, hgl]; omega) hiL).1
    rw [hmem] at hi
    exact c.sibling hp hi hgl hiP

/-- Facts about `P` itself after the recursive call on `L`. -/
theorem Ctx.P_frame {cap : Nat} {g : Ghost} {D D1 : Int → Option Nat → Prop}
    {m : Mem} {Lc : List Nat} {P L h : Nat} {n : DataNode_t}
    (c : Ctx cap g D D1 m Lc P L h n) {data : Option Nat} {b : Bool} {m1 : Mem}
    {e1 : data_entry} {g1 : Ghost} {L1 : List Nat}
    (hp : Post cap g D1 m L data b m1 e1 g1 L1) :
    m1.nodes[P]? = some n ∧ g1.lvl P = h + 1 ∧ g1.lo P = g.lo P ∧ g1.hi P = g.hi P ∧
      P < m.nodes.length := by
  have hPlt := getElem?_lt c.node
  obtain ⟨f1, f2, f3⟩ := hp.frame P hPlt (by rw [c.childL.2.1, c.lvlP]; omega) c.P_ne_L
  exact ⟨by rw [f1]; exact c.node, by rw [hp.lvl_old P hPlt]; exact c.lvlP, f2, f3, hPlt⟩

theorem Post.parent_insert {cap : Nat} {g : Ghost} {D D1 : Int → Option Nat → Prop}
    {m : Mem} {Lc : List Nat} {P L h : Nat} {n : DataNode_t}
    (c : Ctx cap g D D1 m Lc P L h n) {data : Option Nat} {m1 : Mem} {e1 : data_entry}
    {g1 : Ghost} {L1 : List Nat} (hp : Post cap g D1 m L data true m1 e1 g1 L1)
    (hnf : n.is_full = false) :
    ∃ m2, m1.call_insert P e1 = .ok m2 ∧ Post cap g D1 m P data false m2 e1 g1 L1 := by
  obtain ⟨hLlt, hLl, _, _⟩ := c.childL
  obtain ⟨hP1, hPl1, hPlo, hPhi, hPlt⟩ := c.P_frame hp
  obtain ⟨k, R, he1, hRge, hRlt, hRl, hLlo, hLhi, hRlo, hRhi, hk1, hk2⟩ := hp.up rfl
  have hn := c.inv.nodes P n c.node
  have hnum : n.m_num_entries < cap := by
    have := is_full_false hnf; rw [hn.1] at this; exact this
  have hb : n.m_num_entries ≤ n.m_entries.length := by have := hn.2.2.1; omega
  have hPlt1 : P < m1.nodes.length := getElem?_lt hP1
  have hwf : Wf g1 m1.nodes.length h (g.lo P) (ins_spec e1 n.valid) (g.hi P) := by
    rw [he1]
    refine Wf_ins data hp.len_le ?_ hLlt (by rw [hp.lvl_old L hLlt]; exact hLl) hLlo hLhi hRlt
      (by rw [hRl]; exact hLl) hRlo hRhi hk1 hk2 _ _ _ c.wf c.child
    intro x hxlt hxl hxL
    obtain ⟨_, e2, e3⟩ := hp.frame x hxlt (by rw [hLl, hxl]) hxL
    exact ⟨hp.lvl_old x hxlt, e2, e3⟩
  have hPnew : NodeInv cap g1 m1.nodes.length D1 P (n.inserted e1) := by
    refine NodeInv_internal_mk hn.1 ?_ ?_ hPl1 ((hn.2.2.2.2.2 h c.lvlP).1) ?_
    · simp only [DataNode_t.inserted]; omega
    · rw [inserted_length n _ hb]; have := hn.2.2.1; omega
    · rw [inserted_valid n _ hb, hPlo, hPhi]; exact hwf
  have hframe : ∀ j, j ≠ P → (m1.nodes.set P (n.inserted e1))[j]? = m1.nodes[j]? :=
    fun j hj => getElem?_set_ne' _ _ _ _ (Ne.symm hj)
  refine ⟨_, call_insert_eq m1 P n e1 hP1 hb, ?_⟩
  exact
    { len_le := by simp only [List.length_set]; exact hp.len_le
      lvl_old := hp.lvl_old
      frame := fun i hi hil hiP => by
        have hiL : i ≠ L := by
          intro h1; rw [h1, hLl, c.lvlP] at hil; omega
        obtain ⟨f1, f2, f3⟩ := hp.frame i hi (by rw [hLl]; rw [c.lvlP] at hil; omega) hiL
        exact ⟨by simp only; rw [hframe i hiP, f1], f2, f3⟩
      lvl_new := fun i h1 h2 => by
        simp only [List.length_set] at h2
        have := hp.lvl_new i h1 h2
        rw [hLl] at this; rw [c.lvlP]; omega
      nodes := fun i ni hi hil => by
        simp only [List.length_set] at hi ⊢
        rw [c.lvlP] at hil
        by_cases hiP : i = P
        · subst hiP
          rw [getElem?_set_eq' _ _ _ hPlt1] at hi
          cases hi
          exact hPnew
        · rw [hframe i hiP] at hi
          exact c.others hp hi hil hiP
      apart := by simpa using hp.apart
      stored := by
        refine Stored_frame hp.stored ?_
        intro i ni hi hil
        have hiP : i ≠ P := by
          intro h1; rw [h1, hPl1] at hil; omega
        exact ⟨by simp only; rw [hframe i hiP]; exact hi, hil⟩
      chain := by
        refine LeafChain_frame hp.chain (by simp) (fun _ _ => rfl) ?_ ?_
        · intro a _ hal
          have haP : a ≠ P := by
            intro h1; rw [h1, hPl1] at hal; omega
          exact ⟨by simp only; rw [hframe a haP], rfl, rfl⟩
        · intro a h1 h2
          simp only [List.length_set] at h2
          omega
      keep := fun _ => ⟨hPlo, hPhi⟩
      up := fun h => by cases h }

theorem Wf_split_child {g : Ghost} {len h : Nat} (mid : data_entry) (b : data_entry)
    (B : List data_entry) (u : Option Int) :
    ∀ (A : List data_entry) (l : Option Int), A ≠ [] →
      Wf g len h l (A ++ mid :: b :: B) u →
      ∀ c, IsChild (A ++ mid :: b :: B) c → IsChild A c ∨ IsChild (b :: B) c
  | [], _, hA, _ => absurd rfl hA
  | [a], l, _, hw => by
    simp only [List.singleton_append, Wf] at hw
    obtain ⟨_, h2, _, h4, _⟩ := hw
    rintro c ⟨y, hy, hyc⟩
    simp only [List.singleton_append, List.mem_cons] at hy
    rcases hy with rfl | rfl | hy
    · exact Or.inl ⟨y, by simp, hyc⟩
    · rcases hyc with hyc | hyc
      · exact Or.inl ⟨a, by simp, Or.inr (h2 ▸ hyc)⟩
      · exact Or.inr ⟨b, by simp, Or.inl (h4 ▸ hyc)⟩
    · exact Or.inr ⟨y, by simp only [List.mem_cons]; exact hy, hyc⟩
  | a :: a2 :: A, l, _, hw => by
    simp only [List.cons_append, Wf] at hw
    obtain ⟨_, _, h3⟩ := hw
    have ih := Wf_split_child mid b B u (a2 :: A) (some a.get1) (by simp) (by simpa using h3)
    rintro c ⟨y, hy, hyc⟩
    simp only [List.cons_append, List.mem_cons] at hy
    rcases hy with rfl | hy
    · exact Or.inl ⟨y, by simp, hyc⟩
    · rcases ih c ⟨y, by simpa using hy, hyc⟩ with ⟨z, hz, hzc⟩ | h
      · exact Or.inl ⟨z, by simp only [List.mem_cons] at hz ⊢; exact Or.inr hz, hzc⟩
      · exact Or.inr h

theorem Wf_to_split {g : Ghost} {len h P : Nat} {k : Int} {V : List data_entry}
    {l u : Option Int} (hw : Wf g len h l V u) (hP : g.lvl P ≠ h) :
    Wf (g.split P len k) (len + 1) h l V u := by
  refine Wf_congr (by omega) V l u hw ?_
  intro c hc
  obtain ⟨hclt, hcl, _, _⟩ := Wf_child _ _ _ hw c hc
  exact split_same g P len k c (fun h1 => hP (h1 ▸ hcl)) (by omega)

theorem NodeInv_to_split {cap : Nat} {g : Ghost} {len P : Nat} {k : Int}
    {D : Int → Option Nat → Prop} {i : Nat} {n : DataNode_t}
    (hn : NodeInv cap g len D i n) (hi : i < len) (hiP : i ≠ P)
    (hl : g.lvl i ≤ g.lvl P) :
    NodeInv cap (g.split P len k) (len + 1) D i n := by
  refine NodeInv_congr hn (split_same g P len k i hiP (by omega)) ?_ (by omega)
    (fun _ _ h => h)
  intro c _ hclt hcl
  exact split_same g P len k c (fun h1 => by rw [h1] at hcl; omega) (by omega)

theorem Post.parent_split {cap : Nat} {g : Ghost} {D D1 : Int → Option Nat → Prop}
    {m : Mem} {Lc : List Nat} {P L h : Nat} {n : DataNode_t}
    (c : Ctx cap g D D1 m Lc P L h n) {data : Option Nat} {m1 : Mem} {e1 : data_entry}
    {g1 : Ghost} {L1 : List Nat} (hp : Post cap g D1 m L data true m1 e1 g1 L1)
    (hf : n.is_full = true) (hcap : 3 ≤ cap) :
    ∃ m2 e2 g2, split cap m1 P false e1 = .ok (m2, e2) ∧
      Post cap g D1 m P data true m2 e2 g2 L1 := by
  obtain ⟨hLlt, hLl, _, hLsub⟩ := c.childL
  obtain ⟨hP1, hPl1, hPlo, hPhi, hPlt⟩ := c.P_frame hp
  obtain ⟨k, R, he1, hRge, hRlt, hRl, hLlo, hLhi, hRlo, hRhi, hk1, hk2⟩ := hp.up rfl
  have hn := c.inv.nodes P n c.node
  have hnum : n.m_num_entries = cap := by
    have := is_full_true hf; rw [hn.1] at this; have := hn.2.1; omega
  have hh : cap / 2 < cap := Nat.div_lt_self (by omega) (by omega)
  have hh1 : 1 ≤ cap / 2 := by omega
  have hh2 : cap / 2 + 1 < cap := by omega
  have hPlt1 : P < m1.nodes.length := getElem?_lt hP1
  obtain ⟨mid, hmid, hs⟩ := split_eq cap m1 P false e1 n hP1 (by omega) hn.2.2.1
  obtain ⟨hV, _, hAl, hBl⟩ := full_decompose hnum hn.2.2.1 (by omega) hmid
  have hA : n.m_entries.take (cap / 2) ≠ [] := by
    intro h; rw [h] at hAl; simp at hAl; omega
  obtain ⟨b, B, hB⟩ : ∃ b B,
      (n.m_entries.drop (cap / 2 + 1)).take (cap - (cap / 2 + 1)) = b :: B := by
    cases hq : (n.m_entries.drop (cap / 2 + 1)).take (cap - (cap / 2 + 1)) with
    | nil => rw [hq] at hBl; simp at hBl; omega
    | cons b B => exact ⟨b, B, rfl⟩
  have hwf := c.wf
  rw [hV, hB] at hwf
  obtain ⟨WA, WB⟩ := Wf_split_at mid b B _ _ _ hA hwf
  have hchild : IsChild (n.m_entries.take (cap / 2)) L ∨ IsChild (b :: B) L := by
    have := c.child
    rw [hV, hB] at this
    exact Wf_split_child mid b B _ _ _ hA hwf L this
  have hkin : InB (g.lo L) (g.hi L) k := InB_strict hk1 hk2
  have hkin1 : InB (g.lo L) (g.hi L) (k - 1) := by
    constructor
    · intro a ha; rw [ha] at hk1; simp only [Blt] at hk1; omega
    · intro b hb; rw [hb] at hk2; simp only [Blt] at hk2; omega
  have hleft : IsChild (n.m_entries.take (cap / 2)) L → k < mid.get1 := fun hc =>
    ((Wf_child _ _ _ WA L hc).2.2.2 k hkin).2 _ rfl
  have hright : IsChild (b :: B) L → mid.get1 < k := fun hc => by
    have := ((Wf_child _ _ _ WB L hc).2.2.2 (k - 1) hkin1).1 _ rfl
    omega
  have hoth : ∀ x, x < m.nodes.length → g.lvl x = h → x ≠ L → g.same g1 x := by
    intro x hxlt hxl hxL
    obtain ⟨_, e2, e3⟩ := hp.frame x hxlt (by rw [hLl, hxl]) hxL
    exact ⟨hp.lvl_old x hxlt, e2, e3⟩
  -- a side that does not hold `L` is untouched by the recursive call
  have hkeepW : ∀ {V : List data_entry} {l u : Option Int},
      Wf g m.nodes.length h l V u → ¬ IsChild V L → Wf g1 m1.nodes.length h l V u := by
    intro V l u hw hnot
    refine Wf_congr hp.len_le V l u hw ?_
    intro x hx
    obtain ⟨hxlt, hxl, _, _⟩ := Wf_child _ _ _ hw x hx
    exact hoth x hxlt hxl (fun h1 => hnot (h1 ▸ hx))
  have hinsW : ∀ {V : List data_entry} {l u : Option Int},
      Wf g m.nodes.length h l V u → IsChild V L →
      Wf g1 m1.nodes.length h l (ins_spec e1 V) u := by
    intro V l u hw hc
    rw [he1]
    exact Wf_ins data hp.len_le hoth hLlt (by rw [hp.lvl_old L hLlt]; exact hLl) hLlo hLhi hRlt
      (by rw [hRl]; exact hLl) hRlo hRhi hk1 hk2 _ _ _ hw hc
  set len1 := m1.nodes.length with hlen1
  have hPne : P ≠ len1 := by omega
  obtain ⟨p1, p2, p3⟩ := split_at_P g1 P len1 mid.get1 hPne
  obtain ⟨r1, r2, r3⟩ := split_at_R g1 P len1 mid.get1
  have hXv : (split_left cap len1 n).valid = n.m_entries.take (cap / 2) := split_left_valid _ _ _
  have hYv : (split_right cap false n).valid = b :: B := by
    rw [split_right_valid, split_from_internal, hB]
  have hXn : (split_left cap len1 n).m_num_entries = cap / 2 := by
    simp only [split_left]; exact hAl
  have hYn : (split_right cap false n).m_num_entries = cap - (cap / 2 + 1) := by
    simp only [split_right, split_from_internal]; exact hBl
  have hXl : (split_left cap len1 n).m_entries.length = cap := by
    simp only [split_left, vec_resize_length]
  have hYl : (split_right cap false n).m_entries.length = cap := by
    simp only [split_right, vec_resize_length]
  have hlf : n.m_is_leaf = false := (hn.2.2.2.2.2 h c.lvlP).1
  have hl1 : (g1.split P len1 mid.get1).lvl P = h + 1 := by rw [p1]; exact hPl1
  have hl2 : (g1.split P len1 mid.get1).lvl len1 = h + 1 := by rw [r1]; exact hPl1
  have hg1P : g1.lvl P ≠ h := by rw [hPl1]; omega
  -- the invariant of the two halves, given the state of their entries
  have mkX : ∀ X : DataNode_t, X.m_max_entries = cap → X.m_num_entries ≤ cap →
      cap ≤ X.m_entries.length → X.m_is_leaf = false →
      Wf g1 len1 h (g.lo P) X.valid (some mid.get1) →
      NodeInv cap (g1.split P len1 mid.get1) (len1 + 1) D1 P X := by
    intro X x1 x2 x3 x4 x5
    refine NodeInv_internal_mk x1 x2 x3 hl1 x4 ?_
    rw [p2, p3, hPlo]
    exact Wf_to_split x5 hg1P
  have mkY : ∀ Y : DataNode_t, Y.m_max_entries = cap → Y.m_num_entries ≤ cap →
      cap ≤ Y.m_entries.length → Y.m_is_leaf = false →
      Wf g1 len1 h (some mid.get1) Y.valid (g.hi P) →
      NodeInv cap (g1.split P len1 mid.get1) (len1 + 1) D1 len1 Y := by
    intro Y y1 y2 y3 y4 y5
    refine NodeInv_internal_mk y1 y2 y3 hl2 y4 ?_
    rw [r2, r3, hPhi]
    exact Wf_to_split y5 hg1P
  have hXb : (split_left cap len1 n).m_num_entries ≤ (split_left cap len1 n).m_entries.length := by
    rw [hXn, hXl]; omega
  have hYb : (split_right cap false n).m_num_entries
      ≤ (split_right cap false n).m_entries.length := by
    rw [hYn, hYl]; omega
  obtain ⟨X, Y, fi, hres, hX, hY⟩ : ∃ X Y fi,
      split cap m1 P false e1
        = .ok ({ nodes := m1.nodes.set P X ++ [Y], full_inserts := fi },
            { e1 with get0 := some P, get1 := mid.get1, get3 := some len1 }) ∧
      NodeInv cap (g1.split P len1 mid.get1) (len1 + 1) D1 P X ∧
      NodeInv cap (g1.split P len1 mid.get1) (len1 + 1) D1 len1 Y := by
    by_cases hk : mid.get1 < e1.get1
    · have hk' : mid.get1 < k := by rw [he1] at hk; exact hk
      have hcR : IsChild (b :: B) L := by
        rcases hchild with hc | hc
        · have := hleft hc; omega
        · exact hc
      have hcL : ¬ IsChild (n.m_entries.take (cap / 2)) L := fun hc => by
        have := hleft hc; omega
      refine ⟨split_left cap len1 n, (split_right cap false n).inserted e1,
        (if (split_right cap false n).is_full then m1.full_inserts + 1 else m1.full_inserts),
        ?_, ?_, ?_⟩
      · rw [hs]; simp only [hk, if_true]
      · exact mkX _ hn.1 (by rw [hXn]; omega) (by rw [hXl]) hlf
          (by rw [hXv]; exact hkeepW WA hcL)
      · refine mkY _ rfl ?_ ?_ rfl ?_
        · simp only [DataNode_t.inserted]; rw [hYn]; omega
        · rw [inserted_length _ _ hYb, hYl]; omega
        · rw [inserted_valid _ _ hYb, hYv]; exact hinsW WB hcR
    · have hk' : ¬ mid.get1 < k := by rw [he1] at hk; exact hk
      have hcL : IsChild (n.m_entries.take (cap / 2)) L := by
        rcases hchild with hc | hc
        · exact hc
        · exact absurd (hright hc) hk'
      have hcR : ¬ IsChild (b :: B) L := fun hc => hk' (hright hc)
      refine ⟨(split_left cap len1 n).inserted e1, split_right cap false n,
        (if (split_left cap len1 n).is_full then m1.full_inserts + 1 else m1.full_inserts),
        ?_, ?_, ?_⟩
      · rw [hs]; simp only [hk, if_false]
      · refine mkX _ hn.1 ?_ ?_ hlf ?_
        · simp only [DataNode_t.inserted]; rw [hXn]; omega
        · rw [inserted_length _ _ hXb, hXl]; omega
        · rw [inserted_valid _ _ hXb, hXv]; exact hinsW WA hcL
      · exact mkY _ rfl (by rw [hYn]; omega) (by rw [hYl]) rfl
          (by rw [hYv]; exact hkeepW WB hcR)
  refine ⟨_, _, g1.split P len1 mid.get1, hres, ?_⟩
  have hlen2 : (m1.nodes.set P X ++ [Y]).length = len1 + 1 := by simp [hlen1]
  have hold : ∀ j, j < len1 → j ≠ P → (m1.nodes.set P X ++ [Y])[j]? = m1.nodes[j]? :=
    fun j hj hji => getElem?_set_append_old _ _ _ _ _ hj hji
  have hlenle : m.nodes.length ≤ len1 := hp.len_le
  exact
    { len_le := by simp only [hlen2]; omega
      lvl_old := fun j hj => by
        rw [split_lvl g1 P len1 _ j (by omega)]; exact hp.lvl_old j hj
      frame := fun i hi hil hiP => by
        have hiL : i ≠ L := by
          intro h1; rw [h1, hLl, c.lvlP] at hil; omega
        obtain ⟨f1, f2, f3⟩ := hp.frame i hi (by rw [hLl]; rw [c.lvlP] at hil; omega) hiL
        obtain ⟨_, s2, s3⟩ := split_same g1 P len1 mid.get1 i hiP (by omega)
        exact ⟨by simp only; rw [hold i (by omega) hiP, f1], by rw [s2, f2], by rw [s3, f3]⟩
      lvl_new := fun i h1 h2 => by
        simp only [hlen2] at h2
        rw [c.lvlP]
        by_cases hi : i = len1
        · rw [hi, hl2]
        · rw [split_lvl g1 P len1 _ i hi]
          have := hp.lvl_new i h1 (by omega)
          rw [hLl] at this; omega
      nodes := fun i ni hi hil => by
        simp only [hlen2]
        rw [c.lvlP] at hil
        rcases getElem?_set_append_cases _ _ _ _ _ _ hPlt1 hi with
          ⟨rfl, rfl⟩ | ⟨rfl, rfl⟩ | ⟨hilt, hiP, hio⟩
        · exact hX
        · exact hY
        · have hsl : (g1.split P len1 mid.get1).lvl i = g1.lvl i :=
            split_lvl g1 P len1 _ i (by omega)
          rw [hsl] at hil
          exact NodeInv_to_split (c.others hp hio hil hiP) hilt hiP (by rw [hPl1]; exact hil)
      apart := by
        simp only [hlen2]
        refine Apart_split hp.apart hPlt1 ?_ ?_
        · rw [hPlo]; exact Wf_Blt _ _ _ WA
        · rw [hPhi]; exact Wf_Blt _ _ _ WB
      stored := by
        refine Stored_frame hp.stored ?_
        intro i ni hi hil
        have hilt := getElem?_lt hi
        have hiP : i ≠ P := by
          intro h1; rw [h1, hPl1] at hil; omega
        exact ⟨by simp only; rw [hold i hilt hiP]; exact hi,
          by rw [split_lvl g1 P len1 _ i (by omega)]; exact hil⟩
      chain := by
        refine LeafChain_frame hp.chain (by simp only [hlen2]; omega)
          (fun a ha => split_lvl g1 P len1 _ a (by omega)) ?_ ?_
        · intro a ha hal
          have haP : a ≠ P := by
            intro h1; rw [h1, hPl1] at hal; omega
          obtain ⟨_, s2, s3⟩ := split_same g1 P len1 mid.get1 a haP (by omega)
          exact ⟨by simp only; rw [hold a ha haP], s2, s3⟩
        · intro a h1 h2
          simp only [hlen2] at h2
          have : a = len1 := by omega
          rw [this, hl2]; omega
      keep := fun h => by cases h
      up := fun _ => ⟨mid.get1, len1, by rw [he1], hlenle, by simp only [hlen2]; omega,
        by rw [r1, hPl1, c.lvlP], by rw [p2, hPlo], p3, r2, by rw [r3, hPhi],
        Wf_Blt _ _ _ WA, Wf_Blt _ _ _ WB⟩ }

theorem SInv.insert_recursive_post {cap : Nat} (hcap : 3 ≤ cap) (key : Int)
    (data : Option Nat) :
    ∀ (fuel : Nat) (m : Mem) (curr : Nat) (g : Ghost) (D : Int → Option Nat → Prop)
      (Lc : List Nat), SInv cap g D m Lc → curr < m.nodes.length → g.lvl curr < fuel →
      InB (g.lo curr) (g.hi curr) key → (∀ p, ¬ D key p) →
      ∃ b m1 e1 g1 L1,
        insert_recursive cap fuel m curr key data ⟨none, key, data, none⟩ = .ok (b, m1, e1) ∧
        Post cap g (Added D key data) m curr data b m1 e1 g1 L1 := by
  intro fuel
  induction fuel with
  | zero => intro m curr g D Lc _ _ h; omega
  | succ fuel ih =>
    intro m curr g D Lc hS hcurr hfuel hin hnew
    obtain ⟨c, hc⟩ : ∃ c, m.nodes[curr]? = some c :=
      ⟨m.nodes[curr], List.getElem?_eq_getElem hcurr⟩
    have hn := hS.nodes curr c hc
    have hb : c.m_num_entries ≤ c.m_entries.length := by
      have := hn.2.1; have := hn.2.2.1; omega
    unfold BPlusTree.insert_recursive
    simp only [deref_eq m curr c hc, next_eq c key hb]
    cases hlv : g.lvl curr with
    | zero =>
      obtain ⟨_, hleaf⟩ := hn.2.2.2.2.1 hlv
      have hr : route key c.valid none = none :=
        route_leaf key c.valid (fun e he => ⟨(hleaf.1 e he).1, (hleaf.1 e he).2.1⟩)
      simp only [hr]
      cases hfull : c.is_full with
      | true =>
        obtain ⟨m1, e1, g1, L1, hs, hp⟩ :=
          hS.leaf_split_post hc hlv hfull key data hin hnew (by omega)
        simp only [hs, if_true]
        exact ⟨true, m1, e1, g1, L1, rfl, hp⟩
      | false =>
        obtain ⟨m1, hs, hp⟩ := hS.leaf_insert_post hc hlv hfull key data hin hnew
        simp only [hs]
        exact ⟨false, m1, _, g, Lc, by simp, hp⟩
    | succ h =>
      have hwf := (hn.2.2.2.2.2 h hlv).2
      obtain ⟨L, hr, hLc, hLin⟩ := Wf_route key c.valid _ _ none hwf hin
      obtain ⟨hLlt, hLl, _, _⟩ := Wf_child _ _ _ hwf L hLc
      simp only [hr]
      obtain ⟨b, m1, e1, g1, L1, hrec, hp⟩ :=
        ih m L g D Lc hS hLlt (by rw [hLl]; omega) hLin hnew
      rw [hrec]
      have ctx : Ctx cap g D (Added D key data) m Lc curr L h c :=
        { inv := hS, node := hc, lvlP := hlv, child := hLc, mono := fun k p hd => Or.inl hd }
      cases b with
      | false =>
        exact ⟨false, m1, e1, g1, L1, rfl, Post.lift_false ctx hp⟩
      | true =>
        simp only
        obtain ⟨hP1, _⟩ := ctx.P_frame hp
        simp only [deref_eq m1 curr c hP1]
        cases hfull : c.is_full with
        | true =>
          obtain ⟨m2, e2, g2, hs, hp2⟩ := Post.parent_split ctx hp hfull hcap
          simp only [hs, if_true]
          exact ⟨true, m2, e2, g2, L1, rfl, hp2⟩
        | false =>
          obtain ⟨m2, hs, hp2⟩ := Post.parent_insert ctx hp hfull
          simp only [hs]
          exact ⟨false, m2, e1, g1, L1, by simp, hp2⟩

theorem add_root_same (g : Ghost) (Q d : Nat) (c : Nat) (h : c ≠ Q) :
    g.same (g.add_root Q d) c := by
  simp [Ghost.same, Ghost.add_root, h]

theorem STree.new_strong (sizeof_entry block_size : Nat) :
    STree (fun _ _ => False) (BTree.new sizeof_entry block_size) := by
  refine ⟨⟨fun _ => 0, fun _ => none, fun _ => none⟩, [0], ?_, by simp [BTree.new], rfl, rfl,
    rfl, by simp [BTree.new], fun _ _ => le_refl _⟩
  have hnodes : (BTree.new sizeof_entry block_size).mem.nodes
      = [DataNode_t.new (block_size / sizeof_entry) true] := rfl
  constructor
  · intro i n hi
    rw [hnodes] at hi
    have : i = 0 := by
      have := getElem?_lt hi
      simpa using this
    subst this
    simp at hi
    subst hi
    refine NodeInv_leaf_mk rfl (by simp [DataNode_t.new])
      (by simp [DataNode_t.new, vec_resize_length, BTree.new]) trivial rfl rfl ?_
    simp [LeafOK, DataNode_t.valid, DataNode_t.new]
  · intro i j hi hj _ _ _ _
    rw [hnodes] at hi hj
    simp at hi hj
    omega
  · intro k p h
    exact absurd h (fun h => h)
  · refine ⟨?_, by simp, ?_, fun _ _ => rfl⟩
    · simp only [Linked, hnodes]
      exact ⟨⟨DataNode_t.new (block_size / sizeof_entry) true, by simp, rfl⟩, trivial⟩
    · intro i
      rw [hnodes]
      simp

theorem Apart_add_root {g : Ghost} {len d : Nat} (ha : Apart g len)
    (hd : ∀ i, i < len → g.lvl i < d) : Apart (g.add_root len d) (len + 1) := by
  intro i j hi hj hl z hzi hzj
  by_cases h1 : i = len
  · by_cases h2 : j = len
    · rw [h1, h2]
    · have := hd j (by omega)
      simp only [Ghost.add_root, h1, h2, if_true, if_false] at hl
      omega
  · by_cases h2 : j = len
    · have := hd i (by omega)
      simp only [Ghost.add_root, h1, h2, if_true, if_false] at hl
      omega
    · simp only [Ghost.add_root, h1, h2, if_false] at hl hzi hzj
      exact ha i j (by omega) (by omega) hl z hzi hzj

theorem STree.insert_strong {D : Int → Option Nat → Prop} {t : BTree} (ht : STree D t)
    (hcap : 3 ≤ t.m_max_entries) (key : Int) (data : Option Nat) (hnew : ∀ p, ¬ D key p) :
    ∃ t1, t.insert key data = .ok (true, t1) ∧ STree (Added D key data) t1 ∧
      t1.m_max_entries = t.m_max_entries := by
  obtain ⟨g, Lc, hS, hroot, hlr, hlo, hhi, hdep, hmax⟩ := ht
  obtain ⟨b, m1, e1, g1, L1, hrec, hp⟩ :=
    hS.insert_recursive_post hcap key data t.fuel t.mem t.m_root g D Lc hroot
      (by simp only [BTree.fuel]; omega) (by rw [hlo, hhi]; simp [InB]) hnew
  have hall : ∀ i, i < m1.nodes.length → g1.lvl i ≤ t.m_depth := by
    intro i hi
    by_cases hold : i < t.mem.nodes.length
    · rw [hp.lvl_old i hold]; exact hmax i hold
    · have := hp.lvl_new i (by omega) hi
      rw [hlr] at this; exact this
  have hnodes1 : ∀ i n, m1.nodes[i]? = some n → NodeInv t.m_max_entries g1 m1.nodes.length
      (Added D key data) i n :=
    fun i n hi => hp.nodes i n hi (by rw [hlr]; exact hall i (getElem?_lt hi))
  have hnew_entry : ({ data_entry.default with get1 := key, get2 := data } : data_entry)
      = ⟨none, key, data, none⟩ := rfl
  unfold BTree.insert
  simp only [hnew_entry, hrec]
  cases b with
  | false =>
    refine ⟨_, rfl, ⟨g1, L1, ⟨hnodes1, hp.apart, hp.stored, hp.chain⟩, ?_, ?_, ?_, ?_, ?_, hall⟩,
      rfl⟩
    · simp only; exact lt_of_lt_of_le hroot hp.len_le
    · simp only; rw [hp.lvl_old _ hroot]; exact hlr
    · simp only; rw [(hp.keep rfl).1]; exact hlo
    · simp only; rw [(hp.keep rfl).2]; exact hhi
    · simp only; exact lt_of_lt_of_le hdep hp.len_le
  | true =>
    obtain ⟨k, R, he1, hRge, hRlt, hRl, hLlo, hLhi, hRlo, hRhi, hk1, hk2⟩ := hp.up rfl
    simp only [Mem.alloc]
    set len1 := m1.nodes.length with hlen1
    set g2 := g1.add_root len1 (t.m_depth + 1) with hg2
    have hroot1 : t.m_root < len1 := lt_of_lt_of_le hroot hp.len_le
    have hsame : ∀ c, c < len1 → g1.same g2 c := fun c hc =>
      add_root_same g1 len1 _ c (by omega)
    have hQ : g2.lvl len1 = t.m_depth + 1 ∧ g2.lo len1 = none ∧ g2.hi len1 = none := by
      simp [hg2, Ghost.add_root]
    have hnewnode : (m1.nodes ++ [DataNode_t.new t.m_max_entries false])[len1]?
        = some (DataNode_t.new t.m_max_entries false) := by
      rw [List.getElem?_append_right (le_refl _)]; simp
    have hnb : (DataNode_t.new t.m_max_entries false).m_num_entries
        ≤ (DataNode_t.new t.m_max_entries false).m_entries.length := by
      simp [DataNode_t.new]
    rw [call_insert_eq _ len1 _ e1 hnewnode hnb]
    have hset : (m1.nodes ++ [DataNode_t.new t.m_max_entries false]).set len1
        ((DataNode_t.new t.m_max_entries false).inserted e1)
          = m1.nodes ++ [(DataNode_t.new t.m_max_entries false).inserted e1] := by
      rw [List.set_append_right _ _ (le_refl _)]; simp
    simp only [hset]
    have hlen2 : (m1.nodes ++ [(DataNode_t.new t.m_max_entries false).inserted e1]).length
        = len1 + 1 := by simp
    have hold : ∀ j, j < len1 →
        (m1.nodes ++ [(DataNode_t.new t.m_max_entries false).inserted e1])[j]?
          = m1.nodes[j]? := fun j hj => List.getElem?_append_left hj
    have hRoot : NodeInv t.m_max_entries g2 (len1 + 1) (Added D key data) len1
        ((DataNode_t.new t.m_max_entries false).inserted e1) := by
      refine NodeInv_internal_mk rfl ?_ ?_ hQ.1 rfl ?_
      · simp only [DataNode_t.inserted, DataNode_t.new]; omega
      · rw [inserted_length _ _ hnb]; simp [DataNode_t.new, vec_resize_length]
      · rw [inserted_valid _ _ hnb, hQ.2.1, hQ.2.2]
        have : (DataNode_t.new t.m_max_entries false).valid = [] := by
          simp [DataNode_t.valid, DataNode_t.new]
        rw [this, he1]
        simp only [ins_spec, Wf]
        obtain ⟨s1, s2, s3⟩ := hsame t.m_root hroot1
        obtain ⟨q1, q2, q3⟩ := hsame R hRlt
        refine ⟨⟨t.m_root, rfl, by omega, ?_, ?_, ?_, Blt_none_left _⟩,
          ⟨R, rfl, by omega, ?_, ?_, ?_, Blt_none_right _⟩⟩
        · rw [s1, hp.lvl_old _ hroot]; exact hlr
        · rw [s2, hLlo]; exact hlo
        · rw [s3]; exact hLhi
        · rw [q1, hRl]; exact hlr
        · rw [q2]; exact hRlo
        · rw [q3, hRhi]; exact hhi
    refine ⟨_, rfl, ⟨g2, L1, ?_, ?_, hQ.1, hQ.2.1, hQ.2.2, ?_, ?_⟩, rfl⟩
    · constructor
      · intro i n hi
        simp only [hlen2] at hi ⊢
        by_cases hilt : i < len1
        · rw [hold i hilt] at hi
          refine NodeInv_congr (hnodes1 i n hi) (hsame i hilt) ?_ (by omega) (fun _ _ h => h)
          intro c _ hc _
          exact hsame c hc
        · have hige := getElem?_lt hi
          simp only [hlen2] at hige
          have : i = len1 := by omega
          subst this
          rw [List.getElem?_append_right (le_refl _)] at hi
          simp at hi
          subst hi
          exact hRoot
      · simp only [hlen2]
        exact Apart_add_root hp.apart (fun i hi => by have := hall i hi; omega)
      · refine Stored_frame hp.stored ?_
        intro i n hi hil
        have hilt := getElem?_lt hi
        exact ⟨by simp only; rw [hold i hilt]; exact hi, by rw [(hsame i hilt).1]; exact hil⟩
      · refine LeafChain_frame hp.chain (by simp) (fun a ha => (hsame a ha).1) ?_ ?_
        · intro a ha _
          exact ⟨by simp only; rw [hold a ha], (hsame a ha).2.1, (hsame a ha).2.2⟩
        · intro a h1 h2
          simp only [hlen2] at h2
          have : a = len1 := by omega
          rw [this, hQ.1]; omega
    · simp only [hlen2]; omega
    · simp only [hlen2]; omega
    · intro i hi
      simp only [hlen2] at hi
      by_cases hilt : i < len1
      · rw [(hsame i hilt).1]; have := hall i hilt; simp only; omega
      · have : i = len1 := by omega
        rw [this, hQ.1]

theorem STree_congr {D D1 : Int → Option Nat → Prop} {t : BTree}
    (h : ∀ k p, D k p ↔ D1 k p) (ht : STree D t) : STree D1 t := by
  have : D = D1 := funext fun k => funext fun p => propext (h k p)
  rw [← this]; exact ht

theorem STree.insert_all_strong :
    ∀ (ops : List (Int × Option Nat)) (t : BTree) (D : Int → Option Nat → Prop),
      STree D t → 3 ≤ t.m_max_entries → (ops.map Prod.fst).Nodup →
      (∀ op ∈ ops, ∀ p, ¬ D op.1 p) →
      ∃ t1, BTree.insert_all t ops = .ok t1 ∧ STree (fun k p => D k p ∨ (k, p) ∈ ops) t1 ∧
        t1.m_max_entries = t.m_max_entries
  | [], t, D, ht, _, _, _ => ⟨t, rfl, STree_congr (fun k p => by simp) ht, rfl⟩
  | (key, data) :: rest, t, D, ht, hcap, hnd, hnew => by
    simp only [List.map_cons, List.nodup_cons] at hnd
    obtain ⟨t1, h1, ht1, hc1⟩ := ht.insert_strong hcap key data (hnew (key, data) (by simp))
    obtain ⟨t2, h2, ht2, hc2⟩ := STree.insert_all_strong rest t1 (Added D key data) ht1
      (by omega) hnd.2 (by
        intro op hop p hp
        rcases hp with hp | ⟨hk, _⟩
        · exact hnew op (by simp [hop]) p hp
        · exact hnd.1 (by rw [← hk]; exact List.mem_map_of_mem _ hop))
    refine ⟨t2, by simp [BTree.insert_all, h1, h2], STree_congr ?_ ht2, by omega⟩
    intro k p
    simp only [Added, List.mem_cons, Prod.mk.injEq]
    tauto

theorem lookup_sorted : ∀ (V : List data_entry), V.Pairwise (fun a b => a.get1 < b.get1) →
    ∀ e ∈ V, lookup e.get1 V = e.get2
  | [], _, e, he => by simp at he
  | x :: xs, hs, e, he => by
    rw [List.pairwise_cons] at hs
    simp only [List.mem_cons] at he
    simp only [lookup]
    rcases he with rfl | he
    · simp
    · have := hs.1 e he
      have hne : ¬ e.get1 = x.get1 := by omega
      rw [if_neg hne]
      exact lookup_sorted xs hs.2 e he

theorem SInv.retrieve_rec_found {cap : Nat} {g : Ghost} {D : Int → Option Nat → Prop}
    {m : Mem} {Lc : List Nat} (hS : SInv cap g D m Lc) {k : Int} {p : Option Nat}
    (hD : D k p) :
    ∀ (fuel curr : Nat), curr < m.nodes.length → g.lvl curr < fuel →
      InB (g.lo curr) (g.hi curr) k → retrieve_recursive fuel m k curr = .ok p := by
  intro fuel
  induction fuel with
  | zero => intro curr _ h; omega
  | succ fuel ih =>
    intro curr hcurr hfuel hin
    obtain ⟨c, hc⟩ : ∃ c, m.nodes[curr]? = some c :=
      ⟨m.nodes[curr], List.getElem?_eq_getElem hcurr⟩
    have hn := hS.nodes curr c hc
    have hb : c.m_num_entries ≤ c.m_entries.length := by
      have := hn.2.1; have := hn.2.2.1; omega
    unfold retrieve_recursive
    simp only [deref_eq m curr c hc, next_eq c k hb]
    cases hlv : g.lvl curr with
    | zero =>
      obtain ⟨_, hleaf⟩ := hn.2.2.2.2.1 hlv
      have hr : route k c.valid none = none :=
        route_leaf k c.valid (fun e he => ⟨(hleaf.1 e he).1, (hleaf.1 e he).2.1⟩)
      simp only [hr, retrieve_eq c k hb]
      obtain ⟨j, nj, hj, hjl, e, he, hek, hep⟩ := hS.stored k p hD
      have hjin : InB (g.lo j) (g.hi j) k := by
        have := ((hS.nodes j nj hj).2.2.2.2.1 hjl).2.1 e he
        rw [hek] at this; exact this.2.2.1
      have hjc : j = curr :=
        hS.apart j curr (getElem?_lt hj) hcurr (by rw [hjl, hlv]) k hjin hin
      subst hjc
      rw [hc] at hj; cases hj
      rw [← hek, lookup_sorted c.valid hleaf.2 e he, hep]
    | succ h =>
      have hwf := (hn.2.2.2.2.2 h hlv).2
      obtain ⟨L, hr, hLc, hLin⟩ := Wf_route k c.valid _ _ none hwf hin
      obtain ⟨hLlt, hLl, _, _⟩ := Wf_child _ _ _ hwf L hLc
      simp only [hr]
      exact ih L hLlt (by rw [hLl]; omega) hLin

theorem STree.retrieve_found {D : Int → Option Nat → Prop} {t : BTree} (ht : STree D t)
    {k : Int} {p : Option Nat} (hD : D k p) : t.retrieve k = .ok p := by
  obtain ⟨g, Lc, hS, hroot, hlr, hlo, hhi, hdep, _⟩ := ht
  exact hS.retrieve_rec_found hD t.fuel t.m_root hroot (by simp only [BTree.fuel]; omega)
    (by rw [hlo, hhi]; simp [InB])

theorem vec_at_zero_of_valid {n : DataNode_t} {e : data_entry} {rest : List data_entry}
    (h : n.valid = e :: rest) : vec_at n.m_entries 0 = .ok e := by
  have h0 : n.valid[0]? = some e := by rw [h]; simp
  simp only [DataNode_t.valid, List.getElem?_take] at h0
  split_ifs at h0
  simp [vec_at, h0]

theorem SInv.leftmost {cap : Nat} {g : Ghost} {D : Int → Option Nat → Prop}
    {m : Mem} {Lc : List Nat} (hS : SInv cap g D m Lc) :
    ∀ (fuel curr : Nat), curr < m.nodes.length → g.lvl curr < fuel → g.lo curr = none →
      ∃ a, leftmost_leaf fuel m curr = .ok a ∧ a < m.nodes.length ∧ g.lvl a = 0 ∧
        g.lo a = none := by
  intro fuel
  induction fuel with
  | zero => intro curr _ h; omega
  | succ fuel ih =>
    intro curr hcurr hfuel hlo
    obtain ⟨c, hc⟩ : ∃ c, m.nodes[curr]? = some c :=
      ⟨m.nodes[curr], List.getElem?_eq_getElem hcurr⟩
    have hn := hS.nodes curr c hc
    unfold leftmost_leaf
    simp only [deref_eq m curr c hc]
    cases hlv : g.lvl curr with
    | zero =>
      obtain ⟨hlf, _⟩ := hn.2.2.2.2.1 hlv
      simp only [hlf, if_true]
      exact ⟨curr, rfl, hcurr, hlv, hlo⟩
    | succ h =>
      obtain ⟨hlf, hwf⟩ := hn.2.2.2.2.2 h hlv
      cases hV : c.valid with
      | nil => rw [hV] at hwf; simp [Wf] at hwf
      | cons e rest =>
        rw [hV] at hwf
        obtain ⟨c0, h0, h0lt, h0l, h0lo, _⟩ := Wf_head hwf
        simp only [hlf, vec_at_zero_of_valid hV, h0]
        exact ih c0 h0lt (by rw [h0l]; omega) (by rw [h0lo, hlo])

theorem Linked_chain {g : Ghost} {m : Mem} :
    ∀ (L : List Nat) (a : Nat) (rest : List Nat), L = a :: rest → Linked g m L →
      ∀ fuel, L.length ≤ fuel → sibling_chain fuel m a = .ok L
  | [], _, _, h, _ => by cases h
  | [a], a1, rest, h, hl => by
    cases h
    intro fuel hf
    obtain ⟨⟨n, hn, hr⟩, _⟩ := hl
    cases fuel with
    | zero => simp at hf
    | succ fuel =>
      unfold sibling_chain
      simp only [deref_eq m a n hn, hr]
  | a :: b :: tl, a1, rest, h, hl => by
    cases h
    intro fuel hf
    obtain ⟨⟨n, hn, hr⟩, _, hrest⟩ := hl
    cases fuel with
    | zero => simp at hf
    | succ fuel =>
      unfold sibling_chain
      simp only [deref_eq m a n hn, hr]
      rw [Linked_chain (b :: tl) b tl rfl hrest fuel (by simp at hf ⊢; omega)]

theorem nodup_length_le {L : List Nat} {n : Nat} (hn : L.Nodup) (hlt : ∀ a ∈ L, a < n) :
    L.length ≤ n := by
  have hsub : L ⊆ List.range n := fun a ha => List.mem_range.2 (hlt a ha)
  have := (List.subperm_of_subset hn hsub).length_le
  simpa using this

theorem node_keys_eq {m : Mem} {a : Nat} {n : DataNode_t} (h : m.nodes[a]? = some n) :
    node_keys m a = n.valid.map (fun e => e.get1) := by
  simp [node_keys, h, DataNode_t.valid]

/-- The keys along a linked run of leaves ascend strictly and stay at or
above the lower bound of the first leaf. -/
theorem Linked_keys_sorted {cap : Nat} {g : Ghost} {D : Int → Option Nat → Prop}
    {m : Mem} :
    ∀ (L : List Nat), Linked g m L →
      (∀ a ∈ L, ∃ n, m.nodes[a]? = some n ∧ g.lvl a = 0 ∧
        NodeInv cap g m.nodes.length D a n) →
      (chain_keys m L).Pairwise (· < ·) ∧
        ∀ a rest, L = a :: rest → ∀ k ∈ chain_keys m L, ∀ x, g.lo a = some x → x ≤ k
  | [], h, _ => by simp [Linked] at h
  | [a], _, hall => by
    obtain ⟨n, hn, hl, hinv⟩ := hall a (by simp)
    obtain ⟨_, hleaf⟩ := hinv.2.2.2.2.1 hl
    simp only [chain_keys, List.append_nil, node_keys_eq hn]
    refine ⟨?_, ?_⟩
    · rw [List.pairwise_map]; exact hleaf.2
    · intro a1 rest h k hk x hx
      cases h
      rw [List.mem_map] at hk
      obtain ⟨e, he, rfl⟩ := hk
      exact (hleaf.1 e he).2.2.1.1 x hx
  | a :: b :: tl, hlk, hall => by
    obtain ⟨n, hn, hl, hinv⟩ := hall a (by simp)
    obtain ⟨_, hleaf⟩ := hinv.2.2.2.2.1 hl
    obtain ⟨_, ⟨v, hv1, hv2⟩, hrest⟩ := hlk
    obtain ⟨ih1, ih2⟩ := Linked_keys_sorted (b :: tl) hrest (fun c hc => hall c (by simp [hc]))
    have hkeys : chain_keys m (a :: b :: tl)
        = n.valid.map (fun e => e.get1) ++ chain_keys m (b :: tl) := by
      simp only [chain_keys, node_keys_eq hn]
    rw [hkeys]
    refine ⟨?_, ?_⟩
    · rw [List.pairwise_append]
      refine ⟨by rw [List.pairwise_map]; exact hleaf.2, ih1, ?_⟩
      intro x hx y hy
      rw [List.mem_map] at hx
      obtain ⟨e, he, rfl⟩ := hx
      have h1 := (hleaf.1 e he).2.2.1.2 v hv1
      have h2 := ih2 b tl rfl y hy v hv2
      omega
    · intro a1 rest h k hk x hx
      cases h
      rw [List.mem_append] at hk
      rcases hk with hk | hk
      · rw [List.mem_map] at hk
        obtain ⟨e, he, rfl⟩ := hk
        exact (hleaf.1 e he).2.2.1.1 x hx
      · have h2 := ih2 b tl rfl k hk v hv2
        have hb := hinv.2.2.2.1
        rw [hx, hv1] at hb
        simp only [Blt] at hb
        omega

theorem mem_chain_keys {m : Mem} : ∀ (L : List Nat) (k : Int),
    k ∈ chain_keys m L ↔ ∃ a ∈ L, ∃ n, m.nodes[a]? = some n ∧ ∃ e ∈ n.valid, e.get1 = k
  | [], k => by simp [chain_keys]
  | a :: rest, k => by
    simp only [chain_keys, List.mem_append, mem_chain_keys rest k, List.mem_cons]
    constructor
    · rintro (h | ⟨b, hb, h⟩)
      · refine ⟨a, Or.inl rfl, ?_⟩
        cases hn : m.nodes[a]? with
        | none => simp [node_keys, hn] at h
        | some n =>
          rw [node_keys_eq hn, List.mem_map] at h
          obtain ⟨e, he, hek⟩ := h
          exact ⟨n, rfl, e, he, hek⟩
      · exact ⟨b, Or.inr hb, h⟩
    · rintro ⟨b, hb | hb, n, hn, e, he, hek⟩
      · subst hb
        left
        rw [node_keys_eq hn, List.mem_map]
        exact ⟨e, he, hek⟩
      · exact Or.inr ⟨b, hb, n, hn, e, he, hek⟩

theorem InB_none_common (u u1 : Option Int) : ∃ z, InB none u z ∧ InB none u1 z := by
  cases u with
  | none =>
    cases u1 with
    | none => exact ⟨0, by simp [InB], by simp [InB]⟩
    | some b => exact ⟨b - 1, by simp [InB], by simp [InB]⟩
  | some a =>
    cases u1 with
    | none => exact ⟨a - 1, by simp [InB], by simp [InB]⟩
    | some b =>
      refine ⟨min a b - 1, ?_, ?_⟩
      · simp only [InB]
        exact ⟨fun _ h => (by cases h), fun x hx => (by cases hx; omega)⟩
      · simp only [InB]
        exact ⟨fun _ h => (by cases h), fun x hx => (by cases hx; omega)⟩

theorem STree.leaves_spec {D : Int → Option Nat → Prop} {t : BTree} (ht : STree D t) :
    ∃ ns, t.leaves = .ok ns ∧ ns.Nodup ∧
      (∀ a ∈ ns, ∃ n, t.mem.nodes[a]? = some n ∧ n.m_is_leaf = true) ∧
      (chain_keys t.mem ns).Pairwise (· < ·) ∧
      ∀ k, k ∈ chain_keys t.mem ns ↔ ∃ p, D k p := by
  obtain ⟨g, Lc, hS, hroot, hlr, hlo, hhi, hdep, _⟩ := ht
  obtain ⟨hlk, hnd, hmem, hhead⟩ := hS.chain
  obtain ⟨a, ha, halt, hal, halo⟩ :=
    hS.leftmost t.fuel t.m_root hroot (by simp only [BTree.fuel]; omega) hlo
  have hlen : Lc.length ≤ t.fuel := by
    have := nodup_length_le hnd (fun x hx => ((hmem x).1 hx).1)
    simp only [BTree.fuel]; omega
  have hnode : ∀ x ∈ Lc, ∃ n, t.mem.nodes[x]? = some n ∧ g.lvl x = 0 ∧
      NodeInv t.m_max_entries g t.mem.nodes.length D x n := by
    intro x hx
    obtain ⟨hxlt, hxl⟩ := (hmem x).1 hx
    exact ⟨t.mem.nodes[x], List.getElem?_eq_getElem hxlt, hxl,
      hS.nodes x _ (List.getElem?_eq_getElem hxlt)⟩
  cases hLc : Lc with
  | nil => rw [hLc] at hlk; simp [Linked] at hlk
  | cons x xs =>
    have hxLc : x ∈ Lc := by rw [hLc]; simp
    obtain ⟨hxlt, hxl⟩ := (hmem x).1 hxLc
    have hxlo : g.lo x = none := hhead x (by rw [hLc]; rfl)
    have hax : a = x := by
      obtain ⟨z, hz1, hz2⟩ := InB_none_common (g.hi a) (g.hi x)
      exact hS.apart a x halt hxlt (by rw [hal, hxl]) z (by rw [halo]; exact hz1)
        (by rw [hxlo]; exact hz2)
    have hchain := Linked_chain Lc x xs hLc hlk t.fuel hlen
    refine ⟨Lc, ?_, hnd, ?_, (Linked_keys_sorted Lc hlk hnode).1, ?_⟩
    · simp only [BTree.leaves, ha, hax, hchain]
    · intro y hy
      obtain ⟨n, hn, hl, hinv⟩ := hnode y hy
      exact ⟨n, hn, (hinv.2.2.2.2.1 hl).1⟩
    · intro k
      rw [mem_chain_keys]
      constructor
      · rintro ⟨y, hy, n, hn, e, he, hek⟩
        obtain ⟨n1, hn1, hl, hinv⟩ := hnode y hy
        rw [hn] at hn1; cases hn1
        exact ⟨e.get2, hek ▸ ((hinv.2.2.2.2.1 hl).2.1 e he).2.2.2⟩
      · rintro ⟨p, hp⟩
        obtain ⟨j, nj, hj, hjl, e, he, hek, _⟩ := hS.stored k p hp
        exact ⟨j, (hmem j).2 ⟨getElem?_lt hj, hjl⟩, nj, hj, e, he, hek⟩

theorem STree.leaf_keys_spec {D : Int → Option Nat → Prop} {t : BTree} (ht : STree D t)
    (keys : List Int) (hnd : keys.Nodup) (hkeys : ∀ k, k ∈ keys ↔ ∃ p, D k p) :
    ∃ ns, t.leaves = .ok ns ∧ ns.Nodup ∧
      (∀ a ∈ ns, ∃ n, t.mem.nodes[a]? = some n ∧ n.m_is_leaf = true) ∧
      t.leaf_keys = .ok (chain_keys t.mem ns) ∧
      (chain_keys t.mem ns).Pairwise (· < ·) ∧ (chain_keys t.mem ns).Perm keys := by
  obtain ⟨ns, h1, h2, h3, h4, h5⟩ := ht.leaves_spec
  refine ⟨ns, h1, h2, h3, by simp [BTree.leaf_keys, h1], h4, ?_⟩
  have hnd2 : (chain_keys t.mem ns).Nodup := h4.imp (fun h => ne_of_lt h)
  rw [List.perm_ext_iff_of_nodup hnd2 hnd]
  intro k
  rw [h5 k, hkeys k]

theorem lookup_cons (key : Int) (e : data_entry) (es : List data_entry) :
    lookup key (e :: es) = if key = e.get1 then e.get2 else lookup key es := rfl

theorem lookup_ins_spec (key : Int) (e : data_entry) : ∀ (V : List data_entry),
    lookup key (ins_spec e V) = if key = e.get1 then e.get2 else lookup key V
  | [] => by simp [ins_spec, lookup]
  | x :: xs => by
    rw [ins_spec_cons]
    by_cases hk : e.get1 ≤ x.get1
    · rw [if_pos hk]
      simp only [lookup_cons]
    · rw [if_neg hk, lookup_cons, lookup_ins_spec key e xs, lookup_cons]
      have hx : (if pos e.get1 xs = 0 then { x with get3 := e.get0 } else x).get1 = x.get1 := by
        split_ifs <;> rfl
      have hx2 : (if pos e.get1 xs = 0 then { x with get3 := e.get0 } else x).get2 = x.get2 := by
        split_ifs <;> rfl
      rw [hx, hx2]
      by_cases h1 : key = x.get1
      · have : ¬ key = e.get1 := by omega
        rw [if_pos h1, if_neg this, if_pos h1]
      · rw [if_neg h1, if_neg h1]

theorem ins_spec_null (e : data_entry) (h0 : e.get0 = none) (h3 : e.get3 = none)
    (V : List data_entry) (hV : ∀ x ∈ V, x.get0 = none ∧ x.get3 = none) :
    ∀ y ∈ ins_spec e V, y.get0 = none ∧ y.get3 = none := by
  intro y hy
  rcases mem_ins_spec e V y hy with rfl | ⟨x, hx, _, _, h00, h33⟩
  · exact ⟨h0, h3⟩
  · constructor
    · rcases h00 with h | h <;> rw [h]
      · exact (hV x hx).1
      · exact h3
    · rcases h33 with h | h <;> rw [h]
      · exact (hV x hx).2
      · exact h0

theorem OneLeaf.insert_leaf {t : BTree} {n : DataNode_t} (h : OneLeaf t n)
    (hnum : n.m_num_entries < t.m_max_entries) (key : Int) (data : Option Nat) :
    ∃ t1, t.insert key data = .ok (true, t1) ∧
      OneLeaf t1 (n.inserted ⟨none, key, data, none⟩) ∧
      t1.m_max_entries = t.m_max_entries := by
  have hroot : t.mem.nodes[t.m_root]? = some n := by rw [h.nodes, h.root]; rfl
  have hnf : n.is_full = false := by
    simp only [DataNode_t.is_full, decide_eq_false_iff_not, not_le, h.max]; exact hnum
  have hnew_entry : ({ data_entry.default with get1 := key, get2 := data } : data_entry)
      = ⟨none, key, data, none⟩ := rfl
  have hfuel : t.fuel = 1 + 1 := by simp [BTree.fuel, h.nodes]
  unfold BTree.insert
  rw [hnew_entry, hfuel]
  unfold insert_recursive
  simp only [deref_eq _ _ _ hroot, next_eq n key h.bound, route_leaf key n.valid h.null, hnf,
    call_insert_eq _ _ _ _ hroot h.bound]
  refine ⟨_, rfl, ?_, rfl⟩
  exact
    { nodes := by simp [h.nodes, h.root]
      root := h.root
      max := h.max
      bound := by
        rw [inserted_length _ _ h.bound]
        simp only [DataNode_t.inserted]; have := h.bound; omega
      null := by
        rw [inserted_valid _ _ h.bound]
        exact ins_spec_null _ rfl rfl _ h.null }

theorem OneLeaf.retrieve {t : BTree} {n : DataNode_t} (h : OneLeaf t n) (key : Int) :
    t.retrieve key = .ok (lookup key n.valid) := by
  have hroot : t.mem.nodes[t.m_root]? = some n := by rw [h.nodes, h.root]; rfl
  have hfuel : t.fuel = 1 + 1 := by simp [BTree.fuel, h.nodes]
  unfold BTree.retrieve
  rw [hfuel]
  unfold retrieve_recursive
  simp only [deref_eq _ _ _ hroot, next_eq n key h.bound, route_leaf key n.valid h.null,
    retrieve_eq n key h.bound]

theorem OneLeaf.insert_all_leaf (key : Int) :
    ∀ (ops : List (Int × Option Nat)) (t : BTree) (n : DataNode_t), OneLeaf t n →
      n.m_num_entries + ops.length ≤ t.m_max_entries →
      ∃ t1 n1, BTree.insert_all t ops = .ok t1 ∧ OneLeaf t1 n1 ∧
        lookup key n1.valid
          = ops.foldl (fun acc op => if op.1 = key then op.2 else acc) (lookup key n.valid)
  | [], t, n, h, _ => ⟨t, n, rfl, h, rfl⟩
  | (k, d) :: rest, t, n, h, hlen => by
    simp only [List.length_cons] at hlen
    obtain ⟨t1, h1, hl1, hc1⟩ := h.insert_leaf (by omega) k d
    obtain ⟨t2, n2, h2, hl2, hlook⟩ := OneLeaf.insert_all_leaf key rest t1 _ hl1 (by
      simp only [DataNode_t.inserted]; omega)
    refine ⟨t2, n2, by simp [BTree.insert_all, h1, h2], hl2, ?_⟩
    rw [hlook, inserted_valid _ _ h.bound, lookup_ins_spec]
    simp only [List.foldl_cons]
    congr 1
    by_cases hk : key = k
    · simp [hk]
    · have : ¬ k = key := fun h => hk h.symm
      simp [hk, this]

theorem OneLeaf.new_leaf (sizeof_entry block_size : Nat) :
    OneLeaf (BTree.new sizeof_entry block_size)
      (DataNode_t.new (block_size / sizeof_entry) true) :=
  { nodes := rfl
    root := rfl
    max := rfl
    bound := by simp [DataNode_t.new]
    null := by simp [DataNode_t.valid, DataNode_t.new] }

theorem new_insert_capacity_zero (sizeof_entry block_size : Nat)
    (h : block_size / sizeof_entry = 0) (key : Int) (data : Option Nat) :
    (BTree.new sizeof_entry block_size).insert key data = .error .out_of_range := by
  unfold BTree.insert
  simp only [BTree.new, BTree.fuel, h, List.length_singleton]
  unfold insert_recursive
  simp [Mem.deref, DataNode_t.new, DataNode_t.next, DataNode_t.is_full, split, Mem.alloc,
    vec_resize, vec_at]

theorem pair_ins_spec (p : data_entry) : ∀ (V : List data_entry),
    (ins_spec p V).map data_entry.pair
      = (V.map data_entry.pair).take (pos p.get1 V)
        ++ p.pair :: (V.map data_entry.pair).drop (pos p.get1 V)
  | [] => by simp [ins_spec, pos]
  | x :: xs => by
    rw [ins_spec_cons]
    by_cases hk : p.get1 ≤ x.get1
    · simp [hk, pos, data_entry.pair]
    · have hx : (if pos p.get1 xs = 0 then { x with get3 := p.get0 } else x).pair = x.pair := by
        split_ifs <;> rfl
      simp only [hk, if_false, List.map_cons, pair_ins_spec p xs, pos, hx,
        List.take_succ_cons, List.drop_succ_cons, List.cons_append]

theorem valid_take_half {n : DataNode_t} {cap : Nat} (hnum : n.m_num_entries = cap) :
    n.valid.take (cap / 2) = n.m_entries.take (cap / 2) := by
  have : cap / 2 ≤ cap := Nat.div_le_self _ _
  simp only [DataNode_t.valid, hnum, List.take_take, Nat.min_eq_left this]

theorem valid_drop_from {n : DataNode_t} {cap : Nat} (a : Nat)
    (hnum : n.m_num_entries = cap) :
    n.valid.drop a = (n.m_entries.drop a).take (cap - a) := by
  simp only [DataNode_t.valid, hnum, List.drop_take]

theorem insert_at_append_right {α : Type} (A B : List α) (x : α) (j : Nat) :
    A ++ (B.take j ++ x :: B.drop j)
      = (A ++ B).take (A.length + j) ++ x :: (A ++ B).drop (A.length + j) := by
  rw [List.take_append, List.drop_append]
  simp

theorem insert_at_append_left {α : Type} (A B : List α) (x : α) (j : Nat)
    (hj : j ≤ A.length) :
    (A.take j ++ x :: A.drop j) ++ B = (A ++ B).take j ++ x :: (A ++ B).drop j := by
  rw [List.take_append_of_le_length hj, List.drop_append_of_le_length hj]
  simp

theorem inb_iff (l u : Option Int) (k : Int) : inb l u k = true ↔ InB l u k := by
  cases l <;> cases u <;> simp [inb, InB]

theorem kids_length (V : List data_entry) : (kids V).length ≤ V.length + 1 := by
  have h1 : (V.filterMap (fun e => e.get3)).length ≤ V.length := List.length_filterMap_le _ _
  cases V with
  | nil => simp [kids]
  | cons e rest =>
    simp only [kids, List.length_append, List.length_cons] at h1 ⊢
    cases e.get0 <;> simp <;> omega

theorem kids_isChild (V : List data_entry) (c : Nat) (h : c ∈ kids V) : IsChild V c := by
  simp only [kids, List.mem_append, List.mem_filterMap] at h
  rcases h with h | ⟨e, he, hc⟩
  · cases V with
    | nil => simp at h
    | cons e rest =>
      simp only [Option.mem_toList, Option.mem_def] at h
      exact ⟨e, by simp, Or.inl h⟩
  · exact ⟨e, he, Or.inr hc⟩

theorem Wf_kids {g : Ghost} {len h : Nat} :
    ∀ (V : List data_entry) (l u : Option Int), Wf g len h l V u →
      ∀ c, IsChild V c → c ∈ kids V
  | [], _, _, hw => by simp [Wf] at hw
  | [e], _, _, _ => by
    rintro c ⟨y, hy, hyc⟩
    simp only [List.mem_singleton] at hy
    subst hy
    simp only [kids, List.mem_append, Option.mem_toList, Option.mem_def, List.mem_filterMap,
      List.mem_singleton, exists_eq_left]
    exact hyc
  | e :: e2 :: rest, l, u, hw => by
    obtain ⟨_, hadj, hrest⟩ := hw
    have ih := Wf_kids (e2 :: rest) _ _ hrest
    rintro c ⟨y, hy, hyc⟩
    have hright : ∀ z ∈ e :: e2 :: rest, z.get3 = some c → c ∈ kids (e :: e2 :: rest) := by
      intro z hz hzc
      simp only [kids, List.mem_append, List.mem_filterMap]
      exact Or.inr ⟨z, hz, hzc⟩
    simp only [List.mem_cons] at hy
    rcases hy with rfl | hy
    · rcases hyc with hyc | hyc
      · simp only [kids, List.mem_append, Option.mem_toList, Option.mem_def]
        exact Or.inl hyc
      · exact hright y (by simp) hyc
    · have := ih c ⟨y, by simp only [List.mem_cons]; exact hy, hyc⟩
      simp only [kids, List.mem_append, Option.mem_toList, Option.mem_def,
        List.mem_filterMap] at this
      rcases this with h0 | ⟨z, hz, hzc⟩
      · exact hright e (by simp) (by rw [hadj]; exact h0)
      · exact hright z (List.mem_cons_of_mem _ hz) hzc

theorem countP_split (P Q : Int → Bool) : ∀ (K : List Int),
    K.countP P ≤ K.countP Q + K.countP (fun k => P k && !Q k)
  | [] => by simp
  | k :: K => by
    have ih := countP_split P Q K
    simp only [List.countP_cons]
    cases P k <;> cases Q k <;> simp <;> omega

/-- Keys that all fall under one of the nodes `Cs`, each of which takes at
most `B` of them, are at most `|Cs| * B`. -/
theorem countP_cover (K : List Int) (Q : Nat → Int → Bool) (B : Nat) :
    ∀ (Cs : List Nat) (P : Int → Bool),
      (∀ k ∈ K, P k = true → ∃ c ∈ Cs, Q c k = true) →
      (∀ c ∈ Cs, K.countP (Q c) ≤ B) → K.countP P ≤ Cs.length * B
  | [], P, hcov, _ => by
    have : K.countP P = 0 := by
      rw [List.countP_eq_zero]
      intro k hk hP
      obtain ⟨c, hc, _⟩ := hcov k hk hP
      simp at hc
    simp [this]
  | c :: Cs, P, hcov, hB => by
    have h1 := countP_split P (Q c) K
    have h2 := hB c (by simp)
    have h3 := countP_cover K Q B Cs (fun k => P k && !Q c k) (by
      intro k hk hP
      simp only [Bool.and_eq_true, Bool.not_eq_true', Bool.not_eq_eq_eq_not] at hP
      obtain ⟨c1, hc1, hq⟩ := hcov k hk hP.1
      simp only [List.mem_cons] at hc1
      rcases hc1 with rfl | hc1
      · rw [hq] at hP; simp at hP
      · exact ⟨c1, hc1, hq⟩) (fun c1 hc1 => hB c1 (by simp [hc1]))
    simp only [List.length_cons]
    calc K.countP P ≤ K.countP (Q c) + K.countP (fun k => P k && !Q c k) := h1
      _ ≤ B + Cs.length * B := by omega
      _ = (Cs.length + 1) * B := by ring

theorem SInv.node_count_le {cap : Nat} {g : Ghost} {D : Int → Option Nat → Prop} {m : Mem}
    {Lc : List Nat} (hS : SInv cap g D m Lc) (K : List Int) (hK : K.Nodup)
    (hKD : ∀ k ∈ K, ∃ p, D k p) :
    ∀ (h i : Nat), i < m.nodes.length → g.lvl i = h →
      K.countP (inb (g.lo i) (g.hi i)) ≤ cap * (cap + 1) ^ h := by
  intro h
  induction h with
  | zero =>
    intro i hi hl
    have hn := hS.nodes i _ (List.getElem?_eq_getElem hi)
    obtain ⟨_, hleaf⟩ := hn.2.2.2.2.1 hl
    have hsub : K.filter (inb (g.lo i) (g.hi i)) ⊆ (m.nodes[i]).valid.map (fun e => e.get1) := by
      intro k hk
      rw [List.mem_filter] at hk
      obtain ⟨p, hp⟩ := hKD k hk.1
      obtain ⟨j, nj, hj, hjl, e, he, hek, _⟩ := hS.stored k p hp
      have hjin : InB (g.lo j) (g.hi j) k := by
        have := ((hS.nodes j nj hj).2.2.2.2.1 hjl).2.1 e he
        rw [hek] at this; exact this.2.2.1
      have hji : j = i := hS.apart j i (getElem?_lt hj) hi (by rw [hjl, hl]) k hjin
        ((inb_iff _ _ _).1 hk.2)
      subst hji
      rw [List.getElem?_eq_getElem hi] at hj
      cases hj
      exact List.mem_map.2 ⟨e, he, hek⟩
    have hlen := (List.subperm_of_subset (hK.filter _) hsub).length_le
    rw [List.countP_eq_length_filter]
    have hv : ((m.nodes[i]).valid.map (fun e => e.get1)).length ≤ cap := by
      have := hn.2.1
      simp only [List.length_map, DataNode_t.valid, List.length_take]
      omega
    simp only [pow_zero, mul_one]
    omega
  | succ h ih =>
    intro i hi hl
    have hn := hS.nodes i _ (List.getElem?_eq_getElem hi)
    obtain ⟨_, hwf⟩ := hn.2.2.2.2.2 h hl
    have hcov := countP_cover K (fun c => inb (g.lo c) (g.hi c)) (cap * (cap + 1) ^ h)
      (kids (m.nodes[i]).valid) (inb (g.lo i) (g.hi i)) (by
        intro k _ hP
        obtain ⟨c, _, hc, hin⟩ := Wf_route k _ _ _ none hwf ((inb_iff _ _ _).1 hP)
        exact ⟨c, Wf_kids _ _ _ hwf c hc, (inb_iff _ _ _).2 hin⟩) (by
        intro c hc
        obtain ⟨hclt, hcl, _, _⟩ := Wf_child _ _ _ hwf c (kids_isChild _ c hc)
        exact ih c hclt hcl)
    have hk := kids_length (m.nodes[i]).valid
    have hv : (m.nodes[i]).valid.length ≤ cap := by
      have := hn.2.1
      simp only [DataNode_t.valid, List.length_take]
      omega
    calc K.countP (inb (g.lo i) (g.hi i))
        ≤ (kids (m.nodes[i]).valid).length * (cap * (cap + 1) ^ h) := hcov
      _ ≤ (cap + 1) * (cap * (cap + 1) ^ h) := Nat.mul_le_mul_right _ (by omega)
      _ = cap * (cap + 1) ^ (h + 1) := by ring

theorem STree.tree_count_le {D : Int → Option Nat → Prop} {t : BTree} (ht : STree D t)
    (K : List Int) (hK : K.Nodup) (hKD : ∀ k ∈ K, ∃ p, D k p) :
    K.length ≤ t.m_max_entries * (t.m_max_entries + 1) ^ t.m_depth := by
  obtain ⟨g, Lc, hS, hroot, hlr, hlo, hhi, _, _⟩ := ht
  have := hS.node_count_le K hK hKD t.m_depth t.m_root hroot hlr
  rw [hlo, hhi] at this
  have hall : K.countP (inb none none) = K.length := by
    rw [List.countP_eq_length]
    intro k _
    rfl
  rw [hall] at this
  exact this

theorem descending_keys : ∀ (n : Nat), ∀ op ∈ descending n, 1 ≤ op.1 ∧ op.1 ≤ (n : Int)
  | 0 => by simp [descending]
  | n + 1 => by
    intro op hop
    simp only [descending, List.mem_cons] at hop
    rcases hop with rfl | hop
    · simp
    · have := descending_keys n op hop
      push_cast
      omega

theorem descending_nodup : ∀ (n : Nat), ((descending n).map Prod.fst).Nodup
  | 0 => by simp [descending]
  | n + 1 => by
    simp only [descending, List.map_cons, List.nodup_cons, List.mem_map, not_exists, not_and]
    refine ⟨?_, descending_nodup n⟩
    intro op hop hk
    have := (descending_keys n op hop).2
    push_cast at hk
    omega

theorem descending_length : ∀ (n : Nat), (descending n).length = n
  | 0 => rfl
  | n + 1 => by simp [descending, descending_length n]

theorem pos_cons (key : Int) (x : data_entry) (xs : List data_entry) :
    pos key (x :: xs) = if key ≤ x.get1 then 0 else pos key xs + 1 := rfl

/-- The index `pos key V` is that of the first entry whose key is not smaller
than `key`: every entry before it has a smaller key, the entry at it has not. -/
theorem pos_first (key : Int) : ∀ (V : List data_entry),
    (∀ j x, j < pos key V → V[j]? = some x → x.get1 < key) ∧
      (∀ x, V[pos key V]? = some x → key ≤ x.get1)
  | [] => by simp [pos]
  | y :: ys => by
    obtain ⟨ih1, ih2⟩ := pos_first key ys
    rw [pos_cons]
    by_cases hk : key ≤ y.get1
    · rw [if_pos hk]
      refine ⟨fun j x hj => absurd hj (by omega), ?_⟩
      intro x hx
      simp only [List.getElem?_cons_zero, Option.some.injEq] at hx
      subst hx; exact hk
    · rw [if_neg hk]
      refine ⟨?_, ?_⟩
      · intro j x hj hx
        cases j with
        | zero =>
          simp only [List.getElem?_cons_zero, Option.some.injEq] at hx
          subst hx; omega
        | succ j =>
          simp only [List.getElem?_cons_succ] at hx
          exact ih1 j x (by omega) hx
      · intro x hx
        simp only [List.getElem?_cons_succ] at hx
        exact ih2 x hx

theorem ins_spec_at_pos (e : data_entry) : ∀ (V : List data_entry),
    (ins_spec e V)[pos e.get1 V]? = some e
  | [] => by simp [ins_spec, pos]
  | y :: ys => by
    rw [ins_spec_cons, pos_cons]
    by_cases hk : e.get1 ≤ y.get1
    · rw [if_pos hk, if_pos hk]; rfl
    · rw [if_neg hk, if_neg hk]
      simp only [List.getElem?_cons_succ]
      exact ins_spec_at_pos e ys

theorem ins_spec_before (e : data_entry) : ∀ (V : List data_entry) (j : Nat) (x : data_entry),
    j < pos e.get1 V → V[j]? = some x →
      (ins_spec e V)[j]? = some (if j + 1 = pos e.get1 V then { x with get3 := e.get0 } else x)
  | [], j, x, _, hx => by simp at hx
  | y :: ys, j, x, hj, hx => by
    rw [pos_cons] at hj ⊢
    rw [ins_spec_cons]
    by_cases hk : e.get1 ≤ y.get1
    · rw [if_pos hk] at hj; omega
    · rw [if_neg hk] at hj
      rw [if_neg hk, if_neg hk]
      cases j with
      | zero =>
        simp only [List.getElem?_cons_zero, Option.some.injEq] at hx
        subst hx
        simp only [List.getElem?_cons_zero, zero_add, add_left_eq_self]
        by_cases hp : pos e.get1 ys = 0
        · simp [hp]
        · simp [hp]
      | succ j =>
        simp only [List.getElem?_cons_succ] at hx ⊢
        rw [ins_spec_before e ys j x (by omega) hx]
        simp only [add_left_inj]

theorem ins_spec_after (e : data_entry) : ∀ (V : List data_entry) (j : Nat) (x : data_entry),
    pos e.get1 V ≤ j → V[j]? = some x →
      (ins_spec e V)[j + 1]? = some (if j = pos e.get1 V then { x with get0 := e.get3 } else x)
  | [], j, x, _, hx => by simp at hx
  | y :: ys, j, x, hj, hx => by
    rw [pos_cons] at hj ⊢
    rw [ins_spec_cons]
    by_cases hk : e.get1 ≤ y.get1
    · rw [if_pos hk, if_pos hk]
      cases j with
      | zero =>
        simp only [List.getElem?_cons_zero, Option.some.injEq] at hx
        subst hx
        simp
      | succ j =>
        simp only [List.getElem?_cons_succ] at hx ⊢
        rw [hx]
        simp
    · rw [if_neg hk] at hj
      rw [if_neg hk, if_neg hk]
      cases j with
      | zero => omega
      | succ j =>
        simp only [List.getElem?_cons_succ] at hx ⊢
        rw [ins_spec_after e ys j x (by omega) hx]
        simp only [add_left_inj]

theorem ins_spec_sorted_le (e : data_entry) : ∀ (V : List data_entry),
    V.Pairwise (fun a b => a.get1 ≤ b.get1) →
      (ins_spec e V).Pairwise (fun a b => a.get1 ≤ b.get1)
  | [], _ => by simp [ins_spec]
  | x :: xs, hs => by
    rw [List.pairwise_cons] at hs
    rw [ins_spec_cons]
    by_cases hk : e.get1 ≤ x.get1
    · rw [if_pos hk]
      refine List.pairwise_cons.2 ⟨?_, List.pairwise_cons.2 ⟨hs.1, hs.2⟩⟩
      intro y hy
      simp only [List.mem_cons] at hy
      rcases hy with rfl | hy
      · exact hk
      · have := hs.1 y hy; omega
    · rw [if_neg hk]
      have ih := ins_spec_sorted_le e xs hs.2
      refine List.pairwise_cons.2 ⟨?_, ih⟩
      intro y hy
      have hkey : (if pos e.get1 xs = 0 then { x with get3 := e.get0 } else x).get1 = x.get1 := by
        split_ifs <;> rfl
      rw [hkey]
      rcases mem_ins_spec e xs y hy with rfl | ⟨x1, hx1, h1, _⟩
      · omega
      · rw [h1]; exact hs.1 x1 hx1

theorem route_first (key : Int) : ∀ (V : List data_entry) (d : Option Nat) (i : Nat)
    (e : data_entry), V[i]? = some e → (∀ j x, j < i → V[j]? = some x → x.get1 < key) →
      key ≤ e.get1 → route key V d = if key < e.get1 then e.get0 else e.get3
  | [], _, i, e, he, _, _ => by simp at he
  | y :: ys, d, i, e, he, hlt, hk => by
    rw [route_cons]
    cases i with
    | zero =>
      simp only [List.getElem?_cons_zero, Option.some.injEq] at he
      subst he
      by_cases h1 : key < y.get1
      · rw [if_pos h1, if_pos h1]
      · rw [if_neg h1, if_neg (show ¬ y.get1 > key by omega),
          if_pos (show y.get1 = key by omega)]
    | succ i =>
      have hy := hlt 0 y (by omega) (by simp)
      simp only [List.getElem?_cons_succ] at he
      rw [if_neg (show ¬ y.get1 > key by omega), if_neg (show ¬ y.get1 = key by omega)]
      exact route_first key ys _ i e he
        (fun j x hj hx => hlt (j + 1) x (by omega) (by simpa using hx)) hk

theorem route_past (key : Int) : ∀ (V : List data_entry) (d : Option Nat) (l : data_entry),
    V.getLast? = some l → (∀ x ∈ V, x.get1 < key) → route key V d = l.get3
  | [], _, l, hl, _ => by simp at hl
  | [y], d, l, hl, hlt => by
    simp only [List.getLast?_singleton, Option.some.injEq] at hl
    subst hl
    have := hlt y (by simp)
    rw [route_cons, if_neg (show ¬ y.get1 > key by omega),
      if_neg (show ¬ y.get1 = key by omega)]
    rfl
  | y :: y2 :: ys, d, l, hl, hlt => by
    have := hlt y (by simp)
    rw [route_cons, if_neg (show ¬ y.get1 > key by omega),
      if_neg (show ¬ y.get1 = key by omega)]
    rw [List.getLast?_cons_cons] at hl
    exact route_past key (y2 :: ys) _ l hl (fun x hx => hlt x (List.mem_cons_of_mem _ hx))

theorem Shared_take {V : List data_entry} (h : Shared V) (k : Nat) : Shared (V.take k) := by
  intro i a b ha hb
  rw [List.getElem?_take] at ha hb
  split_ifs at ha hb
  exact h i a b ha hb

theorem Shared_drop {V : List data_entry} (h : Shared V) (k : Nat) : Shared (V.drop k) := by
  intro i a b ha hb
  rw [List.getElem?_drop] at ha hb
  exact h (k + i) a b ha hb

theorem Shared_ins_spec (e : data_entry) {V : List data_entry} (h : Shared V) :
    Shared (ins_spec e V) := by
  intro i a b ha hb
  have hlen := ins_spec_length e V
  have hpl := pos_le e.get1 V
  have hib : i + 1 < (ins_spec e V).length := getElem?_lt hb
  rcases Nat.lt_trichotomy i (pos e.get1 V) with hlt | heq | hgt
  · -- `a` is an old entry in front of the new one
    obtain ⟨x, hx⟩ : ∃ x, V[i]? = some x := ⟨V[i], List.getElem?_eq_getElem (by omega)⟩
    rw [ins_spec_before e V i x hlt hx] at ha
    cases ha
    by_cases h1 : i + 1 = pos e.get1 V
    · rw [h1, ins_spec_at_pos] at hb
      cases hb
      simp [h1]
    · obtain ⟨y, hy⟩ : ∃ y, V[i + 1]? = some y :=
        ⟨V[i + 1], List.getElem?_eq_getElem (by omega)⟩
      rw [ins_spec_before e V (i + 1) y (by omega) hy] at hb
      cases hb
      rw [if_neg h1]
      have := h i x y hx hy
      split_ifs <;> exact this
  · -- `a` is the new entry
    rw [heq, ins_spec_at_pos] at ha
    cases ha
    obtain ⟨y, hy⟩ : ∃ y, V[i]? = some y := ⟨V[i], List.getElem?_eq_getElem (by omega)⟩
    rw [ins_spec_after e V i y (by omega) hy, if_pos heq] at hb
    cases hb
    rfl
  · -- both are old entries behind the new one
    obtain ⟨j, rfl⟩ : ∃ j, i = j + 1 := ⟨i - 1, by omega⟩
    obtain ⟨x, hx⟩ : ∃ x, V[j]? = some x := ⟨V[j], List.getElem?_eq_getElem (by omega)⟩
    obtain ⟨y, hy⟩ : ∃ y, V[j + 1]? = some y :=
      ⟨V[j + 1], List.getElem?_eq_getElem (by omega)⟩
    rw [ins_spec_after e V j x (by omega) hx] at ha
    rw [ins_spec_after e V (j + 1) y (by omega) hy, if_neg (by omega)] at hb
    have hfin := h j x y hx hy
    cases ha; cases hb
    split_ifs <;> exact hfin

theorem route_some (key : Int) : ∀ (V : List data_entry) (d : Option Nat),
    (∀ e ∈ V, e.get0 ≠ none ∧ e.get3 ≠ none) → d ≠ none → route key V d ≠ none
  | [], d, _, hd => hd
  | y :: ys, d, h, _ => by
    have hy := h y (by simp)
    rw [route_cons]
    split_ifs
    · exact hy.1
    · exact hy.2
    · exact route_some key ys y.get3 (fun e he => h e (List.mem_cons_of_mem _ he)) hy.2

theorem route_some_of_ne_nil (key : Int) (V : List data_entry) (hV : V ≠ [])
    (h : ∀ e ∈ V, e.get0 ≠ none ∧ e.get3 ≠ none) : route key V none ≠ none := by
  cases V with
  | nil => exact absurd rfl hV
  | cons y ys =>
    have hy := h y (by simp)
    rw [route_cons]
    split_ifs
    · exact hy.1
    · exact hy.2
    · exact route_some key ys y.get3 (fun e he => h e (List.mem_cons_of_mem _ he)) hy.2

theorem valid_eq_nil_iff {n : DataNode_t} (hb : n.m_num_entries ≤ n.m_entries.length) :
    n.valid = [] ↔ n.m_num_entries = 0 := by
  constructor
  · intro h
    have : n.valid.length = 0 := by rw [h]; rfl
    simp only [DataNode_t.valid, List.length_take] at this
    omega
  · intro h
    simp [DataNode_t.valid, h]

theorem inserted_valid_ne_nil (n : DataNode_t) (e : data_entry)
    (hb : n.m_num_entries ≤ n.m_entries.length) : (n.inserted e).valid ≠ [] := by
  rw [inserted_valid n e hb]
  intro h
  have := ins_spec_length e n.valid
  rw [h] at this
  simp at this

theorem Shared_inserted {n : DataNode_t} (e : data_entry)
    (hb : n.m_num_entries ≤ n.m_entries.length) (h : Shared n.valid) :
    Shared (n.inserted e).valid := by
  rw [inserted_valid n e hb]
  exact Shared_ins_spec e h

theorem KindOK_inserted {h : Nat} {n : DataNode_t} {e : data_entry}
    (hb : n.m_num_entries ≤ n.m_entries.length) (hk : h = 0 → n.m_is_leaf = true)
    (hk2 : h ≠ 0 → n.m_is_leaf = false ∧ ∀ x ∈ n.valid, x.get0 ≠ none ∧ x.get3 ≠ none)
    (he : h ≠ 0 → e.get0 ≠ none ∧ e.get3 ≠ none) : KindOK h (n.inserted e) := by
  refine ⟨hk, fun hne => ⟨(hk2 hne).1, inserted_valid_ne_nil n e hb, ?_⟩⟩
  rw [inserted_valid n e hb]
  intro y hy
  rcases mem_ins_spec e n.valid y hy with rfl | ⟨x, hx, _, _, h0, h3⟩
  · exact he hne
  · have hx1 := (hk2 hne).2 x hx
    refine ⟨?_, ?_⟩
    · rcases h0 with h0 | h0 <;> rw [h0]
      · exact hx1.1
      · exact (he hne).2
    · rcases h3 with h3 | h3 <;> rw [h3]
      · exact hx1.2
      · exact (he hne).1

theorem Shape.call_insert_ok {cap : Nat} {lvl : Nat → Nat} {m : Mem} {p : Nat}
    {n : DataNode_t} {e : data_entry} (hw : WInv cap lvl (fun _ => True) m)
    (hs : Shape cap lvl m) (hp : m.nodes[p]? = some n) (hnf : n.is_full = false)
    (he : EntryOK lvl m.nodes.length (lvl p) (fun _ => True) e)
    (hk : 3 ≤ cap → lvl p ≠ 0 → e.get0 ≠ none ∧ e.get3 ≠ none) :
    ∃ m1, m.call_insert p e = .ok m1 ∧ WInv cap lvl (fun _ => True) m1 ∧ Shape cap lvl m1 ∧
      m1.nodes.length = m.nodes.length ∧
      ∀ i n1, m1.nodes[i]? = some n1 → n1.valid = [] → i ≠ p ∧ m.nodes[i]? = some n1 := by
  have hn := hw.2 p n hp
  have hlt := is_full_false hnf
  rw [hn.1] at hlt
  have hb : n.m_num_entries ≤ n.m_entries.length := by have := hn.2.2.1; omega
  obtain ⟨m1, hs1, hw1, hlen⟩ := hw.call_insert hp hnf he
  have h2 := call_insert_eq m p n e hp hb
  rw [h2] at hs1
  cases hs1
  refine ⟨_, h2, hw1, ?_, hlen, ?_⟩
  · intro i n1 hi
    simp only [List.getElem?_set] at hi
    split_ifs at hi with h1
    · cases hi; subst h1
      refine ⟨Shared_inserted e hb (hs _ n hp).1, fun h3 => ?_⟩
      have hkn := (hs _ n hp).2 h3
      exact KindOK_inserted hb hkn.1 (fun hne => ⟨(hkn.2 hne).1, (hkn.2 hne).2.2⟩) (hk h3)
    · exact hs i n1 hi
  · intro i n1 hi hemp
    simp only [List.getElem?_set] at hi
    split_ifs at hi with h1
    · cases hi
      exact absurd hemp (inserted_valid_ne_nil n e hb)
    · exact ⟨fun h => h1 h.symm, hi⟩

theorem Shape.split_ok {cap : Nat} {lvl : Nat → Nat} {m : Mem} {p : Nat}
    {n : DataNode_t} {e : data_entry} (lf : Bool) (hw : WInv cap lvl (fun _ => True) m)
    (hs : Shape cap lvl m) (hp : m.nodes[p]? = some n) (hf : n.is_full = true)
    (he : EntryOK lvl m.nodes.length (lvl p) (fun _ => True) e) (hcap : 2 ≤ cap)
    (hk : 3 ≤ cap → (lvl p = 0 → lf = true) ∧
      (lvl p ≠ 0 → lf = false ∧ e.get0 ≠ none ∧ e.get3 ≠ none)) :
    ∃ m1 e1, split cap m p lf e = .ok (m1, e1) ∧
      WInv cap (Function.update lvl m.nodes.length (lvl p)) (fun _ => True) m1 ∧
      Shape cap (Function.update lvl m.nodes.length (lvl p)) m1 ∧
      m1.nodes.length = m.nodes.length + 1 ∧
      e1.get0 = some p ∧ e1.get3 = some m.nodes.length ∧
      (3 ≤ cap → ∀ i n1, m1.nodes[i]? = some n1 → n1.valid = [] →
        i ≠ p ∧ m.nodes[i]? = some n1) := by
  have hn := hw.2 p n hp
  have hplt := getElem?_lt hp
  have hnum : n.m_num_entries = cap := by
    have := is_full_true hf; rw [hn.1] at this; have := hn.2.1; omega
  have hhalf : 1 ≤ cap / 2 := by omega
  have hhalf2 : cap / 2 < cap := Nat.div_lt_self (by omega) (by omega)
  have hfrom2 : split_from cap lf ≤ cap / 2 + 1 := by unfold split_from; split <;> omega
  have hvlen : n.valid.length = cap := by
    have := hn.2.2.1
    simp only [DataNode_t.valid, List.length_take]; omega
  obtain ⟨m1, e1, hs1, hw1, hlen, hg0, hg3, _, _⟩ := hw.split lf hp hf he hcap
  obtain ⟨mid, _, hs2⟩ := split_eq cap m p lf e n hp (by omega) hn.2.2.1
  rw [hs2] at hs1
  cases hs1
  have hLv : (split_left cap m.nodes.length n).valid = n.valid.take (cap / 2) := by
    rw [split_left_valid, valid_take_half hnum]
  have hRv : (split_right cap lf n).valid = n.valid.drop (split_from cap lf) := by
    rw [split_right_valid, valid_drop_from _ hnum]
  have hLb : (split_left cap m.nodes.length n).m_num_entries
      ≤ (split_left cap m.nodes.length n).m_entries.length := by
    simp only [split_left, vec_resize_length, List.length_take]; omega
  have hRb : (split_right cap lf n).m_num_entries
      ≤ (split_right cap lf n).m_entries.length := by
    simp only [split_right, vec_resize_length, List.length_take]; omega
  have hLs : Shared (split_left cap m.nodes.length n).valid := by
    rw [hLv]; exact Shared_take (hs _ n hp).1 _
  have hRs : Shared (split_right cap lf n).valid := by
    rw [hRv]; exact Shared_drop (hs _ n hp).1 _
  have hLne : (split_left cap m.nodes.length n).valid ≠ [] := by
    intro h0
    have : (split_left cap m.nodes.length n).valid.length = 0 := by rw [h0]; rfl
    rw [hLv, List.length_take] at this
    omega
  have hRne : 3 ≤ cap → (split_right cap lf n).valid ≠ [] := by
    intro h3 h0
    have : (split_right cap lf n).valid.length = 0 := by rw [h0]; rfl
    rw [hRv, List.length_drop] at this
    omega
  set lvl1 := Function.update lvl m.nodes.length (lvl p) with hlvl1
  have hl1 : ∀ i, i < m.nodes.length → lvl1 i = lvl i := by
    intro i hi
    simp [hlvl1, Function.update, Nat.ne_of_lt hi]
  have hl1n : lvl1 m.nodes.length = lvl p := by simp [hlvl1]
  -- the kind of the two halves
  have hLk1 : 3 ≤ cap → lvl p = 0 → (split_left cap m.nodes.length n).m_is_leaf = true :=
    fun h3 h0 => ((hs _ n hp).2 h3).1 h0
  have hLk2 : 3 ≤ cap → lvl p ≠ 0 → (split_left cap m.nodes.length n).m_is_leaf = false ∧
      ∀ x ∈ (split_left cap m.nodes.length n).valid, x.get0 ≠ none ∧ x.get3 ≠ none := by
    intro h3 hne
    obtain ⟨hl, _, hptr⟩ := ((hs _ n hp).2 h3).2 hne
    refine ⟨hl, ?_⟩
    rw [hLv]
    exact fun x hx => hptr x (List.mem_of_mem_take hx)
  have hRk1 : 3 ≤ cap → lvl p = 0 → (split_right cap lf n).m_is_leaf = true :=
    fun h3 h0 => (hk h3).1 h0
  have hRk2 : 3 ≤ cap → lvl p ≠ 0 → (split_right cap lf n).m_is_leaf = false ∧
      ∀ x ∈ (split_right cap lf n).valid, x.get0 ≠ none ∧ x.get3 ≠ none := by
    intro h3 hne
    obtain ⟨_, _, hptr⟩ := ((hs _ n hp).2 h3).2 hne
    refine ⟨((hk h3).2 hne).1, ?_⟩
    rw [hRv]
    exact fun x hx => hptr x (List.mem_of_mem_drop hx)
  have hek : 3 ≤ cap → lvl p ≠ 0 → e.get0 ≠ none ∧ e.get3 ≠ none :=
    fun h3 hne => ((hk h3).2 hne).2
  have hLK : 3 ≤ cap → KindOK (lvl p) (split_left cap m.nodes.length n) :=
    fun h3 => ⟨hLk1 h3, fun hne => ⟨(hLk2 h3 hne).1, hLne, (hLk2 h3 hne).2⟩⟩
  have hRK : 3 ≤ cap → KindOK (lvl p) (split_right cap lf n) :=
    fun h3 => ⟨hRk1 h3, fun hne => ⟨(hRk2 h3 hne).1, hRne h3, (hRk2 h3 hne).2⟩⟩
  have hLiK : 3 ≤ cap → KindOK (lvl p) ((split_left cap m.nodes.length n).inserted e) :=
    fun h3 => KindOK_inserted hLb (hLk1 h3) (hLk2 h3) (hek h3)
  have hRiK : 3 ≤ cap → KindOK (lvl p) ((split_right cap lf n).inserted e) :=
    fun h3 => KindOK_inserted hRb (hRk1 h3) (hRk2 h3) (hek h3)
  have key : ∀ (a b : DataNode_t), Shared a.valid → Shared b.valid →
      (3 ≤ cap → KindOK (lvl p) a) → (3 ≤ cap → KindOK (lvl p) b) →
      ∀ i n1, (m.nodes.set p a ++ [b])[i]? = some n1 →
        Shared n1.valid ∧ (3 ≤ cap → KindOK (lvl1 i) n1) := by
    intro a b ha hb hak hbk i n1 hi
    rcases getElem?_set_append_cases _ _ _ _ _ _ hplt hi with ⟨rfl, rfl⟩ | ⟨rfl, rfl⟩ | ⟨h1, _, h3⟩
    · rw [hl1 _ hplt]; exact ⟨ha, hak⟩
    · rw [hl1n]; exact ⟨hb, hbk⟩
    · rw [hl1 _ h1]; exact hs i n1 h3
  have key2 : ∀ (a b : DataNode_t), a.valid ≠ [] → b.valid ≠ [] →
      ∀ i n1, (m.nodes.set p a ++ [b])[i]? = some n1 → n1.valid = [] →
        i ≠ p ∧ m.nodes[i]? = some n1 := by
    intro a b ha hb i n1 hi hemp
    rcases getElem?_set_append_cases _ _ _ _ _ _ hplt hi with ⟨rfl, rfl⟩ | ⟨rfl, rfl⟩ | ⟨_, h2, h3⟩
    · exact absurd hemp ha
    · exact absurd hemp hb
    · exact ⟨h2, h3⟩
  refine ⟨_, _, hs2, hw1, ?_, hlen, hg0, hg3, ?_⟩
  · intro i n1 hi
    simp only at hi
    split_ifs at hi with hlt
    · exact key _ _ hLs (Shared_inserted e hRb hRs) hLK hRiK i n1 hi
    · exact key _ _ (Shared_inserted e hLb hLs) hRs hLiK hRK i n1 hi
  · intro h3 i n1 hi hemp
    simp only at hi
    split_ifs at hi with hlt
    · exact key2 _ _ hLne (inserted_valid_ne_nil _ e hRb) i n1 hi hemp
    · exact key2 _ _ (inserted_valid_ne_nil _ e hLb) (hRne h3) i n1 hi hemp

theorem is_full_num {cap : Nat} {lvl : Nat → Nat} {len : Nat} {S : Int → Prop} {i : Nat}
    {n : DataNode_t} (hn : NodeOK cap lvl len S i n) (hf : n.is_full = true) :
    n.m_num_entries = cap := by
  have := is_full_true hf
  rw [hn.1] at this
  have := hn.2.1
  omega

theorem call_insert_frame {m m1 : Mem} {p : Nat} {n : DataNode_t} {e : data_entry}
    (hp : m.nodes[p]? = some n) (hb : n.m_num_entries ≤ n.m_entries.length)
    (hs : m.call_insert p e = .ok m1) :
    ∀ i, i ≠ p → m1.nodes[i]? = m.nodes[i]? := by
  rw [call_insert_eq m p n e hp hb] at hs
  cases hs
  intro i hi
  simp only
  exact getElem?_set_ne' _ _ _ _ (Ne.symm hi)

theorem split_frame {cap : Nat} {m m1 : Mem} {p : Nat} {n : DataNode_t} {e e1 : data_entry}
    {lf : Bool} (hp : m.nodes[p]? = some n) (hcap : 2 ≤ cap)
    (hnum : n.m_num_entries = cap) (hlen : cap ≤ n.m_entries.length)
    (hs : split cap m p lf e = .ok (m1, e1)) :
    (∀ i, i < m.nodes.length → i ≠ p → m1.nodes[i]? = m.nodes[i]?) ∧
      ∃ mid X, n.valid[cap / 2]? = some mid ∧ e1.get1 = mid.get1 ∧
        m1.nodes[p]? = some X ∧ X.m_right = some m.nodes.length := by
  have hplt := getElem?_lt hp
  have hhalf2 : cap / 2 < cap := Nat.div_lt_self (by omega) (by omega)
  obtain ⟨mid, hmid, hs2⟩ := split_eq cap m p lf e n hp (by omega) hlen
  rw [hs2] at hs
  cases hs
  have hmidV : n.valid[cap / 2]? = some mid := by
    simp only [DataNode_t.valid, hnum, List.getElem?_take, hhalf2, if_true, hmid]
  by_cases hk : mid.get1 < e.get1
  · simp only [hk, if_true]
    exact ⟨fun i hi hne => getElem?_set_append_old _ _ _ _ _ hi hne,
      mid, _, hmidV, rfl, getElem?_set_append_at _ _ _ _ hplt, rfl⟩
  · simp only [hk, if_false]
    exact ⟨fun i hi hne => getElem?_set_append_old _ _ _ _ _ hi hne,
      mid, _, hmidV, rfl, getElem?_set_append_at _ _ _ _ hplt, rfl⟩

theorem Shape.insert_recursive_shape {cap : Nat} (hcap : 2 ≤ cap) (key : Int)
    (data : Option Nat) :
    ∀ (fuel : Nat) (m : Mem) (curr : Nat) (entry : data_entry) (lvl : Nat → Nat),
      WInv cap lvl (fun _ => True) m → Shape cap lvl m → curr < m.nodes.length →
      lvl curr < fuel → entry.get0 = none → entry.get3 = none →
      ∃ b m1 e1 lvl1, insert_recursive cap fuel m curr key data entry = .ok (b, m1, e1) ∧
        WInv cap lvl1 (fun _ => True) m1 ∧ Shape cap lvl1 m1 ∧
        m.nodes.length ≤ m1.nodes.length ∧
        (∀ i, i < m.nodes.length → lvl1 i = lvl i) ∧
        (b = true → e1.get0 = some curr ∧
          ∃ r, e1.get3 = some r ∧ r < m1.nodes.length ∧ lvl1 r = lvl curr) ∧
        (3 ≤ cap → ∀ i n1, m1.nodes[i]? = some n1 → n1.valid = [] →
          i ≠ curr ∧ m.nodes[i]? = some n1) ∧
        (∀ i, i < m.nodes.length → lvl curr < lvl i → m1.nodes[i]? = m.nodes[i]?) ∧
        (b = true → ∃ n0 mid X, m.nodes[curr]? = some n0 ∧ n0.valid[cap / 2]? = some mid ∧
          e1.get1 = mid.get1 ∧ e1.get3 = some (m1.nodes.length - 1) ∧
          m.nodes.length < m1.nodes.length ∧ m1.nodes[curr]? = some X ∧
          X.m_right = some (m1.nodes.length - 1)) := by
  intro fuel
  induction fuel with
  | zero => intro m curr entry lvl _ _ _ h; omega
  | succ fuel ih =>
    intro m curr entry lvl hw hsh hcurr hfuel h0 h3
    obtain ⟨c, hc⟩ : ∃ c, m.nodes[curr]? = some c :=
      ⟨m.nodes[curr], List.getElem?_eq_getElem hcurr⟩
    have hn := hw.2 curr c hc
    have hb : c.m_num_entries ≤ c.m_entries.length := by
      have := hn.2.1; have := hn.2.2.1; omega
    have hnext := next_eq c key hb
    have hentry : ∀ h, EntryOK lvl m.nodes.length h (fun _ => True) entry :=
      fun h => ⟨(by intro x hx; rw [h0] at hx; cases hx),
        (by intro x hx; rw [h3] at hx; cases hx), trivial⟩
    unfold BPlusTree.insert_recursive
    simp only [deref_eq m curr c hc, hnext]
    cases hr : route key c.valid none with
    | none =>
      simp only
      have hlvl0 : 3 ≤ cap → lvl curr = 0 := by
        intro h3c
        by_contra hne
        obtain ⟨_, hv, hptr⟩ := ((hsh _ c hc).2 h3c).2 hne
        exact route_some_of_ne_nil key c.valid hv hptr hr
      cases hfull : c.is_full with
      | true =>
        obtain ⟨m1, e1, hs, hw1, hsh1, hlen, hg0, hg3, hemp⟩ :=
          hsh.split_ok true hw hc hfull (hentry _) hcap
            (fun h3c => ⟨fun _ => rfl, fun hne => absurd (hlvl0 h3c) hne⟩)
        obtain ⟨hfr, mid, X, hmid, hk1, hX, hXr⟩ :=
          split_frame hc hcap (is_full_num hn hfull) hn.2.2.1 hs
        simp only [hs, if_true]
        refine ⟨true, m1, e1, _, rfl, hw1, hsh1, by omega, ?_, ?_, hemp, ?_, ?_⟩
        · intro i hi; simp [Function.update, Nat.ne_of_lt hi]
        · intro _
          exact ⟨hg0, m.nodes.length, hg3, by omega, by simp⟩
        · intro i hi hl
          exact hfr i hi (by rintro rfl; omega)
        · intro _
          refine ⟨c, mid, X, hc, hmid, hk1, ?_, by omega, hX, ?_⟩
          · rw [hg3, hlen]; rfl
          · rw [hXr, hlen]; rfl
      | false =>
        obtain ⟨m1, hs, hw1, hsh1, hlen, hemp⟩ :=
          hsh.call_insert_ok hw hc hfull (hentry _)
            (fun h3c hne => absurd (hlvl0 h3c) hne)
        have hfr := call_insert_frame hc hb hs
        simp only [hs]
        exact ⟨false, m1, entry, lvl, by simp, hw1, hsh1, by omega, fun _ _ => rfl,
          by simp, fun _ => hemp, fun i _ hl => hfr i (by rintro rfl; omega), by simp⟩
    | some child =>
      simp only
      have hchild : child < m.nodes.length ∧ lvl child + 1 = lvl curr := by
        rcases route_mem key c.valid none with h | ⟨x, hx, h | h⟩
        · rw [hr] at h; cases h
        · rw [hr] at h; exact (hn.2.2.2 x hx).1 child h.symm
        · rw [hr] at h; exact (hn.2.2.2 x hx).2.1 child h.symm
      have hcne : 3 ≤ cap → c.valid ≠ [] :=
        fun h3c => (((hsh _ c hc).2 h3c).2 (by omega)).2.1
      obtain ⟨b, m1, e1, lvl1, hrec, hw1, hsh1, hlen1, hl1, hb1, hemp1, hfr1, _⟩ :=
        ih m child entry lvl hw hsh hchild.1 (by omega) h0 h3
      rw [hrec]
      have hframe : ∀ i, i < m.nodes.length → lvl curr < lvl i →
          m1.nodes[i]? = m.nodes[i]? := fun i hi hl => hfr1 i hi (by omega)
      cases b with
      | false =>
        refine ⟨false, m1, e1, lvl1, rfl, hw1, hsh1, hlen1, hl1, by simp, ?_, hframe,
          by simp⟩
        intro h3c i n1 hi hempty
        obtain ⟨_, hold⟩ := hemp1 h3c i n1 hi hempty
        refine ⟨?_, hold⟩
        rintro rfl
        rw [hc] at hold
        cases hold
        exact hcne h3c hempty
      | true =>
        simp only
        obtain ⟨hg0, r, hg3, hrlt, hrl⟩ := hb1 rfl
        have hc1 : m1.nodes[curr]? = some c := by
          rw [hfr1 curr hcurr (by omega)]; exact hc
        have hn1 := hw1.2 curr c hc1
        have he1 : EntryOK lvl1 m1.nodes.length (lvl1 curr) (fun _ => True) e1 := by
          refine ⟨?_, ?_, trivial⟩
          · intro x hx
            rw [hg0] at hx; cases hx
            exact ⟨by omega, by rw [hl1 _ hchild.1, hl1 _ hcurr]; exact hchild.2⟩
          · intro x hx
            rw [hg3] at hx; cases hx
            exact ⟨hrlt, by rw [hrl, hl1 _ hcurr]; exact hchild.2⟩
        have hlc : lvl1 curr ≠ 0 := by rw [hl1 _ hcurr]; omega
        have hptr : e1.get0 ≠ none ∧ e1.get3 ≠ none := by
          rw [hg0, hg3]; simp
        simp only [deref_eq m1 curr c hc1]
        cases hfull : c.is_full with
        | true =>
          obtain ⟨m2, e2, hs, hw2, hsh2, hlen, hg0, hg3, hemp⟩ :=
            hsh1.split_ok false hw1 hc1 hfull he1 hcap
              (fun _ => ⟨fun h => absurd h hlc, fun _ => ⟨rfl, hptr⟩⟩)
          obtain ⟨hfr, mid, X, hmid, hk1, hX, hXr⟩ :=
            split_frame hc1 hcap (is_full_num hn1 hfull) hn1.2.2.1 hs
          simp only [hs, if_true]
          refine ⟨true, m2, e2, _, rfl, hw2, hsh2, by omega, ?_, ?_, ?_, ?_, ?_⟩
          · intro i hi
            have : i ≠ m1.nodes.length := by omega
            simp [Function.update, this, hl1 i hi]
          · intro _
            exact ⟨hg0, m1.nodes.length, hg3, by omega, by simp [hl1 _ hcurr]⟩
          · intro h3c i n1 hi hempty
            obtain ⟨hne, hold⟩ := hemp h3c i n1 hi hempty
            exact ⟨hne, (hemp1 h3c i n1 hold hempty).2⟩
          · intro i hi hl
            rw [hfr i (by omega) (by rintro rfl; omega)]
            exact hframe i hi hl
          · intro _
            refine ⟨c, mid, X, hc, hmid, hk1, ?_, by omega, hX, ?_⟩
            · rw [hg3, hlen]; rfl
            · rw [hXr, hlen]; rfl
        | false =>
          obtain ⟨m2, hs, hw2, hsh2, hlen, hemp⟩ :=
            hsh1.call_insert_ok hw1 hc1 hfull he1 (fun _ _ => hptr)
          have hfr := call_insert_frame hc1 hb hs
          simp only [hs]
          refine ⟨false, m2, e1, lvl1, by simp, hw2, hsh2, by omega, hl1, by simp, ?_, ?_,
            by simp⟩
          · intro h3c i n1 hi hempty
            obtain ⟨hne, hold⟩ := hemp i n1 hi hempty
            exact ⟨hne, (hemp1 h3c i n1 hold hempty).2⟩
          · intro i hi hl
            rw [hfr i (by rintro rfl; omega)]
            exact hframe i hi hl

theorem new_valid (cap : Nat) (lf : Bool) : (DataNode_t.new cap lf).valid = [] := by
  simp [DataNode_t.valid, DataNode_t.new]

theorem Shared_nil : Shared [] := by
  intro i a b ha
  simp at ha

theorem Shared_single (e : data_entry) : Shared [e] := by
  intro i a b _ hb
  simp at hb

theorem MTree.new_fresh (sizeof_entry block_size : Nat) :
    MTree True (BTree.new sizeof_entry block_size) := by
  have hone : ∀ i n, (BTree.new sizeof_entry block_size).mem.nodes[i]? = some n →
      i = 0 ∧ n = DataNode_t.new (block_size / sizeof_entry) true := by
    intro i n hi
    simp only [BTree.new] at hi
    have : i = 0 := by
      have := getElem?_lt hi
      simpa using this
    subst this
    simp at hi
    exact ⟨rfl, hi.symm⟩
  refine ⟨fun _ => 0, ⟨rfl, ?_⟩, ?_, by simp [BTree.new], rfl, by simp [BTree.new], ?_⟩
  · intro i n hi
    obtain ⟨rfl, rfl⟩ := hone i n hi
    exact new_node_ok _ _ _ _ _ _
  · intro i n hi
    obtain ⟨rfl, rfl⟩ := hone i n hi
    rw [new_valid]
    exact ⟨Shared_nil, fun _ => ⟨fun _ => rfl, fun h => absurd rfl h⟩⟩
  · intro _ i n hi _
    obtain ⟨rfl, rfl⟩ := hone i n hi
    exact ⟨trivial, rfl⟩

theorem MTree.insert_step {P : Prop} {t : BTree} (hm : MTree P t)
    (hcap : 2 ≤ t.m_max_entries) (key : Int) (data : Option Nat) :
    ∃ t1, t.insert key data = .ok (true, t1) ∧ MTree False t1 ∧
      t1.m_max_entries = t.m_max_entries ∧
      t.mem.nodes.length ≤ t1.mem.nodes.length ∧
      ∃ b m1 e1, insert_recursive t.m_max_entries t.fuel t.mem t.m_root key data
          { data_entry.default with get1 := key, get2 := data } = .ok (b, m1, e1) ∧
        (b = false → t1.m_root = t.m_root ∧ t1.m_depth = t.m_depth ∧ t1.mem = m1) ∧
        (b = true → t1.m_depth = t.m_depth + 1 ∧ t1.m_root + 1 = t1.mem.nodes.length ∧
          ∃ old mid root e X s, t.mem.nodes[t.m_root]? = some old ∧
            old.valid[t.m_max_entries / 2]? = some mid ∧
            t1.mem.nodes[t1.m_root]? = some root ∧ root.m_is_leaf = false ∧
            root.m_num_entries = 1 ∧ root.valid = [e] ∧
            e.get0 = some t.m_root ∧ e.get1 = mid.get1 ∧ e.get3 = some s ∧
            e = e1 ∧ t.mem.nodes.length ≤ s ∧ s < t1.m_root ∧
            t1.mem.nodes[t.m_root]? = some X ∧ X.m_right = some s) := by
  obtain ⟨lvl, hinv, hsh, hroot, hlr, hdep, hfresh⟩ := hm
  obtain ⟨b, m1, e1, lvl1, hrec, hw1, hsh1, hlen1, hl1, hb1, hemp1, _, hup⟩ :=
    Shape.insert_recursive_shape hcap key data t.fuel t.mem t.m_root
      { data_entry.default with get1 := key, get2 := data } lvl hinv hsh hroot
      (by simp only [BTree.fuel]; omega) rfl rfl
  have hnone : 3 ≤ t.m_max_entries → ∀ (i : Nat) (n1 : DataNode_t),
      m1.nodes[i]? = some n1 → n1.valid ≠ [] := by
    intro h3 i n1 hi hempty
    obtain ⟨hne, hold⟩ := hemp1 h3 i n1 hi hempty
    exact hne (hfresh h3 i n1 hold hempty).2
  unfold BTree.insert
  simp only [hrec]
  cases b with
  | false =>
    refine ⟨_, rfl, ⟨lvl1, hw1, hsh1, by simp only; omega, ?_, by simp only; omega, ?_⟩,
      rfl, hlen1, false, m1, e1, rfl, fun _ => ⟨rfl, rfl, rfl⟩, by simp⟩
    · simp only
      rw [hl1 _ hroot]; exact hlr
    · intro h3 i n1 hi hempty
      exact absurd hempty (hnone h3 i n1 hi)
  | true =>
    obtain ⟨hg0, r, hg3, hrlt, hrl⟩ := hb1 rfl
    obtain ⟨old, mid, X, hold, hmid, hk1, hg3b, hlt1, hX, hXr⟩ := hup rfl
    simp only [Mem.alloc]
    have hw2 := hw1.alloc false (t.m_depth + 1)
    set lvl2 := Function.update lvl1 m1.nodes.length (t.m_depth + 1) with hlvl2
    have hl2 : ∀ i, i < m1.nodes.length → lvl2 i = lvl1 i := by
      intro i hi
      simp [hlvl2, Function.update, Nat.ne_of_lt hi]
    have hl2n : lvl2 m1.nodes.length = t.m_depth + 1 := by simp [hlvl2]
    have hnew : ({ nodes := m1.nodes ++ [DataNode_t.new t.m_max_entries false],
                   full_inserts := m1.full_inserts } : Mem).nodes[m1.nodes.length]?
        = some (DataNode_t.new t.m_max_entries false) := by
      simp only
      rw [List.getElem?_append_right (le_refl _)]
      simp
    have hnf : (DataNode_t.new t.m_max_entries false).is_full = false := by
      simp [DataNode_t.is_full, DataNode_t.new]; omega
    have hnb : (DataNode_t.new t.m_max_entries false).m_num_entries
        ≤ (DataNode_t.new t.m_max_entries false).m_entries.length := by
      simp [DataNode_t.new]
    have he1 : EntryOK lvl2 (m1.nodes.length + 1) (lvl2 m1.nodes.length) (fun _ => True) e1 := by
      refine ⟨?_, ?_, trivial⟩
      · intro x hx
        rw [hg0] at hx; cases hx
        exact ⟨by omega, by rw [hl2n, hl2 _ (by omega), hl1 _ hroot, hlr]⟩
      · intro x hx
        rw [hg3] at hx; cases hx
        exact ⟨by omega, by rw [hl2n, hl2 _ hrlt, hrl, hlr]⟩
    obtain ⟨m3, hs, hw3, hlen3⟩ := hw2.call_insert hnew hnf (by simpa using he1)
    have hs2 := call_insert_eq _ _ _ e1 hnew hnb
    rw [hs2] at hs
    cases hs
    simp only [hs2]
    have hrootv : ((DataNode_t.new t.m_max_entries false).inserted e1).valid = [e1] := by
      rw [inserted_valid _ _ hnb, new_valid]; rfl
    have hset : (m1.nodes ++ [DataNode_t.new t.m_max_entries false]).set m1.nodes.length
        ((DataNode_t.new t.m_max_entries false).inserted e1)
          = m1.nodes ++ [(DataNode_t.new t.m_max_entries false).inserted e1] := by
      rw [List.set_append_right _ _ (le_refl _)]
      simp
    have hcases : ∀ i n1,
        ((m1.nodes ++ [DataNode_t.new t.m_max_entries false]).set m1.nodes.length
          ((DataNode_t.new t.m_max_entries false).inserted e1))[i]? = some n1 →
        (i < m1.nodes.length ∧ m1.nodes[i]? = some n1) ∨
          (i = m1.nodes.length ∧ n1 = (DataNode_t.new t.m_max_entries false).inserted e1) := by
      intro i n1 hi
      rw [hset] at hi
      by_cases hilt : i < m1.nodes.length
      · rw [List.getElem?_append_left hilt] at hi
        exact Or.inl ⟨hilt, hi⟩
      · have hlt := getElem?_lt hi
        have : i = m1.nodes.length := by simp at hlt; omega
        subst this
        rw [List.getElem?_append_right (le_refl _)] at hi
        simp at hi
        exact Or.inr ⟨rfl, hi.symm⟩
    refine ⟨_, rfl, ⟨lvl2, hw3, ?_, ?_, hl2n, ?_, ?_⟩, rfl, ?_, true, m1, e1, rfl,
      by simp, fun _ => ⟨rfl, ?_, ?_⟩⟩
    · intro i n1 hi
      rcases hcases i n1 hi with ⟨hilt, h1⟩ | ⟨rfl, rfl⟩
      · rw [hl2 _ hilt]; exact hsh1 i n1 h1
      · rw [hrootv, hl2n]
        refine ⟨Shared_single e1, fun _ => ⟨fun h => absurd h (by omega),
          fun _ => ⟨rfl, by rw [hrootv]; simp, ?_⟩⟩⟩
        intro x hx
        rw [hrootv] at hx
        simp only [List.mem_singleton] at hx
        subst hx
        rw [hg0, hg3]; simp
    · simp only [List.length_set, List.length_append, List.length_singleton]; omega
    · simp only [List.length_set, List.length_append, List.length_singleton]; omega
    · intro h3 i n1 hi hempty
      rcases hcases i n1 hi with ⟨_, h1⟩ | ⟨rfl, rfl⟩
      · exact absurd hempty (hnone h3 i n1 h1)
      · rw [hrootv] at hempty; cases hempty
    · simp only [List.length_set, List.length_append, List.length_singleton]; omega
    · simp only [List.length_set, List.length_append, List.length_singleton]
    · refine ⟨old, mid, _, e1, X, m1.nodes.length - 1, hold, hmid, ?_, rfl, rfl, hrootv,
        hg0, hk1, hg3b, rfl, by omega, by simp only; omega, ?_, hXr⟩
      · simp only
        rw [hset, List.getElem?_append_right (le_refl _)]
        simp
      · simp only
        rw [hset, List.getElem?_append_left (by omega)]
        exact hX

theorem MTree.insert_all_steps :
    ∀ (ops : List (Int × Option Nat)) (t : BTree) (P : Prop), MTree P t →
      2 ≤ t.m_max_entries →
      ∃ t1, BTree.insert_all t ops = .ok t1 ∧ MTree (P ∧ ops = []) t1 ∧
        t1.m_max_entries = t.m_max_entries ∧ t.m_depth ≤ t1.m_depth
  | [], t, P, hm, _ => by
    refine ⟨t, rfl, ?_, rfl, le_refl _⟩
    obtain ⟨lvl, h1, h2, h3, h4, h5, h6⟩ := hm
    exact ⟨lvl, h1, h2, h3, h4, h5, fun hc i n hi he => ⟨⟨(h6 hc i n hi he).1, rfl⟩,
      (h6 hc i n hi he).2⟩⟩
  | (key, data) :: rest, t, P, hm, hcap => by
    obtain ⟨t1, h1, hm1, hc1, _, b, _, _, _, hdf, hdt⟩ := hm.insert_step hcap key data
    obtain ⟨t2, h2, hm2, hc2, hd2⟩ := MTree.insert_all_steps rest t1 False hm1 (by omega)
    refine ⟨t2, by simp [BTree.insert_all, h1, h2], ?_, by omega, ?_⟩
    · obtain ⟨lvl, g1, g2, g3, g4, g5, g6⟩ := hm2
      exact ⟨lvl, g1, g2, g3, g4, g5, fun hc i n hi he => absurd (g6 hc i n hi he).1.1 id⟩
    · cases b with
      | false => have := (hdf rfl).2.1; omega
      | true => have := (hdt rfl).1; omega

theorem WInv.child_level {cap : Nat} {lvl : Nat → Nat} {S : Int → Prop} {m : Mem}
    (hw : WInv cap lvl S m) {a c : Nat} {n : DataNode_t} (hn : m.nodes[a]? = some n)
    (hc : IsChild n.valid c) : c < m.nodes.length ∧ lvl c + 1 = lvl a := by
  obtain ⟨y, hy, h | h⟩ := hc
  · exact ((hw.2 a n hn).2.2.2 y hy).1 c h
  · exact ((hw.2 a n hn).2.2.2 y hy).2.1 c h

theorem WInv.path_level {cap : Nat} {lvl : Nat → Nat} {S : Int → Prop} {m : Mem}
    (hw : WInv cap lvl S m) :
    ∀ (k a b : Nat), a < m.nodes.length → Path m k a b →
      b < m.nodes.length ∧ lvl b + k = lvl a
  | 0, a, b, ha, hp => by
    simp only [Path] at hp
    subst hp
    exact ⟨ha, rfl⟩
  | k + 1, a, b, _, hp => by
    obtain ⟨n, c, hn, hc, hrest⟩ := hp
    obtain ⟨hclt, hcl⟩ := hw.child_level hn hc
    obtain ⟨hb, hbl⟩ := WInv.path_level hw k c b hclt hrest
    exact ⟨hb, by omega⟩

theorem WInv.leaf_no_child {cap : Nat} {lvl : Nat → Nat} {S : Int → Prop} {m : Mem}
    (hw : WInv cap lvl S m) {a : Nat} {n : DataNode_t} (hn : m.nodes[a]? = some n)
    (h0 : lvl a = 0) : ∀ e ∈ n.valid, e.get0 = none ∧ e.get3 = none := by
  intro e he
  have hE := (hw.2 a n hn).2.2.2 e he
  constructor
  · cases h : e.get0 with
    | none => rfl
    | some c => have := (hE.1 c h).2; omega
  · cases h : e.get3 with
    | none => rfl
    | some c => have := (hE.2.1 c h).2; omega

theorem Shape.path_down {cap : Nat} {lvl : Nat → Nat} {m : Mem}
    (hw : WInv cap lvl (fun _ => True) m) (hs : Shape cap lvl m) (h3 : 3 ≤ cap) :
    ∀ (k a : Nat), a < m.nodes.length → lvl a = k → ∃ b, Path m k a b
  | 0, a, _, _ => ⟨a, rfl⟩
  | k + 1, a, ha, hl => by
    obtain ⟨n, hn⟩ : ∃ n, m.nodes[a]? = some n :=
      ⟨m.nodes[a], List.getElem?_eq_getElem ha⟩
    obtain ⟨_, hne, hptr⟩ := ((hs a n hn).2 h3).2 (by omega)
    obtain ⟨e, he⟩ := List.exists_mem_of_ne_nil _ hne
    obtain ⟨c, hc⟩ := Option.ne_none_iff_exists'.1 (hptr e he).1
    have hchild : IsChild n.valid c := ⟨e, he, Or.inl hc⟩
    obtain ⟨hclt, hcl⟩ := hw.child_level hn hchild
    obtain ⟨b, hb⟩ := Shape.path_down hw hs h3 k c hclt (by omega)
    exact ⟨b, n, c, hn, hchild, hb⟩

theorem MTree.kind {P : Prop} {t : BTree} (hm : MTree P t) (h3 : 3 ≤ t.m_max_entries)
    {p : Nat} {n : DataNode_t} (hn : t.mem.nodes[p]? = some n) :
    n.m_num_entries ≤ n.m_entries.length ∧
      (n.m_is_leaf = true → ∀ e ∈ n.valid, e.get0 = none ∧ e.get3 = none) ∧
      (n.m_is_leaf = false → n.valid ≠ [] ∧ ∀ e ∈ n.valid, e.get0 ≠ none ∧ e.get3 ≠ none) ∧
      (n.valid = [] → P ∧ p = t.m_root) := by
  obtain ⟨lvl, hw, hs, _, _, _, hfresh⟩ := hm
  have hN := hw.2 p n hn
  have hK := (hs p n hn).2 h3
  refine ⟨by have := hN.2.1; have := hN.2.2.1; omega, ?_, ?_, hfresh h3 p n hn⟩
  · intro hl
    by_cases h0 : lvl p = 0
    · exact hw.leaf_no_child hn h0
    · rw [(hK.2 h0).1] at hl; cases hl
  · intro hl
    by_cases h0 : lvl p = 0
    · rw [hK.1 h0] at hl; cases hl
    · exact (hK.2 h0).2

theorem Wf_entry {g : Ghost} {len h : Nat} :
    ∀ (V : List data_entry) (l u : Option Int), Wf g len h l V u →
      ∀ e ∈ V, (∀ c, e.get0 = some c → g.hi c = some e.get1) ∧
        (∀ c, e.get3 = some c → g.lo c = some e.get1)
  | [], _, _, hw => by simp [Wf] at hw
  | [e], l, u, hw => by
    intro y hy
    simp only [List.mem_singleton] at hy
    subst hy
    obtain ⟨⟨c0, h0, _, _, _, h0hi, _⟩, ⟨c3, h3, _, _, h3lo, _, _⟩⟩ := hw
    refine ⟨fun c hc => ?_, fun c hc => ?_⟩
    · rw [h0] at hc; cases hc; exact h0hi
    · rw [h3] at hc; cases hc; exact h3lo
  | e :: e2 :: rest, l, u, hw => by
    obtain ⟨⟨c0, h0, _, _, _, h0hi, _⟩, hadj, hrest⟩ := hw
    obtain ⟨c2, h2, _, _, h2lo, _, _⟩ := Wf_head hrest
    intro y hy
    simp only [List.mem_cons] at hy
    rcases hy with rfl | hy
    · refine ⟨fun c hc => ?_, fun c hc => ?_⟩
      · rw [h0] at hc; cases hc; exact h0hi
      · rw [hadj, h2] at hc; cases hc; exact h2lo
    · exact Wf_entry (e2 :: rest) _ _ hrest y (by simp only [List.mem_cons]; exact hy)

theorem SInv.lvl_of_flag {cap : Nat} {g : Ghost} {D : Int → Option Nat → Prop} {m : Mem}
    {Lc : List Nat} (hS : SInv cap g D m Lc) {p : Nat} {n : DataNode_t}
    (hn : m.nodes[p]? = some n) :
    (n.m_is_leaf = true → g.lvl p = 0) ∧ (n.m_is_leaf = false → g.lvl p ≠ 0) := by
  have hN := hS.nodes p n hn
  constructor
  · intro hl
    by_contra h0
    obtain ⟨h, hh⟩ : ∃ h, g.lvl p = h + 1 := ⟨g.lvl p - 1, by omega⟩
    rw [(hN.2.2.2.2.2 h hh).1] at hl
    cases hl
  · intro hl h0
    rw [(hN.2.2.2.2.1 h0).1] at hl
    cases hl

theorem SInv.path_within {cap : Nat} {g : Ghost} {D : Int → Option Nat → Prop} {m : Mem}
    {Lc : List Nat} (hS : SInv cap g D m Lc) :
    ∀ (k a b : Nat), a < m.nodes.length → Path m k a b →
      b < m.nodes.length ∧ ∀ z, InB (g.lo b) (g.hi b) z → InB (g.lo a) (g.hi a) z
  | 0, a, b, ha, hp => by
    simp only [Path] at hp
    subst hp
    exact ⟨ha, fun _ hz => hz⟩
  | k + 1, a, b, _, hp => by
    obtain ⟨n, c, hn, hc, hrest⟩ := hp
    have hN := hS.nodes a n hn
    have hl : g.lvl a ≠ 0 := by
      intro h0
      obtain ⟨y, hy, hyc⟩ := hc
      have := (hN.2.2.2.2.1 h0).2.1 y hy
      rcases hyc with hyc | hyc
      · rw [this.1] at hyc; cases hyc
      · rw [this.2.1] at hyc; cases hyc
    obtain ⟨h, hh⟩ : ∃ h, g.lvl a = h + 1 := ⟨g.lvl a - 1, by omega⟩
    obtain ⟨hclt, _, _, hin⟩ := Wf_child _ _ _ (hN.2.2.2.2.2 h hh).2 c hc
    obtain ⟨hb, hbin⟩ := SInv.path_within hS k c b hclt hrest
    exact ⟨hb, fun z hz => hin z (hbin z hz)⟩


/-- For every node capacity of at least 3 and every sequence of inserts, in
the tree they build `next(key)` returns `NULL` for every key on
every node flagged as a leaf, it returns a child for every key on every node
not flagged as a leaf, and a node without entries exists only when nothing
has been inserted, and is the root then. -/
theorem next_discriminates_from_three (sizeof_entry block_size : Nat)
    (ops : List (Int × Option Nat)) (hcap : 3 ≤ block_size / sizeof_entry) :
    ∃ t, BTree.insert_all (BTree.new sizeof_entry block_size) ops = .ok t ∧
      ∀ (p : Nat) (n : DataNode_t), t.mem.nodes[p]? = some n →
        (n.m_is_leaf = true → ∀ key, n.next key = .ok none) ∧
        (n.m_is_leaf = false → ∀ key, ∃ c, n.next key = .ok (some c)) ∧
        (n.m_num_entries = 0 → ops = [] ∧ p = t.m_root) := by
  obtain ⟨t, ht, hm, hc, _⟩ := MTree.insert_all_steps ops (BTree.new sizeof_entry block_size)
    True (MTree.new_fresh _ _) (by show 2 ≤ block_size / sizeof_entry; omega)
  refine ⟨t, ht, fun p n hn => ?_⟩
  obtain ⟨hb, hleaf, hint, hemp⟩ := hm.kind (by rw [hc]; exact hcap) hn
  refine ⟨?_, ?_, ?_⟩
  · intro hl key
    rw [next_eq n key hb, route_leaf key n.valid (hleaf hl)]
  · intro hl key
    rw [next_eq n key hb]
    obtain ⟨c, hc⟩ := Option.ne_none_iff_exists'.1
      (route_some_of_ne_nil key n.valid (hint hl).1 (hint hl).2)
    exact ⟨c, by rw [hc]⟩
  · intro h0
    obtain ⟨⟨_, h1⟩, h2⟩ := hemp ((valid_eq_nil_iff hb).2 h0)
    exact ⟨h1, h2⟩

/-! ## The constructor on any `int` -/

theorem to_size_t_nonneg (b : Int) (h0 : 0 ≤ b) (h1 : b < 2 ^ 64) : to_size_t b = b.toNat := by
  unfold to_size_t
  rw [Int.emod_eq_of_lt h0 h1]

theorem to_int_small (q : Nat) (h : q < 2 ^ 31) : to_int q = q := by
  unfold to_int
  omega

theorem construct_nonneg (sizeof_entry : Nat) (block_size : Int)
    (h0 : 0 ≤ block_size) (h1 : block_size < 2 ^ 31) :
    BTree.construct sizeof_entry block_size
      = .ok (BTree.new sizeof_entry block_size.toNat) := by
  have hq : block_size.toNat / sizeof_entry < 2 ^ 31 := by
    have : block_size.toNat / sizeof_entry ≤ block_size.toNat := Nat.div_le_self _ _
    omega
  have hmax : block_size.toNat / sizeof_entry ≤ vec_max_size sizeof_entry := by
    unfold vec_max_size
    exact Nat.div_le_div_right (by omega)
  have hback : to_size_t ((block_size.toNat / sizeof_entry : Nat) : Int)
      = block_size.toNat / sizeof_entry := by
    generalize block_size.toNat / sizeof_entry = q at hq
    rw [to_size_t_nonneg _ (by omega) (by omega)]
    simp
  unfold BTree.construct
  simp only [to_size_t_nonneg block_size h0 (by omega), to_int_small _ hq, hback]
  rw [if_neg (by omega)]
  simp only [BTree.new, Int.toNat_of_nonneg h0]

theorem to_size_t_negative (v : Int) (h : v < 0 ∧ -2 ^ 31 ≤ v) :
    2 ^ 63 - 1 < to_size_t v := by
  unfold to_size_t
  omega

theorem to_size_t_wrapped (b : Int) (hlo : -2 ^ 31 ≤ b) (hneg : b < 0) :
    to_size_t b = (2 ^ 64 + b).toNat ∧ (2 ^ 64 + b).toNat < 2 ^ 64 ∧
      2 ^ 64 - 2 ^ 31 ≤ (2 ^ 64 + b).toNat := by
  unfold to_size_t
  have : b % 2 ^ 64 = 2 ^ 64 + b := by omega
  rw [this]
  omega

theorem to_int_negative (q r : Nat) (hr : 1 ≤ r) (hlt : q < r * 2 ^ 32)
    (hge : r * 2 ^ 32 - 2 ^ 31 ≤ q) : to_int q < 0 ∧ -2 ^ 31 ≤ to_int q := by
  unfold to_int
  omega

theorem construct_negative (sizeof_entry : Nat) (block_size : Int)
    (hd : sizeof_entry ∣ 2 ^ 32) (hlo : -2 ^ 31 ≤ block_size) (hneg : block_size < 0) :
    BTree.construct sizeof_entry block_size = .error .length_error := by
  obtain ⟨r, hr⟩ := hd
  have hs : 0 < sizeof_entry := by
    rcases Nat.eq_zero_or_pos sizeof_entry with h | h
    · rw [h] at hr; simp at hr
    · exact h
  have hr1 : 1 ≤ r := by
    rcases Nat.eq_zero_or_pos r with h | h
    · rw [h] at hr; simp at hr
    · exact h
  obtain ⟨hB, hB1, hB2⟩ := to_size_t_wrapped block_size hlo hneg
  have h64 : sizeof_entry * (r * 2 ^ 32) = 2 ^ 64 := by
    rw [← Nat.mul_assoc, ← hr]; norm_num
  have hlt : to_size_t block_size / sizeof_entry < r * 2 ^ 32 := by
    rw [Nat.div_lt_iff_lt_mul hs, Nat.mul_comm, h64, hB]
    exact hB1
  have hge : r * 2 ^ 32 - 2 ^ 31 ≤ to_size_t block_size / sizeof_entry := by
    rw [Nat.le_div_iff_mul_le hs, Nat.mul_comm, Nat.mul_sub, h64, hB]
    have h1 : 2 ^ 31 ≤ sizeof_entry * 2 ^ 31 := Nat.le_mul_of_pos_left _ hs
    exact le_trans (Nat.sub_le_sub_left h1 _) hB2
  have hneg2 := to_int_negative _ r hr1 hlt hge
  have hmax : vec_max_size sizeof_entry ≤ 2 ^ 63 - 1 := by
    unfold vec_max_size
    exact Nat.div_le_self _ _
  have hv := to_size_t_negative _ hneg2
  unfold BTree.construct
  simp only
  rw [if_pos (lt_of_le_of_lt hmax hv)]


theorem spine_step_cons (c n : Nat) (rest : List Nat) :
    spine_step c (n :: rest)
      = if (spine_step c rest).1 then
          (if n < c then (false, (n + 1) :: (spine_step c rest).2)
           else (true, (c / 2 + 1) :: (spine_step c rest).2))
        else (false, n :: (spine_step c rest).2) := rfl

theorem spine_step_length (c : Nat) : ∀ ts : List Nat,
    (spine_step c ts).2.length = ts.length
  | [] => rfl
  | n :: rest => by
    have ih := spine_step_length c rest
    rw [spine_step_cons]
    split_ifs <;> simp [ih]

theorem spine_step_le (c : Nat) (hc : 1 ≤ c) : ∀ ts : List Nat, (∀ n ∈ ts, n ≤ c) →
    ∀ n ∈ (spine_step c ts).2, n ≤ c
  | [], _ => by simp [spine_step]
  | n :: rest, h => by
    have ih := spine_step_le c hc rest (fun x hx => h x (List.mem_cons_of_mem _ hx))
    have hn := h n (by simp)
    have hhalf : c / 2 + 1 ≤ c := by omega
    rw [spine_step_cons]
    split_ifs <;> intro x hx <;> simp only [List.mem_cons] at hx <;>
      rcases hx with rfl | hx <;> first | omega | exact ih x hx

theorem spine_step_low (c : Nat) : ∀ ts : List Nat, (∀ n ∈ ts, c / 2 + 1 ≤ n) →
    ∀ n ∈ (spine_step c ts).2, c / 2 + 1 ≤ n
  | [], _ => by simp [spine_step]
  | n :: rest, h => by
    have ih := spine_step_low c rest (fun x hx => h x (List.mem_cons_of_mem _ hx))
    have hn := h n (by simp)
    rw [spine_step_cons]
    split_ifs <;> intro x hx <;> simp only [List.mem_cons] at hx <;>
      rcases hx with rfl | hx <;> first | omega | exact ih x hx

theorem spine_step_carry (c : Nat) : ∀ ts : List Nat, (spine_step c ts).1 = true →
    ∀ n ∈ (spine_step c ts).2, c / 2 + 1 ≤ n
  | [], _ => by simp [spine_step]
  | n :: rest, h => by
    rw [spine_step_cons] at h ⊢
    by_cases h1 : (spine_step c rest).1 = true
    · have ih := spine_step_carry c rest h1
      rw [if_pos h1] at h ⊢
      by_cases h2 : n < c
      · rw [if_pos h2] at h; cases h
      · rw [if_neg h2]
        intro x hx
        simp only [List.mem_cons] at hx
        rcases hx with rfl | hx
        · exact le_refl _
        · exact ih x hx
    · rw [if_neg h1] at h; cases h

theorem spine_step_value (c : Nat) : ∀ ts : List Nat, (∀ n ∈ ts, n ≤ c) →
    spine_value (c - c / 2) (spine_step c ts).2
        + (if (spine_step c ts).1 then (c - c / 2) ^ ts.length else 0)
      = spine_value (c - c / 2) ts + 1
  | [], _ => by simp [spine_step, spine_value]
  | n :: rest, h => by
    have ih := spine_step_value c rest (fun x hx => h x (List.mem_cons_of_mem _ hx))
    have hn := h n (by simp)
    have hlen := spine_step_length c rest
    rw [spine_step_cons]
    by_cases h1 : (spine_step c rest).1 = true
    · rw [if_pos h1] at ih ⊢
      by_cases h2 : n < c
      · rw [if_pos h2]
        simp only [spine_value, hlen, List.length_cons, Bool.false_eq_true, if_false]
        have : (n + 1) * (c - c / 2) ^ rest.length
            = n * (c - c / 2) ^ rest.length + (c - c / 2) ^ rest.length := by ring
        omega
      · rw [if_neg h2]
        have hnc : n = c := by omega
        subst hnc
        simp only [spine_value, hlen, List.length_cons, if_true]
        have h3 : (n / 2 + 1) * (n - n / 2) ^ rest.length + (n - n / 2) ^ (rest.length + 1)
            = n * (n - n / 2) ^ rest.length + (n - n / 2) ^ rest.length := by
          have hq : n / 2 + (n - n / 2) = n := by omega
          rw [pow_succ]
          calc (n / 2 + 1) * (n - n / 2) ^ rest.length
                + (n - n / 2) ^ rest.length * (n - n / 2)
              = (n / 2 + (n - n / 2)) * (n - n / 2) ^ rest.length
                + (n - n / 2) ^ rest.length := by ring
            _ = n * (n - n / 2) ^ rest.length + (n - n / 2) ^ rest.length := by rw [hq]
        omega
    · rw [if_neg h1] at ih ⊢
      simp only [spine_value, hlen, List.length_cons, Bool.false_eq_true, if_false] at ih ⊢
      omega

theorem geom_succ_pow (q : Nat) : ∀ d : Nat, geom q (d + 1) = q ^ d + geom q d
  | 0 => by simp [geom]
  | d + 1 => by
    have ih := geom_succ_pow q d
    show q * geom q (d + 1) + 1 = q ^ (d + 1) + (q * geom q d + 1)
    rw [ih, pow_succ]
    ring

theorem spine_value_le (q c : Nat) : ∀ ts : List Nat, (∀ n ∈ ts, n ≤ c) →
    spine_value q ts ≤ c * geom q ts.length
  | [], _ => by simp [spine_value, geom]
  | n :: rest, h => by
    have ih := spine_value_le q c rest (fun x hx => h x (List.mem_cons_of_mem _ hx))
    have hn := h n (by simp)
    simp only [spine_value, List.length_cons]
    rw [geom_succ_pow, Nat.mul_add]
    have : n * q ^ rest.length ≤ c * q ^ rest.length := Nat.mul_le_mul_right _ hn
    omega

theorem spine_value_ge (q a : Nat) : ∀ ts : List Nat, (∀ n ∈ ts, a ≤ n) →
    a * geom q ts.length ≤ spine_value q ts
  | [], _ => by simp [spine_value, geom]
  | n :: rest, h => by
    have ih := spine_value_ge q a rest (fun x hx => h x (List.mem_cons_of_mem _ hx))
    have hn := h n (by simp)
    simp only [spine_value, List.length_cons]
    rw [geom_succ_pow, Nat.mul_add]
    have : a * q ^ rest.length ≤ n * q ^ rest.length := Nat.mul_le_mul_right _ hn
    omega

theorem SpineOK.start (c : Nat) : SpineOK c [0] :=
  ⟨by simp, 0, [], rfl, by simp, by simp⟩

theorem SpineOK.insert_ok {c : Nat} (hc : 1 ≤ c) {ts : List Nat} (h : SpineOK c ts) :
    SpineOK c (spine_insert c ts) := by
  obtain ⟨hle, n, rest, rfl, hlow, htop⟩ := h
  have hle2 := spine_step_le c hc (n :: rest) hle
  unfold spine_insert
  by_cases h1 : (spine_step c (n :: rest)).1 = true
  · rw [if_pos h1]
    refine ⟨?_, 1, _, rfl, spine_step_carry c _ h1, fun _ => le_refl _⟩
    intro x hx
    simp only [List.mem_cons] at hx
    rcases hx with rfl | hx
    · exact hc
    · exact hle2 x hx
  · rw [if_neg h1]
    refine ⟨hle2, ?_⟩
    have hrest := spine_step_low c rest hlow
    have hlen := spine_step_length c rest
    have hne : (spine_step c rest).2 ≠ [] → rest ≠ [] := by
      intro h2 h3
      apply h2
      apply List.length_eq_zero.1
      rw [hlen, h3]
      rfl
    rw [spine_step_cons] at h1 ⊢
    by_cases h2 : (spine_step c rest).1 = true
    · rw [if_pos h2] at h1 ⊢
      by_cases h3 : n < c
      · rw [if_pos h3]
        exact ⟨n + 1, _, rfl, hrest, fun _ => by omega⟩
      · rw [if_neg h3] at h1; exact absurd rfl h1
    · rw [if_neg h2]
      exact ⟨n, _, rfl, hrest, fun h4 => htop (hne h4)⟩

theorem spine_insert_length (c : Nat) (ts : List Nat) :
    (spine_insert c ts).length
      = if (spine_step c ts).1 then ts.length + 1 else ts.length := by
  unfold spine_insert
  split_ifs <;> simp [spine_step_length]

theorem spine_insert_value (c : Nat) (ts : List Nat) (h : ∀ n ∈ ts, n ≤ c) :
    spine_value (c - c / 2) (spine_insert c ts) = spine_value (c - c / 2) ts + 1 := by
  have hv := spine_step_value c ts h
  have hlen := spine_step_length c ts
  unfold spine_insert
  by_cases h1 : (spine_step c ts).1 = true
  · rw [if_pos h1] at hv ⊢
    simp only [spine_value, hlen, one_mul]
    omega
  · rw [if_neg h1] at hv ⊢
    omega

/-- The entry counts fix the number of inserts between two consecutive
thresholds. -/
theorem SpineOK.bounds {c : Nat} (hc : 2 ≤ c) {ts : List Nat} (h : SpineOK c ts) :
    spine_value (c - c / 2) ts ≤ c * geom (c - c / 2) ts.length ∧
      (spine_value (c - c / 2) ts ≠ 0 →
        c * geom (c - c / 2) (ts.length - 1) < spine_value (c - c / 2) ts) ∧
      (spine_value (c - c / 2) ts = 0 → ts.length = 1) := by
  obtain ⟨hle, n, rest, rfl, hlow, htop⟩ := h
  refine ⟨spine_value_le _ c _ hle, ?_, ?_⟩
  · intro hne
    simp only [List.length_cons, Nat.add_sub_cancel]
    cases rest with
    | nil =>
      simp only [List.length_nil, geom, Nat.mul_zero]
      omega
    | cons r rs =>
      have h1 := htop (by simp)
      have h2 := spine_value_ge (c - c / 2) (c / 2 + 1) (r :: rs) hlow
      have h3 := geom_succ_pow (c - c / 2) (r :: rs).length
      have h4 : geom (c - c / 2) ((r :: rs).length + 1)
          = (c - c / 2) * geom (c - c / 2) (r :: rs).length + 1 := rfl
      have h5 : n * (c - c / 2) ^ (r :: rs).length ≥ (c - c / 2) ^ (r :: rs).length :=
        Nat.le_mul_of_pos_left _ h1
      have h6 : c * geom (c - c / 2) (r :: rs).length
          = (c / 2) * geom (c - c / 2) (r :: rs).length
            + (c - c / 2) * geom (c - c / 2) (r :: rs).length := by
        rw [← Nat.add_mul]
        congr 1
        omega
      have h7 : (c / 2 + 1) * geom (c - c / 2) (r :: rs).length
          = (c / 2) * geom (c - c / 2) (r :: rs).length + geom (c - c / 2) (r :: rs).length := by
        ring
      simp only [spine_value] at h2 ⊢
      simp only [spine_value] at h5
      omega
  · intro h0
    cases rest with
    | nil => rfl
    | cons r rs =>
      exfalso
      have h1 := htop (by simp)
      have hq : 0 < (c - c / 2) ^ (r :: rs).length := Nat.pow_pos (by omega)
      have h5 : n * (c - c / 2) ^ (r :: rs).length ≥ (c - c / 2) ^ (r :: rs).length :=
        Nat.le_mul_of_pos_left _ h1
      simp only [spine_value] at h0
      omega

theorem Spine_leaf (m : Mem) (lo : Int) (ub : Option Int) (p : Nat) (ts : List Nat) :
    Spine m lo ub [p] ts ↔
      ∃ node, m.nodes[p]? = some node ∧ ts = [node.m_num_entries] ∧ KeysOK lo ub node.valid ∧
        ∀ e ∈ node.valid, e.get0 = none ∧ e.get3 = none := by
  simp only [Spine]

theorem Spine_cons (m : Mem) (lo : Int) (ub : Option Int) (p c : Nat) (ps ts : List Nat) :
    Spine m lo ub (p :: c :: ps) ts ↔
      ∃ node e tail rest, m.nodes[p]? = some node ∧ ts = node.m_num_entries :: rest ∧
        KeysOK lo ub node.valid ∧ node.valid = e :: tail ∧ e.get0 = some c ∧
        Spine m lo (some e.get1) (c :: ps) rest := by
  simp only [Spine]

theorem Spine_lt {m : Mem} {lo : Int} : ∀ (ps ts : List Nat) (ub : Option Int),
    Spine m lo ub ps ts → ∀ x ∈ ps, x < m.nodes.length
  | [], _, _, h => by simp [Spine] at h
  | [p], ts, ub, h => by
    obtain ⟨node, hn, _⟩ := (Spine_leaf m lo ub p ts).1 h
    intro x hx
    simp only [List.mem_singleton] at hx
    subst hx
    exact getElem?_lt hn
  | p :: c :: ps, ts, ub, h => by
    obtain ⟨node, e, tail, rest, hn, _, _, _, _, hsp⟩ := (Spine_cons m lo ub p c ps ts).1 h
    have ih := Spine_lt (c :: ps) rest _ hsp
    intro x hx
    simp only [List.mem_cons] at hx
    rcases hx with rfl | hx
    · exact getElem?_lt hn
    · exact ih x (by simp only [List.mem_cons]; exact hx)

theorem Spine_length {m : Mem} {lo : Int} : ∀ (ps ts : List Nat) (ub : Option Int),
    Spine m lo ub ps ts → ts.length = ps.length
  | [], _, _, h => by simp [Spine] at h
  | [p], ts, ub, h => by
    obtain ⟨node, _, rfl, _⟩ := (Spine_leaf m lo ub p ts).1 h
    rfl
  | p :: c :: ps, ts, ub, h => by
    obtain ⟨node, e, tail, rest, _, rfl, _, _, _, hsp⟩ := (Spine_cons m lo ub p c ps ts).1 h
    have ih := Spine_length (c :: ps) rest _ hsp
    simp only [List.length_cons] at ih ⊢
    omega

theorem Spine_levels {cap : Nat} {lvl : Nat → Nat} {S : Int → Prop} {m : Mem} {lo : Int}
    (hw : WInv cap lvl S m) : ∀ (ps ts : List Nat) (ub : Option Int) (p : Nat),
    Spine m lo ub (p :: ps) ts → ∀ x ∈ ps, lvl x < lvl p
  | [], _, _, _, _ => by simp
  | c :: ps, ts, ub, p, h => by
    obtain ⟨node, e, tail, rest, hn, _, _, hv, he0, hsp⟩ := (Spine_cons m lo ub p c ps ts).1 h
    have hcl := (hw.child_level hn ⟨e, by rw [hv]; simp, Or.inl he0⟩).2
    have ih := Spine_levels hw ps rest _ c hsp
    intro x hx
    simp only [List.mem_cons] at hx
    rcases hx with rfl | hx
    · omega
    · have := ih x hx; omega

theorem Spine_frame {m m2 : Mem} {lo : Int} : ∀ (ps ts : List Nat) (ub : Option Int),
    Spine m lo ub ps ts → (∀ x ∈ ps, m2.nodes[x]? = m.nodes[x]?) → Spine m2 lo ub ps ts
  | [], _, _, h, _ => by simp [Spine] at h
  | [p], ts, ub, h, hf => by
    obtain ⟨node, hn, h1, h2, h3⟩ := (Spine_leaf m lo ub p ts).1 h
    exact (Spine_leaf m2 lo ub p ts).2 ⟨node, by rw [hf p (by simp)]; exact hn, h1, h2, h3⟩
  | p :: c :: ps, ts, ub, h, hf => by
    obtain ⟨node, e, tail, rest, hn, h1, h2, h3, h4, hsp⟩ :=
      (Spine_cons m lo ub p c ps ts).1 h
    exact (Spine_cons m2 lo ub p c ps ts).2 ⟨node, e, tail, rest,
      by rw [hf p (by simp)]; exact hn, h1, h2, h3, h4,
      Spine_frame (c :: ps) rest _ hsp (fun x hx => hf x (List.mem_cons_of_mem _ hx))⟩

theorem KeysOK_lo {lo lo2 : Int} {ub : Option Int} {V : List data_entry}
    (h : KeysOK lo ub V) (hl : lo2 ≤ lo) : KeysOK lo2 ub V :=
  ⟨h.1, fun e he => ⟨by have := (h.2 e he).1; omega, (h.2 e he).2⟩⟩

theorem pairwise_take_lt {V : List data_entry} {k : Nat} {x y : data_entry}
    (h : V.Pairwise (fun a b => a.get1 < b.get1)) (hx : x ∈ V.take k)
    (hy : V[k]? = some y) : x.get1 < y.get1 := by
  have hy2 : y ∈ V.drop k := by
    have hk := getElem?_lt hy
    rw [List.mem_iff_getElem?]
    exact ⟨0, by rw [List.getElem?_drop]; simpa using hy⟩
  rw [← List.take_append_drop k V, List.pairwise_append] at h
  exact h.2.2 x hx y hy2

theorem KeysOK_take {lo : Int} {ub : Option Int} {V : List data_entry} {k : Nat}
    {mid : data_entry} (h : KeysOK lo ub V) (hm : V[k]? = some mid) :
    KeysOK lo (some mid.get1) (V.take k) := by
  refine ⟨h.1.sublist (List.take_sublist _ _), fun e he => ⟨(h.2 e (List.mem_of_mem_take he)).1, ?_⟩⟩
  intro b hb
  cases hb
  exact pairwise_take_lt h.1 he hm

theorem KeysOK_ins_front {lo lo2 : Int} {ub : Option Int} {V : List data_entry}
    {x : data_entry} (h : KeysOK lo ub V) (hx : ∀ e ∈ V, x.get1 < e.get1)
    (hl : lo2 < x.get1) (hl2 : lo2 ≤ lo) (hu : ∀ b, ub = some b → x.get1 < b) :
    KeysOK lo2 ub (ins_spec x V) := by
  refine ⟨ins_spec_sorted x V h.1 (fun e he => by have := hx e he; omega), ?_⟩
  intro y hy
  rcases mem_ins_spec x V y hy with rfl | ⟨e, he, h1, _⟩
  · exact ⟨hl, hu⟩
  · rw [h1]
    exact ⟨by have := (h.2 e he).1; omega, (h.2 e he).2⟩

theorem ins_spec_front {x : data_entry} : ∀ (V : List data_entry),
    (∀ e ∈ V, x.get1 < e.get1) → ∃ tail, ins_spec x V = x :: tail
  | [], _ => ⟨[], rfl⟩
  | y :: ys, h => by
    have := h y (by simp)
    rw [ins_spec_cons, if_pos (by omega)]
    exact ⟨_, rfl⟩

theorem mem_of_getElem?_eq {V : List data_entry} {k : Nat} {y : data_entry}
    (h : V[k]? = some y) : y ∈ V := by
  rw [List.mem_iff_getElem?]
  exact ⟨k, h⟩

theorem split_left_inserted_num {cap r : Nat} {n : DataNode_t} (e : data_entry)
    (hlen : cap ≤ n.m_entries.length) :
    ((split_left cap r n).inserted e).m_num_entries = cap / 2 + 1 := by
  simp only [DataNode_t.inserted, split_left, List.length_take]
  omega

theorem split_left_inserted_valid {cap r : Nat} {n : DataNode_t} (e : data_entry)
    (hnum : n.m_num_entries = cap) (_hlen : cap ≤ n.m_entries.length) :
    ((split_left cap r n).inserted e).valid = ins_spec e (n.valid.take (cap / 2)) := by
  have hLb : (split_left cap r n).m_num_entries ≤ (split_left cap r n).m_entries.length := by
    simp only [split_left, vec_resize_length, List.length_take]; omega
  rw [inserted_valid _ _ hLb, split_left_valid, valid_take_half hnum]

theorem Spine.step {cap : Nat} (hcap : 3 ≤ cap) (key : Int) (data : Option Nat) :
    ∀ (fuel : Nat) (m : Mem) (curr : Nat) (entry : data_entry) (lvl : Nat → Nat) (lo : Int)
      (ub : Option Int) (ps ts : List Nat),
      WInv cap lvl (fun _ => True) m → Shape cap lvl m → lvl curr < fuel →
      entry.get0 = none → entry.get3 = none → entry.get1 = key → key ≤ lo →
      (∀ b, ub = some b → key < b) → Spine m lo ub (curr :: ps) ts →
      ∃ b m1 e1, insert_recursive cap fuel m curr key data entry = .ok (b, m1, e1) ∧
        (spine_step cap ts).1 = b ∧
        (b = false → Spine m1 (key - 1) ub (curr :: ps) (spine_step cap ts).2) ∧
        (b = true → e1.get0 = some curr ∧ lo < e1.get1 ∧
          (∀ bb, ub = some bb → e1.get1 < bb) ∧
          Spine m1 (key - 1) (some e1.get1) (curr :: ps) (spine_step cap ts).2) := by
  intro fuel
  induction fuel with
  | zero => intro m curr entry lvl lo ub ps ts _ _ h; omega
  | succ fuel ih =>
    intro m curr entry lvl lo ub ps ts hw hsh hfuel h0 h3 hk hlo hub hsp
    cases ps with
    | nil =>
      obtain ⟨node, hc, rfl, hkeys, hnull⟩ := (Spine_leaf m lo ub curr ts).1 hsp
      have hn := hw.2 curr node hc
      have hb : node.m_num_entries ≤ node.m_entries.length := by
        have := hn.2.1; have := hn.2.2.1; omega
      have hfront : ∀ e ∈ node.valid, entry.get1 < e.get1 := by
        intro e he; have := (hkeys.2 e he).1; omega
      unfold BPlusTree.insert_recursive
      simp only [deref_eq m curr node hc, next_eq node key hb, route_leaf key node.valid hnull]
      cases hfull : node.is_full with
      | true =>
        have hnum := is_full_num hn hfull
        obtain ⟨mid, hmid, hs⟩ := split_eq cap m curr true entry node hc (by omega) hn.2.2.1
        have hmidV : node.valid[cap / 2]? = some mid := by
          have : cap / 2 < cap := Nat.div_lt_self (by omega) (by omega)
          simp only [DataNode_t.valid, hnum, List.getElem?_take, this, if_true, hmid]
        have hmk := (hkeys.2 mid (mem_of_getElem?_eq hmidV))
        have hnlt : ¬ mid.get1 < entry.get1 := by have := hmk.1; omega
        simp only [hnlt, if_false] at hs
        simp only [hs, if_true]
        refine ⟨true, _, _, rfl, ?_, by simp, fun _ => ⟨rfl, hmk.1, hmk.2, ?_⟩⟩
        · have : ¬ node.m_num_entries < cap := by omega
          simp [spine_step, this]
        · have hst : (spine_step cap [node.m_num_entries]).2 = [cap / 2 + 1] := by
            have : ¬ node.m_num_entries < cap := by omega
            simp [spine_step, this]
          rw [hst]
          refine (Spine_leaf _ _ _ _ _).2 ⟨(split_left cap m.nodes.length node).inserted entry,
            getElem?_set_append_at _ _ _ _ (getElem?_lt hc), ?_, ?_, ?_⟩
          · rw [split_left_inserted_num entry hn.2.2.1]
          · rw [split_left_inserted_valid entry hnum hn.2.2.1]
            have hkk : KeysOK (key - 1) (some mid.get1)
                (ins_spec entry (node.valid.take (cap / 2))) :=
              KeysOK_ins_front (KeysOK_take hkeys hmidV)
                (fun e he => hfront e (List.mem_of_mem_take he)) (by omega) (by omega)
                (fun b hb => by cases hb; have := hmk.1; omega)
            exact hkk
          · rw [split_left_inserted_valid entry hnum hn.2.2.1]
            exact ins_spec_null entry h0 h3 _ (fun x hx => hnull x (List.mem_of_mem_take hx))
      | false =>
        have hlt := is_full_false hfull
        rw [hn.1] at hlt
        simp only [call_insert_eq m curr node entry hc hb]
        refine ⟨false, _, _, rfl, ?_, fun _ => ?_, by simp⟩
        · simp [spine_step, hlt]
        · have hst : (spine_step cap [node.m_num_entries]).2 = [node.m_num_entries + 1] := by
            simp [spine_step, hlt]
          rw [hst]
          refine (Spine_leaf _ _ _ _ _).2 ⟨node.inserted entry,
            getElem?_set_eq' _ _ _ (getElem?_lt hc), rfl, ?_, ?_⟩
          · rw [inserted_valid node entry hb]
            exact KeysOK_ins_front hkeys hfront (by omega) (by omega)
              (fun b hb => by rw [hk]; exact hub b hb)
          · rw [inserted_valid node entry hb]
            exact ins_spec_null entry h0 h3 _ hnull
    | cons c ps =>
      obtain ⟨node, e, tail, rest, hc, rfl, hkeys, hval, he0, hspc⟩ :=
        (Spine_cons m lo ub curr c ps ts).1 hsp
      have hcurr := getElem?_lt hc
      have hn := hw.2 curr node hc
      have hb : node.m_num_entries ≤ node.m_entries.length := by
        have := hn.2.1; have := hn.2.2.1; omega
      have hein : e ∈ node.valid := by rw [hval]; simp
      have hek := hkeys.2 e hein
      have hroute : route key node.valid none = some c := by
        rw [hval, route_cons, if_pos (show e.get1 > key by have := hek.1; omega)]
        exact he0
      have hchild := hw.child_level hc ⟨e, hein, Or.inl he0⟩
      obtain ⟨b0, m1, e1, lvl1, hrec, hw1, hsh1, hlen1, hl1, _, _, hfr1, _⟩ :=
        Shape.insert_recursive_shape (by omega : 2 ≤ cap) key data fuel m c entry lvl hw hsh
          hchild.1 (by omega) h0 h3
      obtain ⟨b, m1b, e1b, hrecb, hsb, hsf, hst⟩ :=
        ih m c entry lvl lo (some e.get1) ps rest hw hsh (by omega) h0 h3 hk hlo
          (fun bb hbb => by cases hbb; have := hek.1; omega) hspc
      rw [hrec] at hrecb
      cases hrecb
      have hc1 : m1.nodes[curr]? = some node := by
        rw [hfr1 curr hcurr (by omega)]; exact hc
      have hn1 := hw1.2 curr node hc1
      unfold BPlusTree.insert_recursive
      simp only [deref_eq m curr node hc, next_eq node key hb, hroute, hrec]
      cases b0 with
      | false =>
        refine ⟨false, m1, e1, rfl, ?_, fun _ => ?_, by simp⟩
        · rw [spine_step_cons, hsb]; simp
        · have hst2 : (spine_step cap (node.m_num_entries :: rest)).2
              = node.m_num_entries :: (spine_step cap rest).2 := by
            rw [spine_step_cons, hsb]; simp
          rw [hst2]
          exact (Spine_cons _ _ _ _ _ _ _).2 ⟨node, e, tail, _, hc1, rfl,
            KeysOK_lo hkeys (by omega), hval, he0, hsf rfl⟩
      | true =>
        obtain ⟨hg0, hlo1, hub1, hsp1⟩ := hst rfl
        have he1lt : e1.get1 < e.get1 := hub1 _ rfl
        have hfront : ∀ y ∈ node.valid, e1.get1 < y.get1 := by
          intro y hy
          rw [hval] at hy
          simp only [List.mem_cons] at hy
          rcases hy with rfl | hy
          · exact he1lt
          · have hs := hkeys.1
            rw [hval, List.pairwise_cons] at hs
            have := hs.1 y hy
            omega
        have hdist : ∀ x ∈ c :: ps, x < m1.nodes.length ∧ x ≠ curr := by
          intro x hx
          refine ⟨Spine_lt _ _ _ hsp1 x hx, ?_⟩
          have h1 := hl1 c hchild.1
          have h2 := hl1 curr hcurr
          simp only [List.mem_cons] at hx
          rcases hx with rfl | hx
          · rintro rfl; omega
          · have := Spine_levels hw1 ps _ _ c hsp1 x hx
            rintro rfl; omega
        simp only [deref_eq m1 curr node hc1]
        cases hfull : node.is_full with
        | true =>
          have hnum := is_full_num hn1 hfull
          obtain ⟨mid, hmid, hs⟩ :=
            split_eq cap m1 curr false e1 node hc1 (by omega) hn1.2.2.1
          have hmidV : node.valid[cap / 2]? = some mid := by
            have : cap / 2 < cap := Nat.div_lt_self (by omega) (by omega)
            simp only [DataNode_t.valid, hnum, List.getElem?_take, this, if_true, hmid]
          have hmin := mem_of_getElem?_eq hmidV
          have hmk := hkeys.2 mid hmin
          have hnlt : ¬ mid.get1 < e1.get1 := by have := hfront mid hmin; omega
          simp only [hnlt, if_false] at hs
          simp only [hs, if_true]
          have hst2 : spine_step cap (node.m_num_entries :: rest)
              = (true, (cap / 2 + 1) :: (spine_step cap rest).2) := by
            have : ¬ node.m_num_entries < cap := by omega
            rw [spine_step_cons, hsb]; simp [this]
          have hst3 : (spine_step cap (node.m_num_entries :: rest)).2
              = (cap / 2 + 1) :: (spine_step cap rest).2 := by rw [hst2]
          refine ⟨true, _, _, rfl, by rw [hst2], by simp,
            fun _ => ⟨rfl, hmk.1, hmk.2, ?_⟩⟩
          rw [hst3]
          have hkeys2 : KeysOK (key - 1) (some mid.get1)
              (ins_spec e1 (node.valid.take (cap / 2))) :=
            KeysOK_ins_front (KeysOK_take hkeys hmidV)
              (fun y hy => hfront y (List.mem_of_mem_take hy)) (by omega) (by omega)
              (fun bb hbb => by cases hbb; exact hfront mid hmin)
          obtain ⟨tl, htl⟩ := ins_spec_front (x := e1) (node.valid.take (cap / 2))
            (fun y hy => hfront y (List.mem_of_mem_take hy))
          refine (Spine_cons _ _ _ _ _ _ _).2
            ⟨(split_left cap m1.nodes.length node).inserted e1, e1, tl,
              (spine_step cap rest).2,
              getElem?_set_append_at _ _ _ _ (getElem?_lt hc1), ?_, ?_, ?_, hg0, ?_⟩
          · rw [split_left_inserted_num e1 hn1.2.2.1]
          · rw [split_left_inserted_valid e1 hnum hn1.2.2.1]; exact hkeys2
          · rw [split_left_inserted_valid e1 hnum hn1.2.2.1]; exact htl
          · exact Spine_frame _ _ _ hsp1
              (fun x hx => getElem?_set_append_old _ _ _ _ _ (hdist x hx).1 (hdist x hx).2)
        | false =>
          have hlt := is_full_false hfull
          rw [hn1.1] at hlt
          simp only [call_insert_eq m1 curr node e1 hc1 hb]
          have hst2 : spine_step cap (node.m_num_entries :: rest)
              = (false, (node.m_num_entries + 1) :: (spine_step cap rest).2) := by
            rw [spine_step_cons, hsb]; simp [hlt]
          have hst3 : (spine_step cap (node.m_num_entries :: rest)).2
              = (node.m_num_entries + 1) :: (spine_step cap rest).2 := by rw [hst2]
          refine ⟨false, _, _, rfl, by rw [hst2], fun _ => ?_, by simp⟩
          rw [hst3]
          obtain ⟨tl, htl⟩ := ins_spec_front (x := e1) node.valid hfront
          refine (Spine_cons _ _ _ _ _ _ _).2
            ⟨node.inserted e1, e1, tl, (spine_step cap rest).2,
              getElem?_set_eq' _ _ _ (getElem?_lt hc1), rfl,
              ?_, ?_, hg0, ?_⟩
          · rw [inserted_valid node e1 hb]
            exact KeysOK_ins_front hkeys hfront (by omega) (by omega)
              (fun bb hbb => by have := hek.2 bb hbb; omega)
          · rw [inserted_valid node e1 hb]; exact htl
          · exact Spine_frame _ _ _ hsp1
              (fun x hx => getElem?_set_ne' _ _ _ _ (Ne.symm (hdist x hx).2))

theorem insert_grow_eq {t : BTree} {key : Int} {data : Option Nat} {m1 : Mem}
    {e1 : data_entry}
    (hrec : insert_recursive t.m_max_entries t.fuel t.mem t.m_root key data
      { data_entry.default with get1 := key, get2 := data } = .ok (true, m1, e1)) :
    ∃ fi, t.insert key data = .ok (true,
      { t with
        mem := { nodes := m1.nodes ++ [(DataNode_t.new t.m_max_entries false).inserted e1]
                 full_inserts := fi }
        m_root := m1.nodes.length
        m_depth := t.m_depth + 1 }) := by
  have hnew : ({ nodes := m1.nodes ++ [DataNode_t.new t.m_max_entries false],
                 full_inserts := m1.full_inserts } : Mem).nodes[m1.nodes.length]?
      = some (DataNode_t.new t.m_max_entries false) := by
    simp only
    rw [List.getElem?_append_right (le_refl _)]
    simp
  have hnb : (DataNode_t.new t.m_max_entries false).m_num_entries
      ≤ (DataNode_t.new t.m_max_entries false).m_entries.length := by
    simp [DataNode_t.new]
  have hs2 := call_insert_eq _ _ _ e1 hnew hnb
  have hset : (m1.nodes ++ [DataNode_t.new t.m_max_entries false]).set m1.nodes.length
      ((DataNode_t.new t.m_max_entries false).inserted e1)
        = m1.nodes ++ [(DataNode_t.new t.m_max_entries false).inserted e1] := by
    rw [List.set_append_right _ _ (le_refl _)]
    simp
  simp only [hset] at hs2
  unfold BTree.insert
  simp only [hrec, Mem.alloc, hs2]
  exact ⟨_, rfl⟩

theorem DTree.new_desc (sizeof_entry block_size : Nat) (lo : Int) :
    DTree lo [0] (BTree.new sizeof_entry block_size) := by
  refine ⟨⟨True, MTree.new_fresh _ _⟩, [], ?_, rfl⟩
  refine (Spine_leaf _ _ _ _ _).2 ⟨DataNode_t.new (block_size / sizeof_entry) true, rfl, rfl, ?_, ?_⟩
  · rw [new_valid]
    exact ⟨List.Pairwise.nil, by simp⟩
  · rw [new_valid]
    simp

theorem DTree.insert_desc {lo : Int} {ts : List Nat} {t : BTree} (hd : DTree lo ts t)
    (hcap : 3 ≤ t.m_max_entries) (key : Int) (data : Option Nat) (hlo : key ≤ lo) :
    ∃ t1, t.insert key data = .ok (true, t1) ∧
      DTree (key - 1) (spine_insert t.m_max_entries ts) t1 ∧
      t1.m_max_entries = t.m_max_entries := by
  obtain ⟨⟨P, hm⟩, ps, hsp, hlen⟩ := hd
  obtain ⟨t1, h1, hm1, hc1, _, b, m1, e1, hrec, hf, _⟩ :=
    hm.insert_step (by omega) key data
  obtain ⟨lvl, hw, hsh, hroot, hlr, hdep, _⟩ := hm
  obtain ⟨b2, m2, e2, hrec2, hsb, hsf, hst⟩ :=
    Spine.step hcap key data t.fuel t.mem t.m_root
      { data_entry.default with get1 := key, get2 := data } lvl lo none ps ts hw hsh
      (by simp only [BTree.fuel]; omega) rfl rfl rfl hlo (by simp) hsp
  rw [hrec] at hrec2
  cases hrec2
  have hsl := spine_step_length t.m_max_entries ts
  refine ⟨t1, h1, ⟨⟨False, hm1⟩, ?_⟩, hc1⟩
  cases b with
  | false =>
    obtain ⟨hr, hdp, hmem⟩ := hf rfl
    refine ⟨ps, ?_, ?_⟩
    · rw [hr, hmem]
      unfold spine_insert
      rw [hsb]
      exact hsf rfl
    · unfold spine_insert
      rw [hsb, hdp]
      simp only [Bool.false_eq_true, if_false]
      omega
  | true =>
    obtain ⟨hg0, hlo1, _, hsp1⟩ := hst rfl
    obtain ⟨fi, h2⟩ := insert_grow_eq hrec
    rw [h2] at h1
    cases h1
    have hsi : spine_insert t.m_max_entries ts = 1 :: (spine_step t.m_max_entries ts).2 := by
      unfold spine_insert
      rw [hsb]
      simp
    have hnb : (DataNode_t.new t.m_max_entries false).m_num_entries
        ≤ (DataNode_t.new t.m_max_entries false).m_entries.length := by
      simp [DataNode_t.new]
    have hrootv : ((DataNode_t.new t.m_max_entries false).inserted e1).valid = [e1] := by
      rw [inserted_valid _ _ hnb, new_valid]; rfl
    refine ⟨t.m_root :: ps, ?_, ?_⟩
    · rw [hsi]
      refine (Spine_cons _ _ _ _ _ _ _).2
        ⟨(DataNode_t.new t.m_max_entries false).inserted e1, e1, [],
          (spine_step t.m_max_entries ts).2, ?_, rfl, ?_, hrootv, hg0, ?_⟩
      · simp only
        rw [List.getElem?_append_right (le_refl _)]
        simp
      · rw [hrootv]
        exact ⟨List.pairwise_singleton _ _, fun x hx => by
          simp only [List.mem_singleton] at hx
          subst hx
          exact ⟨by omega, by simp⟩⟩
      · refine Spine_frame _ _ _ hsp1 (fun x hx => ?_)
        simp only
        exact List.getElem?_append_left (Spine_lt _ _ _ hsp1 x hx)
    · rw [hsi]
      simp only [List.length_cons]
      omega

theorem DTree.insert_all_desc {cap : Nat} (hcap : 3 ≤ cap) :
    ∀ (n : Nat) (ops : List (Int × Option Nat)) (t : BTree) (lo : Int) (ts : List Nat),
      DTree lo ts t → t.m_max_entries = cap → SpineOK cap ts →
      ops.map Prod.fst = desc_keys n → (n : Int) ≤ lo →
      ∃ t1 lo1 ts1, BTree.insert_all t ops = .ok t1 ∧ DTree lo1 ts1 t1 ∧ SpineOK cap ts1 ∧
        spine_value (cap - cap / 2) ts1 = spine_value (cap - cap / 2) ts + n
  | 0, ops, t, lo, ts, hd, _, hok, hops, _ => by
    have : ops = [] := by
      cases ops with
      | nil => rfl
      | cons a b => simp [desc_keys] at hops
    subst this
    exact ⟨t, lo, ts, rfl, hd, hok, rfl⟩
  | n + 1, ops, t, lo, ts, hd, hc, hok, hops, hlo => by
    cases ops with
    | nil => simp [desc_keys] at hops
    | cons op rest =>
      obtain ⟨key, data⟩ := op
      simp only [desc_keys, List.map_cons, List.cons.injEq] at hops
      obtain ⟨hkey, hrest⟩ := hops
      obtain ⟨t1, h1, hd1, hc1⟩ := hd.insert_desc (by omega) key data (by omega)
      rw [hc] at hd1
      obtain ⟨t2, lo2, ts2, h2, hd2, hok2, hv2⟩ :=
        DTree.insert_all_desc hcap n rest t1 (key - 1) _ hd1 (by omega)
          (hok.insert_ok (by omega)) hrest (by rw [hkey]; push_cast; omega)
      refine ⟨t2, lo2, ts2, ?_, hd2, hok2, ?_⟩
      · simp only [BTree.insert_all, h1, h2]
      · rw [hv2, spine_insert_value cap ts hok.1]
        omega

/-! ## The claims -/

/-- C1 fails on the code at capacity 2, a capacity the constructor accepts:
after the inserts of the pairwise distinct keys 5, 4, 3, 2, 1 the call
`retrieve(5)` returns `NULL`, although key 5 was inserted with a payload.  The
split of the internal node copies the empty range `[2, 2)` into the new
sibling and so drops the child to the right of the middle key. -/
theorem C1_capacity_two_loses_key :
    2 ≤ 2 / 1 ∧
      ([((5 : Int), some 105), (4, some 104), (3, some 103), (2, some 102),
          (1, some 101)].map Prod.fst).Nodup ∧
      BTree.retrieve_after 1 2
          [(5, some 105), (4, some 104), (3, some 103), (2, some 102), (1, some 101)] 5
        = .ok none :=
  ⟨by decide, by decide, rfl⟩

/-- C2: for every node capacity of at least 3 (a 4096-byte block of 32-byte
entries gives 128) and every sequence of inserts of pairwise distinct keys, in
any order, the tree is built without a fault and `retrieve(k)` returns for
every inserted key `k` the payload pointer inserted with `k`. -/
theorem C2_retrieve_all_inserted (sizeof_entry block_size : Nat)
    (ops : List (Int × Option Nat)) (hcap : 3 ≤ block_size / sizeof_entry)
    (hnd : (ops.map Prod.fst).Nodup) :
    ∃ t, BTree.insert_all (BTree.new sizeof_entry block_size) ops = .ok t ∧
      ∀ op ∈ ops, t.retrieve op.1 = .ok op.2 := by
  obtain ⟨t, ht, hs, _⟩ := STree.insert_all_strong ops (BTree.new sizeof_entry block_size) _
    (STree.new_strong _ _) hcap hnd (fun _ _ _ h => h)
  exact ⟨t, ht, fun op hop => hs.retrieve_found (Or.inr hop)⟩

theorem C2_retrieve_all_inserted_witness :
    (3 ≤ 4096 / 32 ∧
        ([((4 : Int), some 14), (3, some 13), (2, some 12), (1, some 11)].map
          Prod.fst).Nodup) ∧
      ∃ t, BTree.insert_all (BTree.new 32 4096)
          [(4, some 14), (3, some 13), (2, some 12), (1, some 11)] = .ok t ∧
        ∀ op ∈ [((4 : Int), some 14), (3, some 13), (2, some 12), (1, some 11)],
          t.retrieve op.1 = .ok op.2 :=
  ⟨⟨by decide, by decide⟩,
    C2_retrieve_all_inserted 32 4096 _ (by decide) (by decide)⟩

/-- C3: for every node capacity of at least 2 and every sequence of inserts,
the empty one included, `retrieve(k)` returns `NULL` for every key `k` that
was never passed to `insert`. -/
theorem C3_never_inserted_absent (sizeof_entry block_size : Nat) (ops : List (Int × Option Nat))
    (key : Int) (hcap : 2 ≤ block_size / sizeof_entry) (hkey : ∀ op ∈ ops, op.1 ≠ key) :
    ∃ t, BTree.insert_all (BTree.new sizeof_entry block_size) ops = .ok t ∧
      t.retrieve key = .ok none := by
  obtain ⟨t, ht, hw, _⟩ := WTree.insert_all_weak (S := fun k => ∃ op ∈ ops, op.1 = k) ops
    (BTree.new sizeof_entry block_size) (WTree.new_weak _ _ _) hcap (fun op hop => ⟨op, hop, rfl⟩)
  refine ⟨t, ht, hw.retrieve_none key ?_⟩
  rintro ⟨op, hop, h⟩
  exact hkey op hop h

theorem C3_never_inserted_absent_witness :
    (2 ≤ 4096 / 32 ∧ ∀ op ∈ [((5 : Int), some 1), (3, some 2)], op.1 ≠ 4) ∧
      ∃ t, BTree.insert_all (BTree.new 32 4096) [(5, some 1), (3, some 2)] = .ok t ∧
        t.retrieve 4 = .ok none :=
  ⟨⟨by decide, by decide⟩,
    C3_never_inserted_absent 32 4096 [(5, some 1), (3, some 2)] 4 (by decide) (by decide)⟩

/-- C4, as stated, fails: at capacity 3, after the inserts (1,P1), (2,P2),
(3,P3), (2,Q) the call `retrieve(2)` returns `P2`, the older payload, although
the most recent insert of key 2 passed `Q`. -/
theorem C4_duplicate_after_split_keeps_old :
    3 ≤ 3 / 1 ∧
      BTree.retrieve_after 1 3 [(1, some 11), (2, some 12), (3, some 13), (2, some 22)] 2
        = .ok (some 12) ∧
      last_payload 2 [(1, some 11), (2, some 12), (3, some 13), (2, some 22)] = some 22 :=
  ⟨by decide, rfl, rfl⟩

/-- C4, amended: as long as no node has been split, the last insert wins.
For every node capacity and every sequence of at most capacity inserts, in
which keys may repeat, `retrieve(k)` returns the payload passed to the most
recent insert of `k` (`NULL` when `k` was never inserted). -/
theorem C4_last_insert_wins_in_one_leaf (sizeof_entry block_size : Nat)
    (ops : List (Int × Option Nat)) (key : Int)
    (hlen : ops.length ≤ block_size / sizeof_entry) :
    BTree.retrieve_after sizeof_entry block_size ops key = .ok (last_payload key ops) := by
  obtain ⟨t, n, ht, hl, hlook⟩ := OneLeaf.insert_all_leaf key ops _ _
    (OneLeaf.new_leaf sizeof_entry block_size) (by
      simp only [DataNode_t.new, BTree.new]; omega)
  simp only [BTree.retrieve_after, ht, hl.retrieve key, hlook, last_payload]
  rfl

theorem C4_last_insert_wins_in_one_leaf_witness :
    [((42 : Int), some 1), (42, some 2)].length ≤ 3 / 1 ∧
      BTree.retrieve_after 1 3 [(42, some 1), (42, some 2)] 42
        = .ok (last_payload 42 [(42, some 1), (42, some 2)]) ∧
      last_payload 42 [(42, some 1), (42, some 2)] = some 2 :=
  ⟨by decide, C4_last_insert_wins_in_one_leaf 1 3 [(42, some 1), (42, some 2)] 42 (by decide),
    rfl⟩

/-- C5: for every node capacity of at least 3 and every sequence of inserts
of pairwise distinct keys, the descent to the leftmost leaf and the walk along
the right-sibling links end, the nodes met are pairwise distinct leaves, and
the keys met are strictly ascending and are exactly the inserted keys, each
once. -/
theorem C5_leaf_chain_sorted (sizeof_entry block_size : Nat)
    (ops : List (Int × Option Nat)) (hcap : 3 ≤ block_size / sizeof_entry)
    (hnd : (ops.map Prod.fst).Nodup) :
    ∃ t ns, BTree.insert_all (BTree.new sizeof_entry block_size) ops = .ok t ∧
      t.leaves = .ok ns ∧ ns.Nodup ∧
      (∀ a ∈ ns, ∃ n, t.mem.nodes[a]? = some n ∧ n.m_is_leaf = true) ∧
      t.leaf_keys = .ok (chain_keys t.mem ns) ∧
      (chain_keys t.mem ns).Pairwise (· < ·) ∧
      (chain_keys t.mem ns).Perm (ops.map Prod.fst) := by
  obtain ⟨t, ht, hs, _⟩ := STree.insert_all_strong ops (BTree.new sizeof_entry block_size) _
    (STree.new_strong _ _) hcap hnd (fun _ _ _ h => h)
  obtain ⟨ns, h⟩ := hs.leaf_keys_spec (ops.map Prod.fst) hnd (by
    intro k
    simp only [List.mem_map, Prod.exists, exists_and_right, exists_eq_right, false_or])
  exact ⟨t, ns, ht, h⟩

theorem C5_leaf_chain_sorted_witness :
    (3 ≤ 3 / 1 ∧
        ([((5 : Int), some 50), (3, some 30), (8, some 80), (1, some 10)].map Prod.fst).Nodup) ∧
      (∃ t ns, BTree.insert_all (BTree.new 1 3)
          [(5, some 50), (3, some 30), (8, some 80), (1, some 10)] = .ok t ∧
        t.leaves = .ok ns ∧ ns.Nodup ∧
        (∀ a ∈ ns, ∃ n, t.mem.nodes[a]? = some n ∧ n.m_is_leaf = true) ∧
        t.leaf_keys = .ok (chain_keys t.mem ns) ∧
        (chain_keys t.mem ns).Pairwise (· < ·) ∧
        (chain_keys t.mem ns).Perm
          ([((5 : Int), some 50), (3, some 30), (8, some 80), (1, some 10)].map Prod.fst)) ∧
      BTree.leaf_keys_after 1 3 [(5, some 50), (3, some 30), (8, some 80), (1, some 10)]
        = .ok [1, 3, 5, 8] :=
  ⟨⟨by decide, by decide⟩, C5_leaf_chain_sorted 1 3 _ (by decide) (by decide), rfl⟩

/-- C6: for every node capacity of at least 2 and every sequence of inserts,
every node of the resulting tree has `m_num_entries <= m_max_entries`, and no
call of `DataNode_t::insert` made on behalf of `BTree::insert` had a full
receiver (the ghost counter of such calls is still 0). -/
theorem C6_capacity (sizeof_entry block_size : Nat) (ops : List (Int × Option Nat))
    (hcap : 2 ≤ block_size / sizeof_entry) :
    ∃ t, BTree.insert_all (BTree.new sizeof_entry block_size) ops = .ok t ∧
      (∀ n ∈ t.mem.nodes, n.m_num_entries ≤ n.m_max_entries) ∧
      t.mem.full_inserts = 0 := by
  obtain ⟨t, ht, ⟨lvl, hinv, _⟩, _⟩ := WTree.insert_all_weak (S := fun _ => True) ops
    (BTree.new sizeof_entry block_size) (WTree.new_weak _ _ _) hcap (fun _ _ => trivial)
  refine ⟨t, ht, ?_, hinv.1⟩
  intro n hn
  obtain ⟨i, hi⟩ := List.getElem?_of_mem hn
  have := hinv.2 i n hi
  rw [this.1]; exact this.2.1

theorem C6_capacity_witness :
    2 ≤ 2 / 1 ∧
      ∃ t, BTree.insert_all (BTree.new 1 2) [(3, some 1), (2, some 2), (1, none)] = .ok t ∧
        (∀ n ∈ t.mem.nodes, n.m_num_entries ≤ n.m_max_entries) ∧
        t.mem.full_inserts = 0 :=
  ⟨by decide, C6_capacity 1 2 [(3, some 1), (2, some 2), (1, none)] (by decide)⟩

/-- C7: for every node capacity of at least 2, every tree reached by inserts
and every key and payload, `BTree::insert` returns `true`; no `at`, no
iterator range and no pointer dereference on the way leaves its bounds, and
the descent ends. -/
theorem C7_insert_succeeds (sizeof_entry block_size : Nat) (ops : List (Int × Option Nat))
    (key : Int) (data : Option Nat) (hcap : 2 ≤ block_size / sizeof_entry) :
    ∃ t t1, BTree.insert_all (BTree.new sizeof_entry block_size) ops = .ok t ∧
      t.insert key data = .ok (true, t1) := by
  obtain ⟨t, ht, hw, hc⟩ := WTree.insert_all_weak (S := fun _ => True) ops
    (BTree.new sizeof_entry block_size) (WTree.new_weak _ _ _) hcap (fun _ _ => trivial)
  obtain ⟨t1, h1, _⟩ := hw.insert_weak (by rw [hc]; exact hcap) key data trivial
  exact ⟨t, t1, ht, h1⟩

theorem C7_insert_succeeds_witness :
    2 ≤ 2 / 1 ∧
      ∃ t t1, BTree.insert_all (BTree.new 1 2) [(3, some 1), (2, some 2)] = .ok t ∧
        t.insert 1 none = .ok (true, t1) :=
  ⟨by decide, C7_insert_succeeds 1 2 [(3, some 1), (2, some 2)] 1 none (by decide)⟩

/-- C8, as stated, fails: with node capacity 3, inserting 28, 27, .., 1 into a
fresh tree ends with `depth()` equal to 3, which is at least 3, while the
ceiling of the logarithm of 28 to base 3 is 4. -/
theorem C8_depth_differs_from_ceil_log :
    3 ≤ 3 / 1 ∧ BTree.depth_after 1 3 (descending 28) = .ok 3 ∧ (3 : Nat) ≠ Nat.clog 3 28 :=
  ⟨by decide, rfl, by simp [Nat.clog]⟩

/-- C8, amended: for every node capacity `c` of at least 3, every `N` and any
payloads, inserting the keys `N, N - 1, .., 1` in that order into a fresh tree
succeeds, and the final value `d` of `depth()` is the one number with
`c * (1 + q + .. + q ^ (d - 1)) < N ≤ c * (1 + q + .. + q ^ d)`, where
`q = c - c / 2` is half the capacity, rounded up (`d = 0` when `N = 0`): every
split of a leftmost node leaves `c / 2 + 1` entries in it, so it splits again
after `q` more entries. -/
theorem C8_descending_depth (sizeof_entry block_size N : Nat)
    (ops : List (Int × Option Nat)) (hcap : 3 ≤ block_size / sizeof_entry)
    (hkeys : ops.map Prod.fst = desc_keys N) :
    ∃ d, BTree.depth_after sizeof_entry block_size ops = .ok d ∧
      N ≤ (block_size / sizeof_entry)
        * geom (block_size / sizeof_entry - block_size / sizeof_entry / 2) (d + 1) ∧
      (N ≠ 0 → (block_size / sizeof_entry)
        * geom (block_size / sizeof_entry - block_size / sizeof_entry / 2) d < N) ∧
      (N = 0 → d = 0) := by
  obtain ⟨t, lo, ts, ht, hd, hok, hv⟩ :=
    DTree.insert_all_desc hcap N ops (BTree.new sizeof_entry block_size) N [0]
      (DTree.new_desc _ _ _) rfl (SpineOK.start _) hkeys (le_refl _)
  obtain ⟨_, ps, _, hlen⟩ := hd
  obtain ⟨hb1, hb2, hb3⟩ := hok.bounds (by omega)
  have hval : spine_value (block_size / sizeof_entry - block_size / sizeof_entry / 2) ts
      = N := by
    rw [hv]
    simp [spine_value]
  rw [hval, hlen] at hb1 hb2 hb3
  refine ⟨t.m_depth, ?_, hb1, ?_, ?_⟩
  · simp only [BTree.depth_after, ht, BTree.depth]
  · intro hN
    have := hb2 hN
    simpa using this
  · intro hN
    have := hb3 hN
    omega

theorem C8_descending_depth_witness :
    (3 ≤ 3 / 1 ∧
        [((10 : Int), some 110), (9, some 109), (8, some 108), (7, some 107), (6, some 106),
          (5, some 105), (4, some 104), (3, some 103), (2, some 102), (1, some 101)].map
            Prod.fst = desc_keys 10) ∧
      (∃ d, BTree.depth_after 1 3
          [(10, some 110), (9, some 109), (8, some 108), (7, some 107), (6, some 106),
            (5, some 105), (4, some 104), (3, some 103), (2, some 102), (1, some 101)] = .ok d ∧
        10 ≤ (3 / 1) * geom (3 / 1 - 3 / 1 / 2) (d + 1) ∧
        (10 ≠ 0 → (3 / 1) * geom (3 / 1 - 3 / 1 / 2) d < 10) ∧
        (10 = 0 → d = 0)) ∧
      BTree.depth_after 1 3
          [(10, some 110), (9, some 109), (8, some 108), (7, some 107), (6, some 106),
            (5, some 105), (4, some 104), (3, some 103), (2, some 102), (1, some 101)] = .ok 2 ∧
      3 * geom 2 2 = 9 ∧ 3 * geom 2 3 = 21 :=
  ⟨⟨by decide, by decide⟩, C8_descending_depth 1 3 10 _ (by decide) (by decide), rfl, rfl, rfl⟩

/-- C9, as stated, fails: a budget of 32 bytes with 32-byte entries gives
capacity 1, which is less than 2; the constructor returns a tree all the same,
and the tree is usable: `insert(5, P)` returns true and `retrieve(5)` returns
`P` afterwards. -/
theorem C9_capacity_one_is_accepted :
    to_size_t 32 / 32 < 2 ∧
      ∃ t t1, BTree.construct 32 32 = .ok t ∧ t.m_max_entries = 1 ∧
        t.insert 5 (some 7) = .ok (true, t1) ∧ t1.retrieve 5 = .ok (some 7) :=
  ⟨by decide, _, _, rfl, rfl, rfl, rfl⟩

/-- C9, amended: with a 32-bit `int`, a 64-bit `size_t` and an entry size that
divides `2 ^ 32` (32 bytes for `K = int`), the constructor rejects exactly the
negative budgets: for them `resize` throws `std::length_error`.  For every
budget that is not negative it returns a tree, also when the capacity
`floor(budget / entry_size)` is 0 or 1: the root is an empty leaf of that
capacity, the depth is 0 and `retrieve` returns `NULL` for every key; with
capacity 0 every `insert` then fails with an out-of-range access in `split`,
with capacity 1 a first `insert` succeeds and its payload is retrieved. -/
theorem C9_constructor_rejects_negative_only (sizeof_entry : Nat) (block_size : Int)
    (hd : sizeof_entry ∣ 2 ^ 32) (hlo : -2 ^ 31 ≤ block_size) (hhi : block_size < 2 ^ 31) :
    (block_size < 0 → BTree.construct sizeof_entry block_size = .error .length_error) ∧
      (0 ≤ block_size → ∃ t, BTree.construct sizeof_entry block_size = .ok t ∧
        t.m_max_entries = block_size.toNat / sizeof_entry ∧ t.depth = 0 ∧
        t.mem.nodes[t.m_root]? = some (DataNode_t.new t.m_max_entries true) ∧
        (DataNode_t.new t.m_max_entries true).m_num_entries = 0 ∧
        (∀ key, t.retrieve key = .ok none) ∧
        (t.m_max_entries = 0 → ∀ key data, t.insert key data = .error .out_of_range) ∧
        (t.m_max_entries = 1 → ∀ key data, ∃ t1, t.insert key data = .ok (true, t1) ∧
          t1.retrieve key = .ok data)) := by
  refine ⟨fun hneg => construct_negative sizeof_entry block_size hd hlo hneg, fun h0 => ?_⟩
  refine ⟨_, construct_nonneg sizeof_entry block_size h0 hhi, rfl, rfl, rfl, rfl, ?_, ?_, ?_⟩
  · intro key
    rw [(OneLeaf.new_leaf sizeof_entry block_size.toNat).retrieve key]
    rfl
  · intro h key data
    exact new_insert_capacity_zero sizeof_entry block_size.toNat h key data
  · intro h key data
    have hl := OneLeaf.new_leaf sizeof_entry block_size.toNat
    obtain ⟨t1, h1, hl1, _⟩ := hl.insert_leaf (by
      show 0 < (BTree.new sizeof_entry block_size.toNat).m_max_entries
      omega) key data
    refine ⟨t1, h1, ?_⟩
    rw [hl1.retrieve key, inserted_valid _ _ (by simp [DataNode_t.new]), lookup_ins_spec]
    simp

theorem C9_constructor_rejects_negative_only_witness :
    ((32 : Nat) ∣ 2 ^ 32 ∧ -2 ^ 31 ≤ (-1 : Int) ∧ (-1 : Int) < 2 ^ 31 ∧
        -2 ^ 31 ≤ (32 : Int) ∧ (32 : Int) < 2 ^ 31) ∧
      BTree.construct 32 (-1) = .error .length_error ∧
      ∃ t, BTree.construct 32 32 = .ok t ∧
        t.m_max_entries = (32 : Int).toNat / 32 ∧ t.depth = 0 ∧
        t.mem.nodes[t.m_root]? = some (DataNode_t.new t.m_max_entries true) ∧
        (DataNode_t.new t.m_max_entries true).m_num_entries = 0 ∧
        (∀ key, t.retrieve key = .ok none) ∧
        (t.m_max_entries = 0 → ∀ key data, t.insert key data = .error .out_of_range) ∧
        (t.m_max_entries = 1 → ∀ key data, ∃ t1, t.insert key data = .ok (true, t1) ∧
          t1.retrieve key = .ok data) :=
  ⟨⟨by decide, by decide, by decide, by decide, by decide⟩,
    (C9_constructor_rejects_negative_only 32 (-1) (by decide) (by decide) (by decide)).1
      (by decide),
    (C9_constructor_rejects_negative_only 32 32 (by decide) (by decide) (by decide)).2
      (by decide)⟩

/-- C10: `split` on a full node with entries `E` (as many as the capacity,
which is at least 2) and pending entry `p` promotes the key of `E[half]`;
the original node `X` and the new sibling `Y` are the nodes holding
`E[0..half)` and `E[from..)` (`from` is `half` for a leaf, `half + 1` for an
internal node), one of them after `DataNode_t::insert(p)`: the sibling when
the key of `p` is greater than the promoted key, the original node otherwise.
Read as (key, payload) pairs, the two nodes hold the pairs of
`E[0..half) ++ E[from..)` in their order with the pair of `p` put in at the
index of the first key not smaller than its key. -/
theorem C10_split_partition (cap : Nat) (m : Mem) (ts : Nat) (lf : Bool) (p : data_entry)
    (n : DataNode_t) (hn : m.nodes[ts]? = some n) (hcap : 2 ≤ cap)
    (hnum : n.m_num_entries = cap) (hlen : cap ≤ n.m_entries.length) :
    ∃ mid m1 X Y,
      n.valid[cap / 2]? = some mid ∧
      split cap m ts lf p
        = .ok (m1, { p with get0 := some ts, get1 := mid.get1, get3 := some m.nodes.length }) ∧
      m1.nodes[ts]? = some X ∧ m1.nodes[m.nodes.length]? = some Y ∧
      m1.nodes.length = m.nodes.length + 1 ∧
      (split_left cap m.nodes.length n).valid = n.valid.take (cap / 2) ∧
      (split_right cap lf n).valid = n.valid.drop (split_from cap lf) ∧
      (mid.get1 < p.get1 →
        X = split_left cap m.nodes.length n ∧
        (split_right cap lf n).insert p = .ok (true, Y) ∧
        Y.valid = ins_spec p (n.valid.drop (split_from cap lf)) ∧
        X.valid.map data_entry.pair ++ Y.valid.map data_entry.pair
          = ((n.valid.take (cap / 2) ++ n.valid.drop (split_from cap lf)).map
              data_entry.pair).take (cap / 2 + pos p.get1 (n.valid.drop (split_from cap lf)))
            ++ p.pair ::
              ((n.valid.take (cap / 2) ++ n.valid.drop (split_from cap lf)).map
                data_entry.pair).drop
                  (cap / 2 + pos p.get1 (n.valid.drop (split_from cap lf)))) ∧
      (¬ mid.get1 < p.get1 →
        (split_left cap m.nodes.length n).insert p = .ok (true, X) ∧
        Y = split_right cap lf n ∧
        X.valid = ins_spec p (n.valid.take (cap / 2)) ∧
        X.valid.map data_entry.pair ++ Y.valid.map data_entry.pair
          = ((n.valid.take (cap / 2) ++ n.valid.drop (split_from cap lf)).map
              data_entry.pair).take (pos p.get1 (n.valid.take (cap / 2)))
            ++ p.pair ::
              ((n.valid.take (cap / 2) ++ n.valid.drop (split_from cap lf)).map
                data_entry.pair).drop (pos p.get1 (n.valid.take (cap / 2)))) ∧
      (lf = true → n.valid.take (cap / 2) ++ n.valid.drop (split_from cap lf) = n.valid) ∧
      (lf = false →
        n.valid = n.valid.take (cap / 2) ++ mid :: n.valid.drop (split_from cap lf)) := by
  have hts := getElem?_lt hn
  have hh : cap / 2 < cap := Nat.div_lt_self (by omega) (by omega)
  obtain ⟨mid, hmid, hs⟩ := split_eq cap m ts lf p n hn (by omega) hlen
  obtain ⟨hV, hRV, hAl, hBl⟩ := full_decompose hnum hlen hcap hmid
  have hXv : (split_left cap m.nodes.length n).valid = n.valid.take (cap / 2) := by
    rw [split_left_valid, valid_take_half hnum]
  have hYv : (split_right cap lf n).valid = n.valid.drop (split_from cap lf) := by
    rw [split_right_valid, valid_drop_from _ hnum]
  have hXb : (split_left cap m.nodes.length n).m_num_entries
      ≤ (split_left cap m.nodes.length n).m_entries.length := by
    simp only [split_left, vec_resize_length, List.length_take]; omega
  have hYb : (split_right cap lf n).m_num_entries
      ≤ (split_right cap lf n).m_entries.length := by
    simp only [split_right, vec_resize_length, List.length_take]; omega
  have hmidV : n.valid[cap / 2]? = some mid := by
    simp only [DataNode_t.valid, hnum, List.getElem?_take, hh, if_true, hmid]
  have hAlen : (n.valid.take (cap / 2)).length = cap / 2 := by
    rw [valid_take_half hnum]; exact hAl
  have hfromleaf : lf = true →
      n.valid.take (cap / 2) ++ n.valid.drop (split_from cap lf) = n.valid := by
    intro h
    subst h
    rw [split_from_leaf, List.take_append_drop]
  have hfromint : lf = false →
      n.valid = n.valid.take (cap / 2) ++ mid :: n.valid.drop (split_from cap lf) := by
    intro h
    subst h
    rw [split_from_internal, valid_take_half hnum, valid_drop_from _ hnum]
    exact hV
  by_cases hk : mid.get1 < p.get1
  · refine ⟨mid, _, split_left cap m.nodes.length n, (split_right cap lf n).inserted p,
      hmidV, hs, ?_, ?_, ?_, hXv, hYv, ?_, fun h => absurd hk h, hfromleaf, hfromint⟩
    · simp only [hk, if_true]
      exact getElem?_set_append_at _ _ _ _ hts
    · simp only [hk, if_true]
      exact getElem?_set_append_new _ _ _ _
    · simp only [hk, if_true]; simp
    · intro _
      refine ⟨rfl, insert_eq2 _ _ hYb, by rw [inserted_valid _ _ hYb, hYv], ?_⟩
      rw [inserted_valid _ _ hYb, hYv, hXv, pair_ins_spec, List.map_append,
        insert_at_append_right]
      simp only [List.length_map, hAlen]
  · refine ⟨mid, _, (split_left cap m.nodes.length n).inserted p, split_right cap lf n,
      hmidV, hs, ?_, ?_, ?_, hXv, hYv, fun h => absurd h hk, ?_, hfromleaf, hfromint⟩
    · simp only [hk, if_false]
      exact getElem?_set_append_at _ _ _ _ hts
    · simp only [hk, if_false]
      exact getElem?_set_append_new _ _ _ _
    · simp only [hk, if_false]; simp
    · intro _
      refine ⟨insert_eq2 _ _ hXb, rfl, by rw [inserted_valid _ _ hXb, hXv], ?_⟩
      rw [inserted_valid _ _ hXb, hYv, hXv, pair_ins_spec, List.map_append,
        insert_at_append_left]
      simp only [List.length_map]
      exact pos_le _ _

theorem C10_split_partition_witness :
    (example_arena.nodes[0]? = some example_full_leaf ∧ 2 ≤ 3 ∧
        example_full_leaf.m_num_entries = 3 ∧ 3 ≤ example_full_leaf.m_entries.length) ∧
      ∃ mid m1 X Y,
        example_full_leaf.valid[3 / 2]? = some mid ∧
        split 3 example_arena 0 true example_pending
          = .ok (m1, { example_pending with get0 := some 0, get1 := mid.get1, get3 := some example_arena.nodes.length }) ∧
        m1.nodes[0]? = some X ∧ m1.nodes[example_arena.nodes.length]? = some Y ∧
        m1.nodes.length = example_arena.nodes.length + 1 ∧
        (split_left 3 example_arena.nodes.length example_full_leaf).valid = example_full_leaf.valid.take (3 / 2) ∧
        (split_right 3 true example_full_leaf).valid = example_full_leaf.valid.drop (split_from 3 true) ∧
        (mid.get1 < example_pending.get1 →
          X = split_left 3 example_arena.nodes.length example_full_leaf ∧
          (split_right 3 true example_full_leaf).insert example_pending = .ok (true, Y) ∧
          Y.valid = ins_spec example_pending (example_full_leaf.valid.drop (split_from 3 true)) ∧
          X.valid.map data_entry.pair ++ Y.valid.map data_entry.pair
            = ((example_full_leaf.valid.take (3 / 2) ++ example_full_leaf.valid.drop (split_from 3 true)).map
                data_entry.pair).take (3 / 2 + pos example_pending.get1 (example_full_leaf.valid.drop (split_from 3 true)))
              ++ example_pending.pair ::
                ((example_full_leaf.valid.take (3 / 2) ++ example_full_leaf.valid.drop (split_from 3 true)).map
                  data_entry.pair).drop
                    (3 / 2 + pos example_pending.get1 (example_full_leaf.valid.drop (split_from 3 true)))) ∧
        (¬ mid.get1 < example_pending.get1 →
          (split_left 3 example_arena.nodes.length example_full_leaf).insert example_pending = .ok (true, X) ∧
          Y = split_right 3 true example_full_leaf ∧
          X.valid = ins_spec example_pending (example_full_leaf.valid.take (3 / 2)) ∧
          X.valid.map data_entry.pair ++ Y.valid.map data_entry.pair
            = ((example_full_leaf.valid.take (3 / 2) ++ example_full_leaf.valid.drop (split_from 3 true)).map
                data_entry.pair).take (pos example_pending.get1 (example_full_leaf.valid.take (3 / 2)))
              ++ example_pending.pair ::
                ((example_full_leaf.valid.take (3 / 2) ++ example_full_leaf.valid.drop (split_from 3 true)).map
                  data_entry.pair).drop (pos example_pending.get1 (example_full_leaf.valid.take (3 / 2)))) ∧
        (true = true → example_full_leaf.valid.take (3 / 2) ++ example_full_leaf.valid.drop (split_from 3 true) = example_full_leaf.valid) ∧
        (true = false →
          example_full_leaf.valid = example_full_leaf.valid.take (3 / 2) ++ mid :: example_full_leaf.valid.drop (split_from 3 true)) :=
  ⟨⟨rfl, by decide, rfl, by decide⟩,
    C10_split_partition 3 example_arena 0 true example_pending example_full_leaf rfl
      (by decide) rfl (by decide)⟩

/-- C11: `split` puts the new sibling into the chain right after the split
node.  On a node `n` at `ts` whose vector holds at least the capacity, the
call returns; the new sibling is the node allocated at the end of the arena,
its `m_right` is the `m_right` that `n` had before the call, the `m_right` of
the split node is the sibling, and every other node is left as it was. -/
theorem C11_split_splices_sibling (cap : Nat) (m : Mem) (ts : Nat) (lf : Bool)
    (p : data_entry) (n : DataNode_t) (hn : m.nodes[ts]? = some n) (hcap : 1 ≤ cap)
    (hlen : cap ≤ n.m_entries.length) :
    ∃ m1 e1 X Y, split cap m ts lf p = .ok (m1, e1) ∧
      m1.nodes.length = m.nodes.length + 1 ∧ e1.get3 = some m.nodes.length ∧
      m1.nodes[ts]? = some X ∧ m1.nodes[m.nodes.length]? = some Y ∧
      Y.m_right = n.m_right ∧ X.m_right = some m.nodes.length ∧
      ∀ i, i < m.nodes.length → i ≠ ts → m1.nodes[i]? = m.nodes[i]? := by
  have hts := getElem?_lt hn
  obtain ⟨mid, _, hs⟩ := split_eq cap m ts lf p n hn hcap hlen
  by_cases hk : mid.get1 < p.get1
  · simp only [hk, if_true] at hs
    exact ⟨_, _, split_left cap m.nodes.length n, (split_right cap lf n).inserted p, hs,
      by simp, rfl, getElem?_set_append_at _ _ _ _ hts, getElem?_set_append_new _ _ _ _,
      rfl, rfl, fun i hi hne => getElem?_set_append_old _ _ _ _ _ hi hne⟩
  · simp only [hk, if_false] at hs
    exact ⟨_, _, (split_left cap m.nodes.length n).inserted p, split_right cap lf n, hs,
      by simp, rfl, getElem?_set_append_at _ _ _ _ hts, getElem?_set_append_new _ _ _ _,
      rfl, rfl, fun i hi hne => getElem?_set_append_old _ _ _ _ _ hi hne⟩

theorem C11_split_splices_sibling_witness :
    (example_arena.nodes[0]? = some example_full_leaf ∧ 1 ≤ 3 ∧
        3 ≤ example_full_leaf.m_entries.length) ∧
      ∃ m1 e1 X Y, split 3 example_arena 0 true example_pending = .ok (m1, e1) ∧
        m1.nodes.length = example_arena.nodes.length + 1 ∧
        e1.get3 = some example_arena.nodes.length ∧
        m1.nodes[0]? = some X ∧ m1.nodes[example_arena.nodes.length]? = some Y ∧
        Y.m_right = example_full_leaf.m_right ∧ X.m_right = some example_arena.nodes.length ∧
        ∀ i, i < example_arena.nodes.length → i ≠ 0 → m1.nodes[i]? = example_arena.nodes[i]? :=
  ⟨⟨rfl, by decide, by decide⟩,
    C11_split_splices_sibling 3 example_arena 0 true example_pending example_full_leaf rfl
      (by decide) (by decide)⟩

/-- C12 fails on the code: `split` leaves `get<2>` of the pending entry in the
entry it hands back.  Splitting the full leaf 10, 20, 30 with the pending
entry (25, payload 4) hands back an entry with payload 4, not `NULL`; and at
capacity 3 the inserts (1,P1), (2,P2), (3,P3), (4,P4) end with an internal
root whose only entry has the payload P4. -/
theorem C12_promoted_entry_keeps_payload :
    (∃ m1, split 3 example_arena 0 true example_pending
        = .ok (m1, ⟨some 0, 20, some 4, some 1⟩)) ∧
      ∃ t root, BTree.insert_all (BTree.new 1 3)
          [(1, some 11), (2, some 12), (3, some 13), (4, some 14)] = .ok t ∧
        t.mem.nodes[t.m_root]? = some root ∧ root.m_is_leaf = false ∧
        root.valid = [⟨some 0, 2, some 14, some 1⟩] :=
  ⟨⟨_, rfl⟩, _, _, rfl, rfl, rfl, rfl⟩

/-- C13: `DataNode_t::insert(e)` on a node whose valid entries lie inside its
vector returns true and raises the entry count by one; `e` is put at the index
`i` of the first entry whose key is not smaller than the key of `e` (every
entry before `i` has a smaller key), the other (key, payload) pairs keep their
order around it; ascending keys stay ascending, and strictly ascending keys
stay strictly ascending when the key of `e` was not there before. -/
theorem C13_node_insert_ordered (n : DataNode_t) (e : data_entry)
    (hb : n.m_num_entries ≤ n.m_entries.length)
    (hs : n.valid.Pairwise (fun a b => a.get1 ≤ b.get1)) :
    ∃ n1, n.insert e = .ok (true, n1) ∧ n1.m_num_entries = n.m_num_entries + 1 ∧
      n1.valid.length = n.valid.length + 1 ∧
      n1.valid[pos e.get1 n.valid]? = some e ∧
      (∀ j x, j < pos e.get1 n.valid → n.valid[j]? = some x → x.get1 < e.get1) ∧
      (∀ x, n.valid[pos e.get1 n.valid]? = some x → e.get1 ≤ x.get1) ∧
      n1.valid.map data_entry.pair
        = (n.valid.map data_entry.pair).take (pos e.get1 n.valid)
          ++ e.pair :: (n.valid.map data_entry.pair).drop (pos e.get1 n.valid) ∧
      n1.valid.Pairwise (fun a b => a.get1 ≤ b.get1) ∧
      (n.valid.Pairwise (fun a b => a.get1 < b.get1) → (∀ x ∈ n.valid, x.get1 ≠ e.get1) →
        n1.valid.Pairwise (fun a b => a.get1 < b.get1)) := by
  refine ⟨n.inserted e, insert_eq2 n e hb, rfl, ?_, ?_, (pos_first e.get1 n.valid).1,
    (pos_first e.get1 n.valid).2, ?_, ?_, ?_⟩
  · rw [inserted_valid n e hb, ins_spec_length]
  · rw [inserted_valid n e hb]; exact ins_spec_at_pos e n.valid
  · rw [inserted_valid n e hb]; exact pair_ins_spec e n.valid
  · rw [inserted_valid n e hb]; exact ins_spec_sorted_le e n.valid hs
  · intro hlt hne
    rw [inserted_valid n e hb]; exact ins_spec_sorted e n.valid hlt hne

theorem C13_node_insert_ordered_witness :
    (example_open_leaf.m_num_entries ≤ example_open_leaf.m_entries.length ∧
        example_open_leaf.valid.Pairwise (fun a b => a.get1 ≤ b.get1)) ∧
      ∃ n1, example_open_leaf.insert example_pending = .ok (true, n1) ∧
        n1.m_num_entries = example_open_leaf.m_num_entries + 1 ∧
        n1.valid.length = example_open_leaf.valid.length + 1 ∧
        n1.valid[pos example_pending.get1 example_open_leaf.valid]? = some example_pending ∧
        (∀ j x, j < pos example_pending.get1 example_open_leaf.valid →
          example_open_leaf.valid[j]? = some x → x.get1 < example_pending.get1) ∧
        (∀ x, example_open_leaf.valid[pos example_pending.get1 example_open_leaf.valid]? = some x →
          example_pending.get1 ≤ x.get1) ∧
        n1.valid.map data_entry.pair
          = (example_open_leaf.valid.map data_entry.pair).take
              (pos example_pending.get1 example_open_leaf.valid)
            ++ example_pending.pair :: (example_open_leaf.valid.map data_entry.pair).drop
              (pos example_pending.get1 example_open_leaf.valid) ∧
        n1.valid.Pairwise (fun a b => a.get1 ≤ b.get1) ∧
        (example_open_leaf.valid.Pairwise (fun a b => a.get1 < b.get1) →
          (∀ x ∈ example_open_leaf.valid, x.get1 ≠ example_pending.get1) →
          n1.valid.Pairwise (fun a b => a.get1 < b.get1)) :=
  ⟨⟨by decide, by decide⟩,
    C13_node_insert_ordered example_open_leaf example_pending (by decide) (by decide)⟩

/-- C14: after `DataNode_t::insert(e)` has put `e` at index `i`, the entry
before it (old index `i - 1`) has `get<3>` equal to `get<0>` of `e`, the entry
after it (old index `i`, new index `i + 1`) has `get<0>` equal to `get<3>` of
`e`, and nothing else of the entries that were there has changed: the entries
before `i` stay at their index, those from `i` on move up by one. -/
theorem C14_insert_link_repair (n : DataNode_t) (e : data_entry)
    (hb : n.m_num_entries ≤ n.m_entries.length) :
    ∃ n1, n.insert e = .ok (true, n1) ∧ n1.valid.length = n.valid.length + 1 ∧
      n1.valid[pos e.get1 n.valid]? = some e ∧
      (∀ j x, j < pos e.get1 n.valid → n.valid[j]? = some x →
        n1.valid[j]? = some (if j + 1 = pos e.get1 n.valid then { x with get3 := e.get0 }
          else x)) ∧
      (∀ j x, pos e.get1 n.valid ≤ j → n.valid[j]? = some x →
        n1.valid[j + 1]? = some (if j = pos e.get1 n.valid then { x with get0 := e.get3 }
          else x)) := by
  refine ⟨n.inserted e, insert_eq2 n e hb, ?_, ?_, ?_, ?_⟩
  · rw [inserted_valid n e hb, ins_spec_length]
  · rw [inserted_valid n e hb]; exact ins_spec_at_pos e n.valid
  · rw [inserted_valid n e hb]; exact ins_spec_before e n.valid
  · rw [inserted_valid n e hb]; exact ins_spec_after e n.valid

theorem C14_insert_link_repair_witness :
    example_inner.m_num_entries ≤ example_inner.m_entries.length ∧
      (∃ n1, example_inner.insert example_promoted = .ok (true, n1) ∧
        n1.valid.length = example_inner.valid.length + 1 ∧
        n1.valid[pos example_promoted.get1 example_inner.valid]? = some example_promoted ∧
        (∀ j x, j < pos example_promoted.get1 example_inner.valid →
          example_inner.valid[j]? = some x →
          n1.valid[j]? = some (if j + 1 = pos example_promoted.get1 example_inner.valid
            then { x with get3 := example_promoted.get0 } else x)) ∧
        (∀ j x, pos example_promoted.get1 example_inner.valid ≤ j →
          example_inner.valid[j]? = some x →
          n1.valid[j + 1]? = some (if j = pos example_promoted.get1 example_inner.valid
            then { x with get0 := example_promoted.get3 } else x))) ∧
      example_inner.insert example_promoted = .ok (true,
        { example_inner with
          m_entries := [⟨some 1, 10, none, some 2⟩, ⟨some 2, 15, none, some 4⟩,
            ⟨some 4, 20, none, some 3⟩, data_entry.default, data_entry.default]
          m_num_entries := 3 }) :=
  ⟨by decide, C14_insert_link_repair example_inner example_promoted (by decide), rfl⟩

/-- C15: `DataNode_t::next(key)` on a node whose valid entries lie inside its
vector returns `NULL` when the node has no entries; for the first entry (by
index) whose key is not smaller than `key` it returns `get<0>` of that entry
when its key is greater than `key` and `get<3>` when it is equal; when every
key is smaller it returns `get<3>` of the last valid entry.  The method writes
nothing: its embedding returns the pointer only. -/
theorem C15_next_spec (n : DataNode_t) (key : Int)
    (hb : n.m_num_entries ≤ n.m_entries.length) :
    (n.m_num_entries = 0 → n.next key = .ok none) ∧
      (∀ (i : Nat) (e : data_entry), n.valid[i]? = some e →
        (∀ (j : Nat) (x : data_entry), j < i → n.valid[j]? = some x → x.get1 < key) → key ≤ e.get1 →
        n.next key = .ok (if key < e.get1 then e.get0 else e.get3)) ∧
      (∀ (l : data_entry), n.valid.getLast? = some l → (∀ x ∈ n.valid, x.get1 < key) →
        n.next key = .ok l.get3) := by
  refine ⟨?_, ?_, ?_⟩
  · intro h
    simp [DataNode_t.next, h]
  · intro i e he hlt hk
    rw [next_eq n key hb, route_first key n.valid none i e he hlt hk]
  · intro l hl hlt
    rw [next_eq n key hb, route_past key n.valid none l hl hlt]

theorem C15_next_spec_witness :
    example_inner.m_num_entries ≤ example_inner.m_entries.length ∧
      ((example_inner.m_num_entries = 0 → example_inner.next 20 = .ok none) ∧
        (∀ (i : Nat) (e : data_entry), example_inner.valid[i]? = some e →
          (∀ (j : Nat) (x : data_entry), j < i → example_inner.valid[j]? = some x → x.get1 < 20) → 20 ≤ e.get1 →
          example_inner.next 20 = .ok (if 20 < e.get1 then e.get0 else e.get3)) ∧
        (∀ (l : data_entry), example_inner.valid.getLast? = some l →
          (∀ x ∈ example_inner.valid, x.get1 < 20) → example_inner.next 20 = .ok l.get3)) ∧
      example_inner.next 5 = .ok (some 1) ∧ example_inner.next 10 = .ok (some 2) ∧
      example_inner.next 15 = .ok (some 2) ∧ example_inner.next 20 = .ok (some 3) ∧
      example_inner.next 25 = .ok (some 3) :=
  ⟨by decide, C15_next_spec example_inner 20 (by decide), rfl, rfl, rfl, rfl, rfl⟩

/-- C16 fails on the code at capacity 2: after the inserts 5, 4, 3, 2, 1 the
right child of the root is node 5, an internal node (`m_is_leaf` false)
without any entry, on which `next` returns `NULL`; it is not the root, and
the tree is not empty. -/
theorem C16_capacity_two_empty_internal :
    2 ≤ 2 / 1 ∧
      ∃ t root e n, BTree.insert_all (BTree.new 1 2)
          [(5, some 15), (4, some 14), (3, some 13), (2, some 12), (1, some 11)] = .ok t ∧
        t.mem.nodes[t.m_root]? = some root ∧ root.valid = [e] ∧ e.get3 = some 5 ∧
        t.mem.nodes[5]? = some n ∧ n.m_is_leaf = false ∧ n.m_num_entries = 0 ∧
        n.next 5 = .ok none ∧ t.m_root ≠ 5 :=
  ⟨by decide, _, _, _, _, rfl, rfl, rfl, rfl, rfl, rfl, rfl, rfl, by decide⟩

/-- C17: for every node capacity of at least 2 and every sequence of inserts,
in every node of the tree they build (internal nodes in particular) and for
every two neighbouring valid entries `i` and `i + 1`, `get<3>` of entry `i`
and `get<0>` of entry `i + 1` are the same pointer. -/
theorem C17_adjacent_share_child (sizeof_entry block_size : Nat)
    (ops : List (Int × Option Nat)) (hcap : 2 ≤ block_size / sizeof_entry) :
    ∃ t, BTree.insert_all (BTree.new sizeof_entry block_size) ops = .ok t ∧
      ∀ (p : Nat) (n : DataNode_t) (i : Nat) (a b : data_entry),
        t.mem.nodes[p]? = some n → n.valid[i]? = some a → n.valid[i + 1]? = some b →
        a.get3 = b.get0 := by
  obtain ⟨t, ht, hm, _, _⟩ := MTree.insert_all_steps ops (BTree.new sizeof_entry block_size)
    True (MTree.new_fresh _ _) hcap
  obtain ⟨lvl, _, hs, _⟩ := hm
  exact ⟨t, ht, fun p n i a b hn ha hb => (hs p n hn).1 i a b ha hb⟩

theorem C17_adjacent_share_child_witness :
    2 ≤ 2 / 1 ∧
      ∃ t, BTree.insert_all (BTree.new 1 2)
          [(5, some 15), (4, some 14), (3, some 13), (2, some 12), (1, some 11)] = .ok t ∧
        ∀ (p : Nat) (n : DataNode_t) (i : Nat) (a b : data_entry),
          t.mem.nodes[p]? = some n → n.valid[i]? = some a → n.valid[i + 1]? = some b →
          a.get3 = b.get0 :=
  ⟨by decide, C17_adjacent_share_child 1 2 _ (by decide)⟩

/-- C18: the constructor yields an empty leaf as root and depth 0.  On every
tree built by inserts at a capacity of at least 2, `insert` returns true and:
when `insert_recursive` on the old root reports no split (false), the root
pointer and `depth()` are unchanged; when it reports a split (true), `depth()`
has grown by exactly 1 and the root is a new internal node with exactly one
entry, the one handed up, whose key is the key of the middle entry (index
`capacity / 2`) of the old root, whose `get<0>` is the old root and whose
`get<3>` is the node `s` made by that split, the new right sibling of the old
root.  In both cases `depth()` has not decreased. -/
theorem C18_root_growth (sizeof_entry block_size : Nat) (ops : List (Int × Option Nat))
    (key : Int) (data : Option Nat) (hcap : 2 ≤ block_size / sizeof_entry) :
    (BTree.new sizeof_entry block_size).depth = 0 ∧
      (BTree.new sizeof_entry block_size).mem.nodes[(BTree.new sizeof_entry block_size).m_root]?
        = some (DataNode_t.new (block_size / sizeof_entry) true) ∧
      (DataNode_t.new (block_size / sizeof_entry) true).m_num_entries = 0 ∧
      ∃ t t1, BTree.insert_all (BTree.new sizeof_entry block_size) ops = .ok t ∧
        t.insert key data = .ok (true, t1) ∧ t.depth ≤ t1.depth ∧
        ∃ b m1 e1, insert_recursive t.m_max_entries t.fuel t.mem t.m_root key data
            { data_entry.default with get1 := key, get2 := data } = .ok (b, m1, e1) ∧
          (b = false → t1.m_root = t.m_root ∧ t1.depth = t.depth) ∧
          (b = true → t1.depth = t.depth + 1 ∧ t1.m_root + 1 = t1.mem.nodes.length ∧
            ∃ old mid root e X s, t.mem.nodes[t.m_root]? = some old ∧
              old.valid[t.m_max_entries / 2]? = some mid ∧
              t1.mem.nodes[t1.m_root]? = some root ∧ root.m_is_leaf = false ∧
              root.m_num_entries = 1 ∧ root.valid = [e] ∧
              e.get0 = some t.m_root ∧ e.get1 = mid.get1 ∧ e.get3 = some s ∧
              e = e1 ∧ t.mem.nodes.length ≤ s ∧ s < t1.m_root ∧
              t1.mem.nodes[t.m_root]? = some X ∧ X.m_right = some s) := by
  refine ⟨rfl, rfl, rfl, ?_⟩
  obtain ⟨t, ht, hm, hc, _⟩ := MTree.insert_all_steps ops (BTree.new sizeof_entry block_size)
    True (MTree.new_fresh _ _) hcap
  obtain ⟨t1, h1, _, _, _, b, m1, e1, hrec, hf, htr⟩ :=
    hm.insert_step (by rw [hc]; exact hcap) key data
  refine ⟨t, t1, ht, h1, ?_, b, m1, e1, hrec, fun hb => ⟨(hf hb).1, (hf hb).2.1⟩, htr⟩
  cases b with
  | false => exact le_of_eq (hf rfl).2.1.symm
  | true => have := (htr rfl).1; show t.m_depth ≤ t1.m_depth; omega

theorem C18_root_growth_witness :
    2 ≤ 3 / 1 ∧
      ((BTree.new 1 3).depth = 0 ∧
        (BTree.new 1 3).mem.nodes[(BTree.new 1 3).m_root]?
          = some (DataNode_t.new (3 / 1) true) ∧
        (DataNode_t.new (3 / 1) true).m_num_entries = 0 ∧
        ∃ t t1, BTree.insert_all (BTree.new 1 3)
            [(1, some 11), (2, some 12), (3, some 13)] = .ok t ∧
          t.insert 4 (some 14) = .ok (true, t1) ∧ t.depth ≤ t1.depth ∧
          ∃ b m1 e1, insert_recursive t.m_max_entries t.fuel t.mem t.m_root 4 (some 14)
              { data_entry.default with get1 := 4, get2 := some 14 } = .ok (b, m1, e1) ∧
            (b = false → t1.m_root = t.m_root ∧ t1.depth = t.depth) ∧
            (b = true → t1.depth = t.depth + 1 ∧ t1.m_root + 1 = t1.mem.nodes.length ∧
              ∃ old mid root e X s, t.mem.nodes[t.m_root]? = some old ∧
                old.valid[t.m_max_entries / 2]? = some mid ∧
                t1.mem.nodes[t1.m_root]? = some root ∧ root.m_is_leaf = false ∧
                root.m_num_entries = 1 ∧ root.valid = [e] ∧
                e.get0 = some t.m_root ∧ e.get1 = mid.get1 ∧ e.get3 = some s ∧
                e = e1 ∧ t.mem.nodes.length ≤ s ∧ s < t1.m_root ∧
                t1.mem.nodes[t.m_root]? = some X ∧ X.m_right = some s)) ∧
      BTree.depth_after 1 3 [(1, some 11), (2, some 12), (3, some 13)] = .ok 0 ∧
      BTree.depth_after 1 3 [(1, some 11), (2, some 12), (3, some 13), (4, some 14)] = .ok 1 :=
  ⟨by decide, C18_root_growth 1 3 _ 4 (some 14) (by decide), rfl, rfl⟩

/-- C19: for every node capacity of at least 3 and every sequence of inserts,
in the tree they build every walk from the root along child references of
valid entries has at most `depth()` edges, ends in an allocated node, and that
node is flagged as a leaf exactly when the walk has `depth()` edges; and there
is a walk of `depth()` edges from the root. -/
theorem C19_height_balanced (sizeof_entry block_size : Nat)
    (ops : List (Int × Option Nat)) (hcap : 3 ≤ block_size / sizeof_entry) :
    ∃ t, BTree.insert_all (BTree.new sizeof_entry block_size) ops = .ok t ∧
      (∀ (k x : Nat), Path t.mem k t.m_root x → k ≤ t.depth ∧
        ∃ n, t.mem.nodes[x]? = some n ∧ (n.m_is_leaf = true ↔ k = t.depth)) ∧
      ∃ x, Path t.mem t.depth t.m_root x := by
  obtain ⟨t, ht, hm, hc, _⟩ := MTree.insert_all_steps ops (BTree.new sizeof_entry block_size)
    True (MTree.new_fresh _ _) (by show 2 ≤ block_size / sizeof_entry; omega)
  have h3 : 3 ≤ t.m_max_entries := by rw [hc]; exact hcap
  obtain ⟨lvl, hw, hs, hroot, hlr, _, _⟩ := hm
  refine ⟨t, ht, ?_, Shape.path_down hw hs h3 t.m_depth t.m_root hroot hlr⟩
  intro k x hp
  obtain ⟨hx, hl⟩ := hw.path_level k t.m_root x hroot hp
  have hk : k ≤ t.m_depth := by omega
  refine ⟨hk, t.mem.nodes[x], List.getElem?_eq_getElem hx, ?_⟩
  have hK := (hs x _ (List.getElem?_eq_getElem hx)).2 h3
  show _ ↔ k = t.m_depth
  constructor
  · intro hleaf
    by_contra hne
    have h0 : lvl x ≠ 0 := by omega
    rw [(hK.2 h0).1] at hleaf
    cases hleaf
  · intro hkd
    exact hK.1 (by omega)

theorem C19_height_balanced_witness :
    3 ≤ 3 / 1 ∧
      ∃ t, BTree.insert_all (BTree.new 1 3)
          [(1, some 11), (2, some 12), (3, some 13), (4, some 14)] = .ok t ∧
        (∀ (k x : Nat), Path t.mem k t.m_root x → k ≤ t.depth ∧
          ∃ n, t.mem.nodes[x]? = some n ∧ (n.m_is_leaf = true ↔ k = t.depth)) ∧
        ∃ x, Path t.mem t.depth t.m_root x :=
  ⟨by decide, C19_height_balanced 1 3 _ (by decide)⟩

/-- C20: for every node capacity of at least 3 and every sequence of inserts
of pairwise distinct keys, in the tree they build, for every valid entry `e`
of every node not flagged as a leaf: every key held by a leaf that a walk
along child references reaches from `get<0>` of `e` is smaller than the key
of `e`, and every key held by a leaf reached from `get<3>` of `e` is greater
than or equal to it. -/
theorem C20_search_tree_routing (sizeof_entry block_size : Nat)
    (ops : List (Int × Option Nat)) (hcap : 3 ≤ block_size / sizeof_entry)
    (hnd : (ops.map Prod.fst).Nodup) :
    ∃ t, BTree.insert_all (BTree.new sizeof_entry block_size) ops = .ok t ∧
      ∀ (p : Nat) (n : DataNode_t) (e : data_entry), t.mem.nodes[p]? = some n →
        n.m_is_leaf = false → e ∈ n.valid →
        ∀ (c k x : Nat) (nx : DataNode_t) (z : data_entry), Path t.mem k c x →
          t.mem.nodes[x]? = some nx → nx.m_is_leaf = true → z ∈ nx.valid →
          (e.get0 = some c → z.get1 < e.get1) ∧ (e.get3 = some c → e.get1 ≤ z.get1) := by
  obtain ⟨t, ht, hs, _⟩ := STree.insert_all_strong ops (BTree.new sizeof_entry block_size) _
    (STree.new_strong _ _) hcap hnd (fun _ _ _ h => h)
  refine ⟨t, ht, ?_⟩
  obtain ⟨g, Lc, hS, _⟩ := hs
  intro p n e hn hflag he c k x nx z hpath hx hxleaf hz
  have hN := hS.nodes p n hn
  obtain ⟨h, hh⟩ : ∃ h, g.lvl p = h + 1 :=
    ⟨g.lvl p - 1, by have := (hS.lvl_of_flag hn).2 hflag; omega⟩
  have hwf := (hN.2.2.2.2.2 h hh).2
  have hent := Wf_entry _ _ _ hwf e he
  have hzin : InB (g.lo x) (g.hi x) z.get1 :=
    (((hS.nodes x nx hx).2.2.2.2.1 ((hS.lvl_of_flag hx).1 hxleaf)).2.1 z hz).2.2.1
  constructor
  · intro hc
    obtain ⟨hclt, _⟩ := Wf_child _ _ _ hwf c ⟨e, he, Or.inl hc⟩
    have := (hS.path_within k c x hclt hpath).2 z.get1 hzin
    exact this.2 _ (hent.1 c hc)
  · intro hc
    obtain ⟨hclt, _⟩ := Wf_child _ _ _ hwf c ⟨e, he, Or.inr hc⟩
    have := (hS.path_within k c x hclt hpath).2 z.get1 hzin
    exact this.1 _ (hent.2 c hc)

theorem C20_search_tree_routing_witness :
    (3 ≤ 3 / 1 ∧
        ([((4 : Int), some 14), (3, some 13), (2, some 12), (1, some 11)].map
          Prod.fst).Nodup) ∧
      ∃ t, BTree.insert_all (BTree.new 1 3)
          [(4, some 14), (3, some 13), (2, some 12), (1, some 11)] = .ok t ∧
        ∀ (p : Nat) (n : DataNode_t) (e : data_entry), t.mem.nodes[p]? = some n →
          n.m_is_leaf = false → e ∈ n.valid →
          ∀ (c k x : Nat) (nx : DataNode_t) (z : data_entry), Path t.mem k c x →
            t.mem.nodes[x]? = some nx → nx.m_is_leaf = true → z ∈ nx.valid →
            (e.get0 = some c → z.get1 < e.get1) ∧ (e.get3 = some c → e.get1 ≤ z.get1) :=
  ⟨⟨by decide, by decide⟩, C20_search_tree_routing 1 3 _ (by decide) (by decide)⟩

end BPlusTree
